import Mathlib

/-!
# Verification of the MylibTagSelector tag-core package

This file gives a shallow embedding of the `@tagselector/tag-core` package
(`packages/tag-core/src`) and proves the specification claims about it.

Modelling conventions:
* JS strings are modelled as their UTF-16 code-unit sequences (`List Nat`);
  `uts` encodes a Lean string literal to that representation (emitting a
  surrogate pair for supplementary-plane characters, exactly as UTF-16 does).
* JS `number` values used as sort weights (`order`) are integers in the data
  model and are modelled as `Int`; sort-path entries are array indices and are
  modelled as `Nat`.
* A JS `Map`/`Set` is queried only through lookups and iterated in insertion
  order.  Maps that are only ever queried by key are modelled as functions;
  sets iterated in insertion order are modelled as duplicate-free lists built
  with a membership check before every append, which is exactly `Set.add`.
* `Array.prototype.sort` is required by ECMAScript to be stable; it is
  modelled by the structurally recursive stable sort `sortStable` below (a
  left fold of "insert after all not-greater elements", which is stable and,
  for a consistent comparator, extensionally equal to every stable sort).
* Ancestor-chain loops in the source (`while (currentId !== null)`) are
  modelled with an explicit fuel parameter.  Every such loop in the source
  either terminates within `nodes.length + 2` steps or (for a cyclic
  taxonomy, which validation rejects) diverges; the fuel is always chosen
  at least that large, and lemmas below show the fuel bound is never hit on
  structurally valid input.
-/

namespace TagCore

/-- The UTF-16 code units of one character: the scalar value itself for BMP
characters, a surrogate pair for supplementary-plane characters. -/
def utf16Units (c : Char) : List Nat :=
  let n := c.toNat
  if n < 65536 then [n]
  else [55296 + (n - 65536) / 1024, 56320 + (n - 65536) % 1024]

/-- A JS string, as its UTF-16 code-unit sequence. -/
def uts (s : String) : List Nat :=
  (s.toList.map utf16Units).flatten

/-- `models/node.ts`: `NodeId` is a string; here its code-unit sequence. -/
abbrev NodeId := List Nat

/-- `models/node.ts`: `NodeKind = 'folder' | 'tag'`. -/
inductive NodeKind where
  | folder
  | tag
  deriving DecidableEq

/-- `models/node.ts`: a `TagNode`.  The `export` field (a reserved word in
Lean) is modelled as `exportFlag`; `undefined` is `none`.  The passenger
fields `aliases`/`meta`/`data` are not consulted by any of the operations
modelled here (they matter only to the serialization layer, which is modelled
separately below over raw JSON values), so they are omitted from this record. -/
structure TagNode where
  id : NodeId
  label : List Nat
  parentId : Option NodeId
  kind : NodeKind
  order : Int
  exportFlag : Option Bool := none
  deriving DecidableEq

/-- `models/node.ts` `shouldExport`: the explicit override if present,
otherwise `kind === 'tag'`. -/
def shouldExport (node : TagNode) : Bool :=
  match node.exportFlag with
  | some b => b
  | none => node.kind == .tag

/-- JS `<` on strings: lexicographic comparison of UTF-16 code units. -/
def ltCodeUnits : List Nat → List Nat → Bool
  | [], [] => false
  | [], _ :: _ => true
  | _ :: _, [] => false
  | a :: as, b :: bs => a < b || (a == b && ltCodeUnits as bs)

/-- `ops/compare.ts` `compareStringsUTF16`: `-1 / 1 / 0` by JS `<` and `>`. -/
def compareStringsUTF16 (a b : List Nat) : Int :=
  if ltCodeUnits a b then -1
  else if ltCodeUnits b a then 1
  else 0

/-- `ops/compare.ts` `compareNodes`: `order` ascending by subtraction, then
`label`, then `id`, both by UTF-16 code-unit order. -/
def compareNodes (a b : TagNode) : Int :=
  if a.order ≠ b.order then a.order - b.order
  else if compareStringsUTF16 a.label b.label ≠ 0 then compareStringsUTF16 a.label b.label
  else compareStringsUTF16 a.id b.id

/-- `models/taxonomy.ts`: the container.  `schemaVersion` and `meta` are not
consulted by the index/closure/sort/format operations modelled in this
section, so only the flat node list is carried. -/
structure Taxonomy where
  nodes : List TagNode
  deriving DecidableEq

/-- Insert `x` after every element `y` with `le y x`.  Stable insertion: an
element inserted later never moves in front of an earlier element that
compares equal to it. -/
def insertStable (le : α → α → Bool) (x : α) : List α → List α
  | [] => [x]
  | y :: ys => if le y x then y :: insertStable le x ys else x :: y :: ys

/-- Model of `Array.prototype.sort(cmp)` for the comparator `cmp` with
`le a b ↔ cmp(a,b) ≤ 0`: ECMAScript requires a stable sort, and for a
consistent comparator the stable sorted permutation is unique, so this stable
sort computes exactly the array JS produces. -/
def sortStable (le : α → α → Bool) (l : List α) : List α :=
  l.foldl (fun acc x => insertStable le x acc) []

/-- The comparator `compareNodes` as a boolean "sorts-no-later-than". -/
def nodeLe (a b : TagNode) : Bool :=
  decide (compareNodes a b ≤ 0)

/-- `models/index-types.ts` `TaxonomyIndex`.  The four maps are modelled as
functions (they are only ever queried by key); a key the source map does not
hold is sent to `none` (resp. `[]` for `childrenOf`, matching the
`childrenOf.get(p)` absent case never being iterated). -/
structure TaxonomyIndex where
  taxonomy : Taxonomy
  byId : NodeId → Option TagNode
  childrenOf : Option NodeId → List NodeId
  siblingOrdinal : NodeId → Option Nat
  sortPathCache : NodeId → Option (List Nat)

/-- The source's `byId.get(currentId)?.parentId ?? null` step shared by every
parent-chain walk: the parent id of `i`, `none` both for a root node and for
an id absent from `byId`. -/
def parentOf (byId : NodeId → Option TagNode) (i : NodeId) : Option NodeId :=
  (byId i).bind (fun n => n.parentId)

/-- `ops/index-builder.ts` `computeSortPath`: walk the parent chain from
`nodeId`, prepending each ordinal (here: appending the ordinal to the
recursively computed parent path, which builds the same root-to-node list).
`none` models the thrown `Missing ordinal` error; fuel exhaustion (`0`) can
only be reached on a cyclic taxonomy, on which the source loop diverges. -/
def computeSortPath (byId : NodeId → Option TagNode)
    (siblingOrdinal : NodeId → Option Nat) : Nat → NodeId → Option (List Nat)
  | 0, _ => none
  | fuel + 1, i =>
    match siblingOrdinal i with
    | none => none
    | some ordinal =>
      match parentOf byId i with
      | none => some [ordinal]
      | some p =>
        (computeSortPath byId siblingOrdinal fuel p).map (fun path => path ++ [ordinal])

/-- `ops/index-builder.ts` `buildTaxonomyIndex`.
* `byId`: `Map.set` lets the last write win, hence the reversed `find?`.
* `childrenOf`: the raw per-parent group is the sublist of `nodes` with that
  `parentId` (grouping preserves array order), sorted by `compareNodes`.
* `siblingOrdinal`: the position of the id inside its parent's sorted group;
  for a taxonomy with unique ids (the validated case) this is exactly the
  index assigned by the source's `forEach`.
* `sortPathCache`: computed for exactly the keys of `byId`, with fuel
  `nodes.length + 1`, which the lemmas below show is never exhausted on
  structurally valid input. -/
def buildTaxonomyIndex (t : Taxonomy) : TaxonomyIndex :=
  let byId : NodeId → Option TagNode := fun i => t.nodes.reverse.find? (fun n => n.id == i)
  let childrenOf : Option NodeId → List NodeId := fun p =>
    (sortStable nodeLe (t.nodes.filter (fun n => n.parentId == p))).map (fun n => n.id)
  let siblingOrdinal : NodeId → Option Nat := fun i =>
    (byId i).bind (fun n => (childrenOf n.parentId).findIdx? (fun j => j == i))
  let sortPathCache : NodeId → Option (List Nat) := fun i =>
    match byId i with
    | some _ => computeSortPath byId siblingOrdinal (t.nodes.length + 1) i
    | none => none
  { taxonomy := t, byId := byId, childrenOf := childrenOf,
    siblingOrdinal := siblingOrdinal, sortPathCache := sortPathCache }

/-- Fuel that strictly dominates the length of every parent-chain walk over
this index: a walk visits pairwise distinct ids, each either one of the
taxonomy's node ids or one final id absent from `byId`. -/
def indexFuel (index : TaxonomyIndex) : Nat :=
  index.taxonomy.nodes.length + 2

/-- The inner `while` loop of `ops/closure.ts` `computeClosure`: starting
from `cur`, repeatedly break if the id is already in the closure, otherwise
append it and move to the parent. -/
def closureWalk (byId : NodeId → Option TagNode) :
    Nat → List NodeId → Option NodeId → List NodeId
  | _, closure, none => closure
  | 0, closure, some _ => closure
  | fuel + 1, closure, some i =>
    if closure.contains i then closure
    else closureWalk byId fuel (closure ++ [i]) (parentOf byId i)

/-- `ops/closure.ts` `computeClosure`: one ancestor walk per selected id, in
selection-iteration order, accumulating into one insertion-ordered set. -/
def computeClosure (index : TaxonomyIndex) (selectedIds : List NodeId) : List NodeId :=
  selectedIds.foldl (fun closure i => closureWalk index.byId (indexFuel index) closure (some i)) []

/-- `ops/export-set.ts` `ExportSetOptions`. -/
structure ExportSetOptions where
  includeAncestors : Bool := true
  deriving DecidableEq

/-- `ops/export-set.ts` `computeExportSet`: the candidates are the closure
(or the raw selection with `includeAncestors: false`), filtered to ids whose
node exists and satisfies `shouldExport`; `Set.add` keeps first insertions. -/
def computeExportSet (index : TaxonomyIndex) (selectedIds : List NodeId)
    (options : ExportSetOptions := {}) : List NodeId :=
  let candidates :=
    if options.includeAncestors then computeClosure index selectedIds else selectedIds
  candidates.foldl
    (fun exportSet i =>
      match index.byId i with
      | some node =>
        if shouldExport node && !(exportSet.contains i) then exportSet ++ [i] else exportSet
      | none => exportSet)
    []

/-- `ops/sort.ts` `compareSortPaths`: element-by-element comparison by
subtraction; once one path is exhausted, the length difference (an ancestor's
strict-prefix path sorts first). -/
def compareSortPaths : List Nat → List Nat → Int
  | a :: as, b :: bs => if a ≠ b then (a : Int) - (b : Int) else compareSortPaths as bs
  | as, bs => (as.length : Int) - (bs.length : Int)

/-- The boolean "sorts-no-later-than" on ids induced by their cached sort
paths (only consulted when both paths are present). -/
def pathLe (index : TaxonomyIndex) (a b : NodeId) : Bool :=
  decide (compareSortPaths ((index.sortPathCache a).getD [])
    ((index.sortPathCache b).getD []) ≤ 0)

/-- `ops/sort.ts` `sortByUserOrder`: sorts the ids by their cached sort
paths; the comparator throws on an id with no cached path.  `none` models the
thrown error.  Call pattern of `Array.prototype.sort`: on an array of fewer
than two elements the comparator is never invoked (so a missing path goes
unnoticed and the array is returned as is); on two or more elements every
element takes part in at least one comparison (the engines' merge sort
compares adjacent elements while detecting runs), so a missing path makes the
comparator throw. -/
def sortByUserOrder (index : TaxonomyIndex) (nodeIds : List NodeId) :
    Option (List NodeId) :=
  if nodeIds.length < 2 then some nodeIds
  else if nodeIds.all (fun i => (index.sortPathCache i).isSome) then
    some (sortStable (pathLe index) nodeIds)
  else none

/-- `ops/format.ts` `DEFAULT_SEPARATOR = ", "`. -/
def DEFAULT_SEPARATOR : List Nat := uts ", "

/-- `ops/format.ts` `formatForMylio`: the labels of the ids that resolve in
`byId` (unknown ids silently skipped), joined with the separator. -/
def formatForMylio (index : TaxonomyIndex) (sortedIds : List NodeId)
    (separator : List Nat := DEFAULT_SEPARATOR) : List Nat :=
  List.intercalate separator
    (sortedIds.filterMap (fun i => (index.byId i).map (fun n => n.label)))

/-- The full parent chain starting at `cur` (self first, root last), with
fuel: `[i, parent(i), grandparent(i), …]`. -/
def parentChain (byId : NodeId → Option TagNode) :
    Nat → Option NodeId → List NodeId
  | _, none => []
  | 0, some _ => []
  | fuel + 1, some i => i :: parentChain byId fuel (parentOf byId i)

/-- The parent chain of `i` in an index (self included, root last). -/
def chainOf (index : TaxonomyIndex) (i : NodeId) : List NodeId :=
  parentChain index.byId (indexFuel index) (some i)

/-- The strict ancestors of `i` in an index (nearest first, root last): the
parent chain of `i` without `i` itself. -/
def ancestorIds (index : TaxonomyIndex) (i : NodeId) : List NodeId :=
  (chainOf index i).tail

/-- Structural validity of a taxonomy, as established by the serialization
layer before the core operations run: ids are pairwise distinct, and every
node's sort path can be computed (which packages exactly "no orphan
`parentId` reference and no cycle in any parent chain": a dangling parent has
no sibling ordinal and makes the walk fail, and a cycle exhausts the fuel,
which otherwise strictly dominates the walk length). -/
def ValidStructure (t : Taxonomy) : Prop :=
  (t.nodes.map (fun n => n.id)).Nodup ∧
  ∀ n ∈ t.nodes, ((buildTaxonomyIndex t).sortPathCache n.id).isSome = true

instance (t : Taxonomy) : Decidable (ValidStructure t) := by
  unfold ValidStructure; infer_instance

/-- Longest prefix of a list avoiding `c` (proof helper describing the closure
walk's early break; not part of the source model). -/
def takeUntilMem (c : List NodeId) : List NodeId → List NodeId
  | [] => []
  | x :: xs => if x ∈ c then [] else x :: takeUntilMem c xs

/-- A three-node chain `a → b → c` of tags (counterexample data). -/
def chainTaxonomy : Taxonomy :=
  { nodes :=
    [ { id := uts "a", label := uts "A", parentId := none, kind := .tag, order := 0 },
      { id := uts "b", label := uts "B", parentId := some (uts "a"), kind := .tag, order := 0 },
      { id := uts "c", label := uts "C", parentId := some (uts "b"), kind := .tag, order := 0 } ] }

/-- The `丝袜` (stockings) node of the worked example. -/
def stockingsNode : TagNode :=
  { id := uts "stockings", label := uts "丝袜", parentId := none, kind := .tag, order := 3 }

/-- The `黑丝` (black stockings) node of the worked example. -/
def blackStockingsNode : TagNode :=
  { id := uts "black-stockings", label := uts "黑丝", parentId := some (uts "stockings"),
    kind := .tag, order := 0 }

/-- Concrete nodes used by the C2 witness. -/
def cwOrder1 : TagNode :=
  { id := uts "n1", label := uts "x", parentId := none, kind := .tag, order := 1 }

def cwOrder5 : TagNode :=
  { id := uts "n2", label := uts "x", parentId := none, kind := .tag, order := 5 }

def cwApple : TagNode :=
  { id := uts "n1", label := uts "apple", parentId := none, kind := .tag, order := 0 }

def cwPear : TagNode :=
  { id := uts "n2", label := uts "pear", parentId := none, kind := .tag, order := 0 }

def cwX1 : TagNode :=
  { id := uts "n1", label := uts "x", parentId := none, kind := .tag, order := 0 }

def cwX2 : TagNode :=
  { id := uts "n2", label := uts "x", parentId := none, kind := .tag, order := 0 }

/-! ## The worked example (`tests/worked-examples.test.ts`, from the spec)

The clothing taxonomy: `职业→{学生→JK, 女仆}`, `衣服→{上半身→{水手服, 衬衫},
下半身→{短裙, 长裙}}`, `鞋→{乐福鞋, 高跟鞋}`, `丝袜→{黑丝, 白丝}`. -/

/-- The 17 nodes of the clothing worked example, in source array order. -/
def clothingNodes : List TagNode :=
  [ { id := uts "occupation", label := uts "职业", parentId := none, kind := .folder, order := 0 },
    { id := uts "student", label := uts "学生", parentId := some (uts "occupation"), kind := .tag, order := 0 },
    { id := uts "jk", label := uts "JK", parentId := some (uts "student"), kind := .tag, order := 0 },
    { id := uts "maid", label := uts "女仆", parentId := some (uts "occupation"), kind := .tag, order := 1 },
    { id := uts "clothing", label := uts "衣服", parentId := none, kind := .folder, order := 1 },
    { id := uts "upper", label := uts "上半身", parentId := some (uts "clothing"), kind := .folder, order := 0 },
    { id := uts "sailor", label := uts "水手服", parentId := some (uts "upper"), kind := .tag, order := 0 },
    { id := uts "shirt", label := uts "衬衫", parentId := some (uts "upper"), kind := .tag, order := 1 },
    { id := uts "lower", label := uts "下半身", parentId := some (uts "clothing"), kind := .folder, order := 1 },
    { id := uts "short-skirt", label := uts "短裙", parentId := some (uts "lower"), kind := .tag, order := 0 },
    { id := uts "long-skirt", label := uts "长裙", parentId := some (uts "lower"), kind := .tag, order := 1 },
    { id := uts "shoes", label := uts "鞋", parentId := none, kind := .folder, order := 2 },
    { id := uts "loafer", label := uts "乐福鞋", parentId := some (uts "shoes"), kind := .tag, order := 0 },
    { id := uts "heels", label := uts "高跟鞋", parentId := some (uts "shoes"), kind := .tag, order := 1 },
    { id := uts "stockings", label := uts "丝袜", parentId := none, kind := .tag, order := 3 },
    { id := uts "black-stockings", label := uts "黑丝", parentId := some (uts "stockings"), kind := .tag, order := 0 },
    { id := uts "white-stockings", label := uts "白丝", parentId := some (uts "stockings"), kind := .tag, order := 1 } ]

/-- The clothing worked-example taxonomy. -/
def clothingTaxonomy : Taxonomy := { nodes := clothingNodes }

/-- The worked example's selection `{JK, 黑丝, 水手服, 短裙, 乐福鞋}` in its
insertion order. -/
def clothingSelection : List NodeId :=
  [uts "jk", uts "black-stockings", uts "sailor", uts "short-skirt", uts "loafer"]



/-! ## Serialization layer (`io/…`): JSON values, validation, import and export

The `io` layer works on parsed JSON.  `JSON.parse`/`JSON.stringify` are
modeled at the value level: a JSON text is represented by its parsed value
(objects as key/value lists in text order; `JSON.parse` collapsing
duplicate keys is reflected in `getField`/`setField` reading and writing
the first occurrence of a key).  Finite numbers are carried as integers —
every number the validator inspects numerically must be an integral
`order` value, and finite numbers survive `JSON.stringify` followed by
`JSON.parse` exactly.  The one class of parsed values `JSON.stringify`
does *not* preserve is the non-finite numbers: a number literal whose
value overflows the double range (such as `1e999`) parses to `Infinity`
or `-Infinity` (`typeof` `'number'`, truthy, not an integer), and
`JSON.stringify` emits `null` for them; they are carried explicitly by
the `inf` constructor, and `stringify` composed with the next `parse` is
modeled by `stringifyParse`, which replaces every `inf` with `null` and
is the identity everywhere else.  (`NaN` cannot arise from `JSON.parse`
and is not modeled.) -/

/-- A parsed JSON value (`JSON.parse` output).  `inf b` is the non-finite
number `Infinity` (or `-Infinity` when `b` is `true`) produced by an
overflowing number literal such as `1e999`. -/
inductive Json where
  | null
  | bool (b : Bool)
  | num (n : Int)
  | inf (neg : Bool)
  | str (s : String)
  | arr (elems : List Json)
  | obj (fields : List (String × Json))

/-- Property access `value[key]` on a parsed value: the first binding of the
key on an object (parsed objects have unique keys), `undefined` (`none`) on
everything else. -/
def getField (j : Json) (key : String) : Option Json :=
  match j with
  | Json.obj fields => fields.lookup key
  | _ => none

/-- Replace the first binding of `key` in place, or append a new binding:
the object-spread update `{ ...o, key: v }` on parsed objects. -/
def setFields (fields : List (String × Json)) (key : String) (v : Json) :
    List (String × Json) :=
  match fields with
  | [] => [(key, v)]
  | (k, w) :: rest => if k == key then (k, v) :: rest else (k, w) :: setFields rest key v

/-- `{ ...o, key: v }` on a JSON value (only objects are updated). -/
def setField (j : Json) (key : String) (v : Json) : Json :=
  match j with
  | Json.obj fields => Json.obj (setFields fields key v)
  | _ => j

/-- JS falsiness of a parsed JSON value (`!v`): `null`, `false`, `0` and the
empty string are falsy; arrays and objects are always truthy. -/
def jsFalsy : Json → Bool
  | Json.null => true
  | Json.bool b => !b
  | Json.num n => n == 0
  | Json.str s => s == ""
  | _ => false

/-- `!obj.key`: the field is absent (`undefined`) or falsy. -/
def jsFalsyField (j : Json) (key : String) : Bool :=
  match getField j key with
  | none => true
  | some v => jsFalsy v

/-- `typeof v === 'object' && v !== null` — in JS this includes arrays. -/
def isObjLike : Json → Bool
  | Json.obj _ => true
  | Json.arr _ => true
  | _ => false

/-- JS template interpolation `String(v)` for the values reaching the
validator's messages.  Primitive values convert exactly; an array or object
value (possible only on inputs the same validator already reports with
`INVALID_TYPE`-class errors) is shown as a placeholder rather than by
`Array.prototype.toString`'s recursive join, which this structural
embedding does not model — theorems about exact message texts therefore
carry a `labelDisplayable` hypothesis. -/
def jsDisplay : Json → String
  | Json.null => "null"
  | Json.bool b => cond b "true" "false"
  | Json.num n => toString n
  | Json.inf b => cond b "-Infinity" "Infinity"
  | Json.str s => s
  | Json.obj _ => "[object Object]"
  | Json.arr _ => "[object Array]"

/-- The label value of a node is absent or a primitive, so `jsDisplay`
renders the validator's messages about it exactly. -/
def labelDisplayable (node : Json) : Bool :=
  match getField node "label" with
  | some (Json.arr _) => false
  | some (Json.obj _) => false
  | _ => true

/-- `io/schema.ts` `ValidationError` (the `code` union is kept as a
string). -/
structure ValidationError where
  path : String
  message : String
  code : String
  deriving DecidableEq

/-- `io/schema.ts` `ValidationOptions`. -/
structure ValidationOptions where
  enforceTagLeaf : Option Bool := none
  deriving DecidableEq

def mkError (path message code : String) : ValidationError :=
  { path := path, message := message, code := code }

/-- `models/taxonomy.ts` `SCHEMA_VERSION`. -/
def SCHEMA_VERSION : String := "1.3.1"

/-- `s.split(sep)` for a one-character separator, over the character list. -/
def splitOnChar (sep : Char) : List Char → List Char → List String
  | [], acc => [String.mk acc.reverse]
  | c :: cs, acc =>
    if c == sep then String.mk acc.reverse :: splitOnChar sep cs []
    else splitOnChar sep cs (c :: acc)

/-- The value of a decimal digit string (`none` on any non-digit). -/
def decValue : List Char → Nat → Option Nat
  | [], acc => some acc
  | c :: cs, acc =>
    if c.isDigit then decValue cs (acc * 10 + (c.toNat - 48)) else none

/-- `Number(s)` as applied to the pieces of `schemaVersion.split('.')`:
blank strings are `0`, unsigned decimal digit strings take their value,
anything else is `NaN` (`none`). -/
def jsNum (s : String) : Option Int :=
  if s.data.all (fun c => c == ' ') then some 0
  else (decValue s.data 0).map (fun n => (n : Int))

/-- The `schemaVersion` checks of `validateTaxonomy`: missing/falsy, then
string, then same `major.minor` as `SCHEMA_VERSION` (pieces run through
`Number`, a missing piece and `NaN` both failing the comparison). -/
def schemaVersionErrors (data : Json) : List ValidationError :=
  match getField data "schemaVersion" with
  | none => [mkError "schemaVersion" "Missing schemaVersion" "MISSING_FIELD"]
  | some v =>
    if jsFalsy v then [mkError "schemaVersion" "Missing schemaVersion" "MISSING_FIELD"]
    else
      match v with
      | Json.str sv =>
        if ((splitOnChar '.' sv.data [])[0]?.bind jsNum) =
              ((splitOnChar '.' SCHEMA_VERSION.data [])[0]?.bind jsNum)
            ∧ ((splitOnChar '.' sv.data [])[1]?.bind jsNum) =
              ((splitOnChar '.' SCHEMA_VERSION.data [])[1]?.bind jsNum)
        then []
        else [mkError "schemaVersion"
          ("Incompatible schema version: " ++ sv ++ ", expected " ++ SCHEMA_VERSION)
          "INVALID_SCHEMA_VERSION"]
      | _ => [mkError "schemaVersion" "schemaVersion must be a string" "INVALID_TYPE"]

/-- The per-node loop state of `validateTaxonomy`: accumulated errors, the
`nodeIds` set and the `nodeMap` (a `Map`, modeled as a key/value list in
insertion order; `set` overwrites in place). -/
structure ScanState where
  errors : List ValidationError
  nodeIds : List String
  nodeMap : List (String × Json)

/-- `Map.set`: overwrite the value of an existing key in place, else append. -/
def mapSet (m : List (String × Json)) (k : String) (v : Json) :
    List (String × Json) :=
  match m with
  | [] => [(k, v)]
  | (k', w) :: rest => if k' == k then (k', v) :: rest else (k', w) :: mapSet rest k v

/-- Whether the per-node loop reaches the registration of a node (no
`continue`): the node is an object and its id a non-empty string — and in
that case, the id. -/
def nodeIdOk (node : Json) : Option String :=
  if !(isObjLike node) then none
  else match getField node "id" with
    | some (Json.str id) => if id == "" then none else some id
    | _ => none

/-- The errors of the two `continue` cases: non-object node, then non-string
or empty id. -/
def objIdErrors (i : Nat) (node : Json) : List ValidationError :=
  if !(isObjLike node) then
    [mkError ("nodes[" ++ toString i ++ "]") "Node must be an object" "INVALID_TYPE"]
  else
    match getField node "id" with
    | some (Json.str id) =>
      if id == "" then
        [mkError ("nodes[" ++ toString i ++ "].id") "id must be a non-empty string"
          "MISSING_FIELD"]
      else []
    | _ =>
      [mkError ("nodes[" ++ toString i ++ "].id") "id must be a non-empty string"
        "MISSING_FIELD"]

/-- `typeof n.label !== 'string'`. -/
def labelTypeErrors (i : Nat) (node : Json) : List ValidationError :=
  match getField node "label" with
  | some (Json.str _) => []
  | _ => [mkError ("nodes[" ++ toString i ++ "].label") "label must be a string"
      "MISSING_FIELD"]

/-- `nodeIds.has(n.id)`. -/
def dupErrors (i : Nat) (nodeIds : List String) (id : String) : List ValidationError :=
  if nodeIds.contains id then
    [mkError ("nodes[" ++ toString i ++ "].id") ("Duplicate node ID: " ++ id)
      "DUPLICATE_ID"]
  else []

/-- `n.parentId !== null && typeof n.parentId !== 'string'`. -/
def parentTypeErrors (i : Nat) (node : Json) : List ValidationError :=
  match getField node "parentId" with
  | some Json.null => []
  | some (Json.str _) => []
  | _ => [mkError ("nodes[" ++ toString i ++ "].parentId")
      "parentId must be null or a string" "INVALID_TYPE"]

/-- `n.kind !== 'folder' && n.kind !== 'tag'`. -/
def kindErrors (i : Nat) (node : Json) : List ValidationError :=
  match getField node "kind" with
  | some (Json.str k) =>
    if k == "folder" || k == "tag" then []
    else [mkError ("nodes[" ++ toString i ++ "].kind")
      "kind must be \"folder\" or \"tag\"" "INVALID_KIND"]
  | _ => [mkError ("nodes[" ++ toString i ++ "].kind")
      "kind must be \"folder\" or \"tag\"" "INVALID_KIND"]

/-- `order` must be an integer number, but may be absent (`undefined`). -/
def orderErrors (i : Nat) (node : Json) : List ValidationError :=
  match getField node "order" with
  | some (Json.num _) => []
  | none => []
  | some _ => [mkError ("nodes[" ++ toString i ++ "].order")
      "order must be an integer" "INVALID_ORDER"]

/-- A string label must not contain a comma. -/
def commaErrors (i : Nat) (node : Json) : List ValidationError :=
  match getField node "label" with
  | some (Json.str l) =>
    if l.data.contains ',' then
      [mkError ("nodes[" ++ toString i ++ "].label") "label must not contain comma"
        "FORBIDDEN_CHAR"]
    else []
  | _ => []

/-- The errors pushed by one iteration of `validateTaxonomy`'s per-node
loop (index `i`, `nodeIds` as collected so far): the two `continue` cases
(non-object node, invalid id) and otherwise the label, duplicate-id,
`parentId`, `kind`, `order` and forbidden-comma checks in source order. -/
def nodeErrors (i : Nat) (nodeIds : List String) (node : Json) :
    List ValidationError :=
  match nodeIdOk node with
  | some id =>
    labelTypeErrors i node ++ dupErrors i nodeIds id ++ parentTypeErrors i node ++
      kindErrors i node ++ orderErrors i node ++ commaErrors i node
  | none => objIdErrors i node

/-- One iteration of `validateTaxonomy`'s per-node loop: push this node's
errors; unless the loop `continue`d, record the id and `nodeMap.set`. -/
def scanNode (i : Nat) (node : Json) (st : ScanState) : ScanState :=
  match nodeIdOk node with
  | some id =>
    { errors := st.errors ++ nodeErrors i st.nodeIds node,
      nodeIds := if st.nodeIds.contains id then st.nodeIds else st.nodeIds ++ [id],
      nodeMap := mapSet st.nodeMap id node }
  | none => { st with errors := st.errors ++ nodeErrors i st.nodeIds node }

/-- The per-node loop from index `k` onwards (proof helper view of the
loop's tail). -/
def scanFold (k : Nat) (ns : List Json) (st : ScanState) : ScanState :=
  (List.enumFrom k ns).foldl (fun st p => scanNode p.1 p.2 st) st

/-- The whole per-node loop over the `nodes` array. -/
def scanNodes (nodes : List Json) : ScanState :=
  nodes.enum.foldl (fun st p => scanNode p.1 p.2 st)
    { errors := [], nodeIds := [], nodeMap := [] }

/-- `!nodeMap.has(pid)` reported as an orphan error for the entry `key`. -/
def orphanLookupErrors (nodeMap : List (String × Json)) (key pid : String) :
    List ValidationError :=
  if (nodeMap.lookup pid).isSome then []
  else [mkError ("nodes[" ++ key ++ "].parentId")
    ("Orphan node: parentId \"" ++ pid ++ "\" does not exist") "ORPHAN_NODE"]

/-- The orphan check for one `nodeMap` entry: a `parentId` that is not
`null` must name an existing node.  (A `parentId` value that is neither
`null` nor a string never matches a key; its interpolation goes through
`jsDisplay`.) -/
def orphanEntryErrors (nodeMap : List (String × Json)) (p : String × Json) :
    List ValidationError :=
  match getField p.2 "parentId" with
  | some Json.null => []
  | some (Json.str pid) => orphanLookupErrors nodeMap p.1 pid
  | some v => [mkError ("nodes[" ++ p.1 ++ "].parentId")
      ("Orphan node: parentId \"" ++ jsDisplay v ++ "\" does not exist") "ORPHAN_NODE"]
  | none => [mkError ("nodes[" ++ p.1 ++ "].parentId")
      ("Orphan node: parentId \"undefined\" does not exist") "ORPHAN_NODE"]

/-- The orphan check over the whole `nodeMap`. -/
def orphanErrors (nodeMap : List (String × Json)) : List ValidationError :=
  nodeMap.foldl (fun errs p => errs ++ orphanEntryErrors nodeMap p) []

/-- `currentId = node?.parentId ?? null` of the circular-reference walk
(a non-string `parentId` value, which occurs only alongside an
`INVALID_TYPE` error on the same input, ends the walk like `null`). -/
def parentIdOf (nodeMap : List (String × Json)) (id : String) : Option String :=
  match nodeMap.lookup id with
  | some node =>
    match getField node "parentId" with
    | some (Json.str pid) => some pid
    | _ => none
  | none => none

/-- The `while` walk of the circular-reference check, starting at
`startId`, with the visited set and explicit fuel (the loop adds a fresh id
to `visited` each step and every id but the last lies in `nodeMap`, so
`nodeMap.length + 2` steps always suffice). -/
def circularWalk (nodeMap : List (String × Json)) (startId : String) :
    Nat → List String → Option String → List ValidationError
  | _, _, none => []
  | 0, _, some _ => []
  | fuel + 1, visited, some cur =>
    if visited.contains cur then
      [mkError ("nodes[" ++ startId ++ "]")
        ("Circular reference detected involving node: " ++ cur) "CIRCULAR_REF"]
    else circularWalk nodeMap startId fuel (visited ++ [cur]) (parentIdOf nodeMap cur)

/-- The circular-reference check: one walk per `nodeMap` key. -/
def circularErrors (nodeMap : List (String × Json)) : List ValidationError :=
  nodeMap.foldl (fun errs p =>
    errs ++ circularWalk nodeMap p.1 (nodeMap.length + 2) [] (some p.1)) []

/-- `node.kind === 'tag'`. -/
def isTagNode (node : Json) : Bool :=
  match getField node "kind" with
  | some (Json.str k) => k == "tag"
  | _ => false

/-- `node.parentId === pid` for a string `pid` (a `Map` key comparison:
non-string `parentId` values never equal a string key). -/
def hasParent (node : Json) (pid : String) : Bool :=
  match getField node "parentId" with
  | some (Json.str s) => s == pid
  | _ => false

/-- `childrenOf.get(pid)`: the ids of the `nodeMap` entries whose parent is
`pid`, in map insertion order. -/
def childrenIds (nodeMap : List (String × Json)) (pid : String) : List String :=
  (nodeMap.filter (fun p => hasParent p.2 pid)).map (fun p => p.1)

/-- `childNode?.label ?? '(unknown)'` rendered into the message. -/
def childLabelOf (nodeMap : List (String × Json)) (cid : String) : String :=
  match nodeMap.lookup cid with
  | some cnode =>
    match getField cnode "label" with
    | some Json.null => "(unknown)"
    | some v => jsDisplay v
    | none => "(unknown)"
  | none => "(unknown)"

/-- The raw interpolation of `node.label` (an absent label prints
`undefined`). -/
def labelString (node : Json) : String :=
  match getField node "label" with
  | none => "undefined"
  | some v => jsDisplay v

/-- The `TAG_HAS_CHILDREN` error reported for child `cid` of the tag parent
entry `p`. -/
def leafErrorOf (nodeMap : List (String × Json)) (p : String × Json)
    (cid : String) : ValidationError :=
  mkError ("nodes[" ++ cid ++ "]")
    ("Node \"" ++ childLabelOf nodeMap cid ++ "\" (id: " ++ cid ++
      ") has parent tag \"" ++ labelString p.2 ++ "\" (id: " ++ p.1 ++
      "). Tags cannot have children. Either change parent to a folder, or change parent's kind to 'folder'.")
    "TAG_HAS_CHILDREN"

/-- The `enforceTagLeaf` check for one `nodeMap` entry: a tag parent
reports one error per child. -/
def leafEntryErrors (nodeMap : List (String × Json)) (p : String × Json) :
    List ValidationError :=
  if isTagNode p.2 then (childrenIds nodeMap p.1).map (leafErrorOf nodeMap p) else []

/-- The `enforceTagLeaf` check: one error per child of every tag node. -/
def leafErrors (nodeMap : List (String × Json)) : List ValidationError :=
  nodeMap.foldl (fun errs p => errs ++ leafEntryErrors nodeMap p) []

/-- `io/schema.ts` `validateTaxonomy`, returning the error list (the
source's `valid` flag is its emptiness).  The three early returns of the
source are the branches before the node scan. -/
def validateTaxonomy (data : Json) (options : ValidationOptions := {}) :
    List ValidationError :=
  if !(isObjLike data) then [mkError "" "Taxonomy must be an object" "INVALID_TYPE"]
  else
    let svErrors := schemaVersionErrors data
    if jsFalsyField data "nodes" then
      svErrors ++ [mkError "nodes" "Missing nodes array" "MISSING_FIELD"]
    else
      match getField data "nodes" with
      | some (Json.arr nodes) =>
        let st := scanNodes nodes
        svErrors ++ st.errors ++ orphanErrors st.nodeMap ++ circularErrors st.nodeMap ++
          (if options.enforceTagLeaf.getD true then leafErrors st.nodeMap else [])
      | _ => svErrors ++ [mkError "nodes" "nodes must be an array" "INVALID_TYPE"]

/-- `node.order === undefined || node.order === null`. -/
def orderMissing (node : Json) : Bool :=
  match getField node "order" with
  | none => true
  | some Json.null => true
  | _ => false

/-- The `byParent` grouping key of `initializeOrder` (`node.parentId`; on
the validated inputs `initializeOrder` receives, this is `null` or a
string). -/
def parentKey (node : Json) : Option String :=
  match getField node "parentId" with
  | some (Json.str s) => some s
  | _ => none

/-- One node of `initializeOrder`'s loop: a node missing `order` gets its
position among its siblings (nodes with the same `parentId`, in array
order).  `siblings.indexOf(node)` is reference identity on distinct parsed
objects, modeled by pairing every node with its array index; the node is
always found, so the `index >= 0` guard always takes the index. -/
def initPatch (nodes : List Json) (p : Nat × Json) : Json :=
  if orderMissing p.2 then
    setField p.2 "order" (Json.num (Int.ofNat
      ((nodes.enum.filter (fun q => parentKey q.2 == parentKey p.2)).findIdx
        (fun q => q.1 == p.1))))
  else p.2

/-- `io/order-utils.ts` `initializeOrder`: replace the `nodes` array with
its order-backfilled version.  (The source iterates `taxonomy.nodes`
unconditionally; it only ever runs after validation, which guarantees the
array — the embedding returns non-conforming input unchanged.) -/
def initializeOrder (taxonomy : Json) : Json :=
  match getField taxonomy "nodes" with
  | some (Json.arr nodes) =>
    setField taxonomy "nodes" (Json.arr (nodes.enum.map (initPatch nodes)))
  | _ => taxonomy

/-- `io/import.ts`: `if (!taxonomy.schemaVersion) taxonomy = { ...taxonomy,
schemaVersion: SCHEMA_VERSION }`. -/
def ensureSchemaVersion (taxonomy : Json) : Json :=
  if jsFalsyField taxonomy "schemaVersion" then
    setField taxonomy "schemaVersion" (Json.str SCHEMA_VERSION)
  else taxonomy

/-- `io/import.ts` `importTaxonomy` on the parsed value: validate (default
options), then backfill `schemaVersion` and missing orders; `none` is the
`success: false` result. -/
def importTaxonomy (jsonValue : Json) : Option Json :=
  if (validateTaxonomy jsonValue).isEmpty then
    some (initializeOrder (ensureSchemaVersion jsonValue))
  else none

/-- `JSON.parse ∘ JSON.stringify` on a parsed value: `stringify` emits
`null` for the non-finite numbers and reproduces every other value
exactly, so the next `parse` recovers the value with every `inf` replaced
by `null`.  The `fuel` argument bounds the traversal depth (the recursion
is over `fuel` so that the kernel can evaluate it); any fuel that
`jdepthLe` certifies fully normalizes the value. -/
def stringifyParse : Nat → Json → Json
  | 0, j => j
  | f + 1, j =>
    match j with
    | Json.inf _ => Json.null
    | Json.arr l => Json.arr (l.map (stringifyParse f))
    | Json.obj l => Json.obj (l.map (fun p => (p.1, stringifyParse f p.2)))
    | v => v

/-- `fuel` bounds the constructor depth of the value: every leaf sits
under fewer than `fuel` nested arrays/objects (so `stringifyParse` with
this fuel reaches it). -/
def jdepthLe : Nat → Json → Bool
  | 0, _ => false
  | f + 1, j =>
    match j with
    | Json.arr l => l.all (jdepthLe f)
    | Json.obj l => l.all (fun p => jdepthLe f p.2)
    | _ => true

/-- No non-finite number occurs in the value (down to depth `fuel`, with
`jdepthLe`-style fuel accounting). -/
def infFree : Nat → Json → Bool
  | 0, _ => false
  | f + 1, j =>
    match j with
    | Json.inf _ => false
    | Json.arr l => l.all (infFree f)
    | Json.obj l => l.all (fun p => infFree f p.2)
    | _ => true

/-- `io/export.ts` `exportTaxonomy`, modeled by the `JSON.parse` value of
its output string: with default options (`pretty` only inserts
whitespace, `includeMetaTimestamp` defaults to `false`) the output text
is `JSON.stringify(taxonomy)`, whose parse value is
`stringifyParse fuel taxonomy` for any sufficient `fuel`
(`jdepthLe fuel taxonomy`). -/
def exportTaxonomy (fuel : Nat) (taxonomy : Json) : Json :=
  stringifyParse fuel taxonomy

/-- Proof helper: the scan-relevant agreement between a node and its
order-backfilled version — everything the validator inspects is unchanged
except `order`, which is untouched or set to an integer. -/
def ScanSim (a b : Json) : Prop :=
  isObjLike b = isObjLike a ∧
  getField b "id" = getField a "id" ∧
  getField b "label" = getField a "label" ∧
  getField b "parentId" = getField a "parentId" ∧
  getField b "kind" = getField a "kind" ∧
  (getField b "order" = getField a "order" ∨ ∃ z : Int, getField b "order" = some (Json.num z))

/-- Proof helper: `nodeMap` entries agreeing on the key and on every field
the post-scan checks (orphan, circular, leaf) inspect. -/
def EntrySim (p q : String × Json) : Prop :=
  p.1 = q.1 ∧
  getField q.2 "label" = getField p.2 "label" ∧
  getField q.2 "parentId" = getField p.2 "parentId" ∧
  getField q.2 "kind" = getField p.2 "kind"

/-- Proof helper: what an error-free scan guarantees of each node — it is
an object (not merely object-like) whose `order` is absent or an integer. -/
def NodeClean (node : Json) : Prop :=
  (∃ fields, node = Json.obj fields) ∧
  (getField node "order" = none ∨ ∃ z : Int, getField node "order" = some (Json.num z))

/-- Proof helper: the field shapes an error-free per-node scan certifies —
the node is an object whose `id`, `label` and `kind` are strings, whose
`parentId` is `null` or a string and whose `order` is absent or an
integer.  All of these are leaf values, so `stringifyParse` preserves
every field the validator inspects. -/
def NodeLeafFields (node : Json) : Prop :=
  (∃ fields, node = Json.obj fields) ∧
  (∃ s, getField node "id" = some (Json.str s)) ∧
  (∃ s, getField node "label" = some (Json.str s)) ∧
  (getField node "parentId" = some Json.null ∨
    ∃ s, getField node "parentId" = some (Json.str s)) ∧
  (∃ s, getField node "kind" = some (Json.str s)) ∧
  (getField node "order" = none ∨ ∃ z : Int, getField node "order" = some (Json.num z))

/-- A three-node chain for the leaf rule: the tag `a`, its folder child
`b`, and `b`'s tag child `c` (so `c`'s grandparent — but not its parent —
is a tag). -/
def leafChainNodes : List Json :=
  [ Json.obj [("id", Json.str "a"), ("label", Json.str "A"), ("parentId", Json.null),
      ("kind", Json.str "tag"), ("order", Json.num 0)],
    Json.obj [("id", Json.str "b"), ("label", Json.str "B"), ("parentId", Json.str "a"),
      ("kind", Json.str "folder"), ("order", Json.num 0)],
    Json.obj [("id", Json.str "c"), ("label", Json.str "C"), ("parentId", Json.str "b"),
      ("kind", Json.str "tag"), ("order", Json.num 0)] ]

/-- The chain taxonomy as a parsed JSON document. -/
def leafChainJson : Json :=
  Json.obj [("schemaVersion", Json.str "1.3.1"), ("nodes", Json.arr leafChainNodes)]

/-- A well-formed two-node document whose folder root has no `order` field
(exercising `initializeOrder`'s backfill). -/
def rtInput : Json :=
  Json.obj [("schemaVersion", Json.str "1.3.1"),
    ("nodes", Json.arr
      [ Json.obj [("id", Json.str "a"), ("label", Json.str "A"), ("parentId", Json.null),
          ("kind", Json.str "folder")],
        Json.obj [("id", Json.str "b"), ("label", Json.str "B"), ("parentId", Json.str "a"),
          ("kind", Json.str "tag"), ("order", Json.num 7),
          ("aliases", Json.arr [Json.str "bee"]), ("meta", Json.obj [("color", Json.str "red")])] ])]

/-- The taxonomy `importTaxonomy` produces from `rtInput`: the root gained
`order: 0`, everything else — including the passenger fields — unchanged. -/
def rtResult : Json :=
  Json.obj [("schemaVersion", Json.str "1.3.1"),
    ("nodes", Json.arr
      [ Json.obj [("id", Json.str "a"), ("label", Json.str "A"), ("parentId", Json.null),
          ("kind", Json.str "folder"), ("order", Json.num 0)],
        Json.obj [("id", Json.str "b"), ("label", Json.str "B"), ("parentId", Json.str "a"),
          ("kind", Json.str "tag"), ("order", Json.num 7),
          ("aliases", Json.arr [Json.str "bee"]), ("meta", Json.obj [("color", Json.str "red")])] ])]

/-- A well-formed one-node document whose top-level passenger field `meta`
holds `{"budget": 1e999}` — the literal overflows to `Infinity`, which the
validator never inspects. -/
def infDoc : Json :=
  Json.obj [("schemaVersion", Json.str "1.3.1"),
    ("nodes", Json.arr
      [ Json.obj [("id", Json.str "a"), ("label", Json.str "A"), ("parentId", Json.null),
          ("kind", Json.str "folder"), ("order", Json.num 0)] ]),
    ("meta", Json.obj [("budget", Json.inf false)])]

/-- What re-importing the export of `infDoc` yields: identical except that
`meta.budget` became `null` (`JSON.stringify` emits `null` for
`Infinity`). -/
def infRound : Json :=
  Json.obj [("schemaVersion", Json.str "1.3.1"),
    ("nodes", Json.arr
      [ Json.obj [("id", Json.str "a"), ("label", Json.str "A"), ("parentId", Json.null),
          ("kind", Json.str "folder"), ("order", Json.num 0)] ]),
    ("meta", Json.obj [("budget", Json.null)])]

/-! ## Lemmas about the stable sort -/

theorem insertStable_perm (le : α → α → Bool) (x : α) (l : List α) :
    (insertStable le x l).Perm (x :: l) := by
  induction l with
  | nil => exact List.Perm.refl _
  | cons y ys ih =>
    unfold insertStable
    by_cases h : le y x
    · rw [if_pos h]
      exact (ih.cons y).trans (List.Perm.swap x y ys)
    · rw [if_neg h]

theorem mem_insertStable {le : α → α → Bool} {x a : α} {l : List α} :
    a ∈ insertStable le x l ↔ a = x ∨ a ∈ l := by
  rw [(insertStable_perm le x l).mem_iff, List.mem_cons]

theorem sortStable_perm (le : α → α → Bool) (l : List α) : (sortStable le l).Perm l := by
  suffices h : ∀ (l acc : List α),
      (l.foldl (fun acc x => insertStable le x acc) acc).Perm (acc ++ l) by
    simpa [sortStable] using h l []
  intro l
  induction l with
  | nil => intro acc; simp
  | cons x xs ih =>
    intro acc
    refine (ih (insertStable le x acc)).trans ?_
    exact ((insertStable_perm le x acc).append_right xs).trans List.perm_middle.symm

theorem mem_sortStable {le : α → α → Bool} {a : α} {l : List α} :
    a ∈ sortStable le l ↔ a ∈ l :=
  (sortStable_perm le l).mem_iff

theorem pairwise_insertStable {le : α → α → Bool}
    (trans : ∀ a b c, le a b = true → le b c = true → le a c = true)
    (total : ∀ a b, le a b = true ∨ le b a = true) (x : α) {l : List α}
    (h : l.Pairwise (fun a b => le a b = true)) :
    (insertStable le x l).Pairwise (fun a b => le a b = true) := by
  induction l with
  | nil => simp [insertStable]
  | cons y ys ih =>
    rw [List.pairwise_cons] at h
    unfold insertStable
    by_cases hyx : le y x
    · rw [if_pos hyx, List.pairwise_cons]
      refine ⟨fun z hz => ?_, ih h.2⟩
      rcases mem_insertStable.1 hz with rfl | hz
      · exact hyx
      · exact h.1 z hz
    · rw [if_neg hyx, List.pairwise_cons]
      have hxy : le x y = true := (total x y).resolve_right (by simpa using hyx)
      refine ⟨fun z hz => ?_, List.pairwise_cons.2 h⟩
      rcases List.mem_cons.1 hz with rfl | hz
      · exact hxy
      · exact trans x y z hxy (h.1 z hz)

theorem pairwise_sortStable (le : α → α → Bool)
    (trans : ∀ a b c, le a b = true → le b c = true → le a c = true)
    (total : ∀ a b, le a b = true ∨ le b a = true) (l : List α) :
    (sortStable le l).Pairwise (fun a b => le a b = true) := by
  suffices h : ∀ (l acc : List α), acc.Pairwise (fun a b => le a b = true) →
      (l.foldl (fun acc x => insertStable le x acc) acc).Pairwise
        (fun a b => le a b = true) by
    exact h l [] (by simp)
  intro l
  induction l with
  | nil => intro acc hacc; simpa using hacc
  | cons x xs ih =>
    intro acc hacc
    exact ih _ (pairwise_insertStable trans total x hacc)

/-- Two pairwise-ordered lists that are permutations of each other are equal,
provided the order is antisymmetric on the elements involved. -/
theorem eq_of_perm_of_pairwise {r : α → α → Prop} :
    ∀ {l₁ l₂ : List α}, l₁.Perm l₂ → l₁.Pairwise r → l₂.Pairwise r →
      (∀ a ∈ l₁, ∀ b ∈ l₁, r a b → r b a → a = b) → l₁ = l₂
  | [], _, hp, _, _, _ => hp.nil_eq
  | a :: t₁, l₂, hp, h₁, h₂, hanti => by
    cases l₂ with
    | nil => exact hp.eq_nil
    | cons a' t₂ =>
      have ha₂ : a ∈ a' :: t₂ := hp.mem_iff.1 (List.mem_cons_self a t₁)
      have haa : a = a' := by
        rcases List.mem_cons.1 ha₂ with h | ha
        · exact h
        · have ha' : a' ∈ a :: t₁ := hp.symm.mem_iff.1 (List.mem_cons_self a' t₂)
          rcases List.mem_cons.1 ha' with h | ha'
          · exact h.symm
          · have r₁ : r a a' := (List.pairwise_cons.1 h₁).1 a' ha'
            have r₂ : r a' a := (List.pairwise_cons.1 h₂).1 a ha
            exact hanti a (List.mem_cons_self a t₁) a' (List.mem_cons.2 (Or.inr ha')) r₁ r₂
      subst haa
      have ht : t₁ = t₂ :=
        eq_of_perm_of_pairwise hp.cons_inv (List.pairwise_cons.1 h₁).2
          (List.pairwise_cons.1 h₂).2
          (fun x hx y hy => hanti x (List.mem_cons.2 (Or.inr hx)) y
            (List.mem_cons.2 (Or.inr hy)))
      rw [ht]

/-- In a pairwise-ordered list, an element that is not "after" a distinct
element occurs at a strictly earlier position. -/
theorem before_of_pairwise {r : α → α → Prop} :
    ∀ {l : List α}, l.Pairwise r → ∀ {x y : α}, x ∈ l → y ∈ l → x ≠ y → ¬ r y x →
      ∃ k₁ k₂ : Nat, k₁ < k₂ ∧ l[k₁]? = some x ∧ l[k₂]? = some y
  | [], _, x, _, hx, _, _, _ => absurd hx (List.not_mem_nil x)
  | a :: t, hp, x, y, hx, hy, hne, hr => by
    rcases List.mem_cons.1 hx with rfl | hxt
    · have hyt : y ∈ t := (List.mem_cons.1 hy).resolve_left (fun h => hne h.symm)
      obtain ⟨k, hk⟩ := List.getElem?_of_mem hyt
      exact ⟨0, k + 1, Nat.succ_pos k, by simp, by simpa using hk⟩
    · rcases List.mem_cons.1 hy with rfl | hyt
      · exact absurd ((List.pairwise_cons.1 hp).1 x hxt) hr
      · obtain ⟨k₁, k₂, hlt, h₁, h₂⟩ :=
          before_of_pairwise (List.pairwise_cons.1 hp).2 hxt hyt hne hr
        exact ⟨k₁ + 1, k₂ + 1, by omega, by simpa using h₁, by simpa using h₂⟩

/-! ## Lemmas about the UTF-16 code-unit comparator -/

theorem ltCodeUnits_irrefl : ∀ a : List Nat, ltCodeUnits a a = false
  | [] => rfl
  | _ :: as => by simp [ltCodeUnits, ltCodeUnits_irrefl as]

theorem ltCodeUnits_asymm : ∀ {a b : List Nat},
    ltCodeUnits a b = true → ltCodeUnits b a = false
  | [], [], h => by simp [ltCodeUnits] at h
  | [], _ :: _, _ => rfl
  | _ :: _, [], h => by simp [ltCodeUnits] at h
  | x :: as, y :: bs, h => by
    simp only [ltCodeUnits, Bool.or_eq_true, Bool.and_eq_true, beq_iff_eq,
      decide_eq_true_eq] at h
    simp only [ltCodeUnits, Bool.or_eq_false_iff, Bool.and_eq_false_iff,
      decide_eq_false_iff_not]
    rcases h with h | ⟨rfl, h⟩
    · exact ⟨by omega, Or.inl (by simpa using Nat.ne_of_gt h)⟩
    · exact ⟨by omega, Or.inr (ltCodeUnits_asymm h)⟩

theorem ltCodeUnits_connex : ∀ {a b : List Nat}, a ≠ b →
    ltCodeUnits a b = true ∨ ltCodeUnits b a = true
  | [], [], h => absurd rfl h
  | [], _ :: _, _ => Or.inl rfl
  | _ :: _, [], _ => Or.inr rfl
  | x :: as, y :: bs, h => by
    simp only [ltCodeUnits, Bool.or_eq_true, Bool.and_eq_true, beq_iff_eq,
      decide_eq_true_eq]
    by_cases hxy : x = y
    · subst hxy
      have hne : as ≠ bs := fun hab => h (by rw [hab])
      rcases ltCodeUnits_connex hne with hl | hl
      · exact Or.inl (Or.inr ⟨rfl, hl⟩)
      · exact Or.inr (Or.inr ⟨rfl, hl⟩)
    · rcases Nat.lt_or_ge x y with hlt | hge
      · exact Or.inl (Or.inl hlt)
      · exact Or.inr (Or.inl (by omega))

theorem ltCodeUnits_trans : ∀ {a b c : List Nat},
    ltCodeUnits a b = true → ltCodeUnits b c = true → ltCodeUnits a c = true
  | [], _, _ :: _, _, _ => rfl
  | [], [], [], _, h => by simp [ltCodeUnits] at h
  | [], _ :: _, [], _, h => by simp [ltCodeUnits] at h
  | _ :: _, [], _, h, _ => by simp [ltCodeUnits] at h
  | _ :: _, _ :: _, [], _, h => by simp [ltCodeUnits] at h
  | x :: as, y :: bs, z :: cs, h₁, h₂ => by
    simp only [ltCodeUnits, Bool.or_eq_true, Bool.and_eq_true, beq_iff_eq,
      decide_eq_true_eq] at h₁ h₂ ⊢
    rcases h₁ with h₁ | ⟨rfl, h₁⟩
    · rcases h₂ with h₂ | ⟨rfl, _⟩
      · exact Or.inl (by omega)
      · exact Or.inl h₁
    · rcases h₂ with h₂ | ⟨rfl, h₂⟩
      · exact Or.inl h₂
      · exact Or.inr ⟨rfl, ltCodeUnits_trans h₁ h₂⟩

/-- Trichotomy for the string comparator, with its value in each case. -/
theorem compareStringsUTF16_cases (a b : List Nat) :
    (ltCodeUnits a b = true ∧ compareStringsUTF16 a b = -1) ∨
    (a = b ∧ compareStringsUTF16 a b = 0) ∨
    (ltCodeUnits b a = true ∧ compareStringsUTF16 a b = 1) := by
  unfold compareStringsUTF16
  by_cases h₁ : ltCodeUnits a b
  · exact Or.inl ⟨h₁, by simp [h₁]⟩
  · by_cases h₂ : ltCodeUnits b a
    · exact Or.inr (Or.inr ⟨h₂, by simp [h₁, h₂]⟩)
    · refine Or.inr (Or.inl ⟨?_, by simp [h₁, h₂]⟩)
      by_contra hne
      rcases ltCodeUnits_connex hne with h | h
      · exact h₁ h
      · exact h₂ h

theorem compareStringsUTF16_eq_zero_iff {a b : List Nat} :
    compareStringsUTF16 a b = 0 ↔ a = b := by
  rcases compareStringsUTF16_cases a b with ⟨hlt, hv⟩ | ⟨heq, hv⟩ | ⟨hgt, hv⟩
  · rw [hv]
    constructor
    · intro h; exact absurd h (by decide)
    · rintro rfl; rw [ltCodeUnits_irrefl] at hlt; exact absurd hlt (by decide)
  · subst heq; simp [hv]
  · rw [hv]
    constructor
    · intro h; exact absurd h (by decide)
    · rintro rfl; rw [ltCodeUnits_irrefl] at hgt; exact absurd hgt (by decide)

theorem compareStringsUTF16_neg (a b : List Nat) :
    compareStringsUTF16 b a = -compareStringsUTF16 a b := by
  unfold compareStringsUTF16
  by_cases h₁ : ltCodeUnits a b
  · simp [h₁, ltCodeUnits_asymm h₁]
  · by_cases h₂ : ltCodeUnits b a
    · simp [h₁, h₂]
    · simp [h₁, h₂]

/-! ## Lemmas about `compareNodes` -/

theorem compareNodes_eq_zero {a b : TagNode} (h : compareNodes a b = 0) :
    a.order = b.order ∧ a.label = b.label ∧ a.id = b.id := by
  unfold compareNodes at h
  by_cases ho : a.order = b.order
  · rw [if_neg (by simp [ho])] at h
    by_cases hl : compareStringsUTF16 a.label b.label ≠ 0
    · rw [if_pos hl] at h
      exact absurd h hl
    · rw [if_neg hl] at h
      rw [not_not] at hl
      exact ⟨ho, compareStringsUTF16_eq_zero_iff.1 hl, compareStringsUTF16_eq_zero_iff.1 h⟩
  · rw [if_pos ho] at h
    exact absurd (by omega : a.order = b.order) ho

theorem compareNodes_neg (a b : TagNode) : compareNodes b a = -compareNodes a b := by
  unfold compareNodes
  by_cases ho : a.order = b.order
  · have hne₁ : ¬ b.order ≠ a.order := by simp [ho.symm]
    have hne₂ : ¬ a.order ≠ b.order := by simp [ho]
    rw [if_neg hne₁, if_neg hne₂]
    by_cases hl : compareStringsUTF16 a.label b.label = 0
    · have hl' : compareStringsUTF16 b.label a.label = 0 := by
        rw [compareStringsUTF16_neg a.label b.label, hl, neg_zero]
      have c₁ : ¬ (compareStringsUTF16 b.label a.label ≠ 0) := by simp [hl']
      have c₂ : ¬ (compareStringsUTF16 a.label b.label ≠ 0) := by simp [hl]
      rw [if_neg c₁, if_neg c₂]
      exact compareStringsUTF16_neg a.id b.id
    · have hl' : compareStringsUTF16 b.label a.label ≠ 0 := by
        rw [compareStringsUTF16_neg a.label b.label]
        simpa using hl
      rw [if_pos hl', if_pos hl]
      exact compareStringsUTF16_neg a.label b.label
  · have ho' : b.order ≠ a.order := fun h => ho h.symm
    rw [if_pos ho', if_pos ho]
    omega

theorem nodeLe_total (a b : TagNode) : nodeLe a b = true ∨ nodeLe b a = true := by
  unfold nodeLe
  rw [compareNodes_neg a b]
  simp only [decide_eq_true_eq]
  omega

/-- Unfolded characterization of `compareNodes a b ≤ 0`. -/
theorem compareNodes_le_iff {a b : TagNode} : compareNodes a b ≤ 0 ↔
    (a.order < b.order ∨ (a.order = b.order ∧
      (ltCodeUnits a.label b.label = true ∨ (a.label = b.label ∧
        (ltCodeUnits a.id b.id = true ∨ a.id = b.id))))) := by
  unfold compareNodes
  by_cases ho : a.order = b.order
  · rw [if_neg (show ¬ a.order ≠ b.order by simp [ho])]
    have horder : ¬ a.order < b.order := by omega
    rcases compareStringsUTF16_cases a.label b.label with ⟨hlt, hv⟩ | ⟨heq, hv⟩ | ⟨hgt, hv⟩
    · rw [if_pos (show compareStringsUTF16 a.label b.label ≠ 0 by rw [hv]; decide), hv]
      exact iff_of_true (by decide) (Or.inr ⟨ho, Or.inl hlt⟩)
    · rw [if_neg (show ¬ compareStringsUTF16 a.label b.label ≠ 0 by simp [hv])]
      rcases compareStringsUTF16_cases a.id b.id with ⟨hi, hv'⟩ | ⟨hieq, hv'⟩ | ⟨hi, hv'⟩
      · rw [hv']
        exact iff_of_true (by decide) (Or.inr ⟨ho, Or.inr ⟨heq, Or.inl hi⟩⟩)
      · rw [hv']
        exact iff_of_true (by decide) (Or.inr ⟨ho, Or.inr ⟨heq, Or.inr hieq⟩⟩)
      · rw [hv']
        refine iff_of_false (by decide) ?_
        rintro (h | ⟨-, h | ⟨-, h | h⟩⟩)
        · exact horder h
        · rw [heq, ltCodeUnits_irrefl] at h
          exact absurd h (by decide)
        · rw [ltCodeUnits_asymm hi] at h
          exact absurd h (by decide)
        · rw [h, ltCodeUnits_irrefl] at hi
          exact absurd hi (by decide)
    · rw [if_pos (show compareStringsUTF16 a.label b.label ≠ 0 by rw [hv]; decide), hv]
      refine iff_of_false (by decide) ?_
      rintro (h | ⟨-, h | ⟨h, -⟩⟩)
      · exact horder h
      · rw [ltCodeUnits_asymm hgt] at h
        exact absurd h (by decide)
      · rw [h, ltCodeUnits_irrefl] at hgt
        exact absurd hgt (by decide)
  · rw [if_pos ho]
    constructor
    · intro h
      exact Or.inl (by omega)
    · rintro (h | ⟨h, -⟩)
      · omega
      · exact absurd h ho

theorem nodeLe_trans (a b c : TagNode) (h₁ : nodeLe a b = true) (h₂ : nodeLe b c = true) :
    nodeLe a c = true := by
  unfold nodeLe at h₁ h₂ ⊢
  rw [decide_eq_true_eq] at h₁ h₂ ⊢
  rw [compareNodes_le_iff] at h₁ h₂ ⊢
  rcases h₁ with h₁ | ⟨ho₁, h₁⟩
  · rcases h₂ with h₂ | ⟨ho₂, _⟩
    · exact Or.inl (by omega)
    · exact Or.inl (by omega)
  · rcases h₂ with h₂ | ⟨ho₂, h₂⟩
    · exact Or.inl (by omega)
    · refine Or.inr ⟨by omega, ?_⟩
      rcases h₁ with h₁ | ⟨hl₁, h₁⟩
      · rcases h₂ with h₂ | ⟨hl₂, _⟩
        · exact Or.inl (ltCodeUnits_trans h₁ h₂)
        · exact Or.inl (hl₂ ▸ h₁)
      · rcases h₂ with h₂ | ⟨hl₂, h₂⟩
        · exact Or.inl (hl₁ ▸ h₂)
        · refine Or.inr ⟨hl₁.trans hl₂, ?_⟩
          rcases h₁ with h₁ | h₁
          · rcases h₂ with h₂ | h₂
            · exact Or.inl (ltCodeUnits_trans h₁ h₂)
            · exact Or.inl (h₂ ▸ h₁)
          · rcases h₂ with h₂ | h₂
            · exact Or.inl (h₁ ▸ h₂)
            · exact Or.inr (h₁.trans h₂)

/-- `compareNodes` never declares two nodes with distinct ids equal. -/
theorem compareNodes_ne_zero_of_id_ne {a b : TagNode} (h : a.id ≠ b.id) :
    compareNodes a b ≠ 0 :=
  fun hz => h (compareNodes_eq_zero hz).2.2


/-! ## Structure of a built index -/

theorem taxonomy_build (t : Taxonomy) : (buildTaxonomyIndex t).taxonomy = t := rfl

theorem byId_build (t : Taxonomy) (i : NodeId) :
    (buildTaxonomyIndex t).byId i = t.nodes.reverse.find? (fun n => n.id == i) := rfl

theorem childrenOf_build (t : Taxonomy) (p : Option NodeId) :
    (buildTaxonomyIndex t).childrenOf p =
      (sortStable nodeLe (t.nodes.filter (fun n => n.parentId == p))).map (fun n => n.id) := rfl

theorem siblingOrdinal_build (t : Taxonomy) (i : NodeId) :
    (buildTaxonomyIndex t).siblingOrdinal i =
      ((buildTaxonomyIndex t).byId i).bind
        (fun n => ((buildTaxonomyIndex t).childrenOf n.parentId).findIdx? (fun j => j == i)) := rfl

theorem sortPathCache_build (t : Taxonomy) (i : NodeId) :
    (buildTaxonomyIndex t).sortPathCache i =
      match (buildTaxonomyIndex t).byId i with
      | some _ => computeSortPath (buildTaxonomyIndex t).byId
          (buildTaxonomyIndex t).siblingOrdinal (t.nodes.length + 1) i
      | none => none := rfl

/-- A `byId` hit returns a node of the taxonomy carrying the looked-up id. -/
theorem byId_eq_some {t : Taxonomy} {i : NodeId} {n : TagNode}
    (h : (buildTaxonomyIndex t).byId i = some n) : n ∈ t.nodes ∧ n.id = i := by
  rw [byId_build] at h
  refine ⟨List.mem_reverse.1 (List.mem_of_find?_eq_some h), ?_⟩
  have := List.find?_some h
  simpa using this

/-- With pairwise distinct ids, `byId` finds every node of the taxonomy. -/
theorem byId_of_mem {t : Taxonomy} (hnd : (t.nodes.map (fun n => n.id)).Nodup)
    {n : TagNode} (h : n ∈ t.nodes) : (buildTaxonomyIndex t).byId n.id = some n := by
  rw [byId_build]
  have hmem : n ∈ t.nodes.reverse := List.mem_reverse.2 h
  have hsome : (t.nodes.reverse.find? (fun m => m.id == n.id)).isSome :=
    List.find?_isSome.2 ⟨n, hmem, by simp⟩
  obtain ⟨m, hm⟩ := Option.isSome_iff_exists.1 hsome
  have hmmem : m ∈ t.nodes := List.mem_reverse.1 (List.mem_of_find?_eq_some hm)
  have hmid : m.id = n.id := by simpa using List.find?_some hm
  have : m = n := List.inj_on_of_nodup_map hnd hmmem h hmid
  rw [hm, this]

theorem mem_childrenOf_iff {t : Taxonomy} {i : NodeId} {p : Option NodeId} :
    i ∈ (buildTaxonomyIndex t).childrenOf p ↔
      ∃ n ∈ t.nodes, n.id = i ∧ n.parentId = p := by
  rw [childrenOf_build]
  simp only [List.mem_map, mem_sortStable, List.mem_filter, beq_iff_eq]
  constructor
  · rintro ⟨n, ⟨hmem, hpar⟩, hid⟩
    exact ⟨n, hmem, hid, hpar⟩
  · rintro ⟨n, hmem, hid, hpar⟩
    exact ⟨n, ⟨hmem, hpar⟩, hid⟩

theorem childrenOf_nodup {t : Taxonomy} (hnd : (t.nodes.map (fun n => n.id)).Nodup)
    (p : Option NodeId) : ((buildTaxonomyIndex t).childrenOf p).Nodup := by
  rw [childrenOf_build]
  have hperm : ((sortStable nodeLe (t.nodes.filter (fun n => n.parentId == p))).map
        (fun n => n.id)).Perm
      ((t.nodes.filter (fun n => n.parentId == p)).map (fun n => n.id)) :=
    (sortStable_perm nodeLe _).map _
  rw [hperm.nodup_iff]
  exact ((List.filter_sublist t.nodes).map _).nodup hnd

/-- The sorted child lists are strictly increasing for `compareNodes` on the
corresponding nodes: sorting is by the comparator, not by insertion order. -/
theorem childrenOf_pairwise {t : Taxonomy} (hnd : (t.nodes.map (fun n => n.id)).Nodup)
    (p : Option NodeId) :
    ((buildTaxonomyIndex t).childrenOf p).Pairwise (fun i j =>
      ∀ ni nj, (buildTaxonomyIndex t).byId i = some ni →
        (buildTaxonomyIndex t).byId j = some nj → compareNodes ni nj < 0) := by
  rw [childrenOf_build, List.pairwise_map]
  have hpw := pairwise_sortStable nodeLe nodeLe_trans nodeLe_total
    (t.nodes.filter (fun n => n.parentId == p))
  have hnodup : (sortStable nodeLe (t.nodes.filter (fun n => n.parentId == p))).Nodup := by
    rw [(sortStable_perm nodeLe _).nodup_iff]
    exact (List.filter_sublist t.nodes).nodup (List.Nodup.of_map _ hnd)
  refine (hpw.and hnodup).imp_of_mem ?_
  intro a b ha hb hab
  intro ni nj hbi hbj
  have hna : a ∈ t.nodes := List.mem_of_mem_filter (mem_sortStable.1 ha)
  have hnb : b ∈ t.nodes := List.mem_of_mem_filter (mem_sortStable.1 hb)
  rw [byId_of_mem hnd hna] at hbi
  rw [byId_of_mem hnd hnb] at hbj
  cases hbi
  cases hbj
  have hidne : a.id ≠ b.id := fun h => hab.2 (List.inj_on_of_nodup_map hnd hna hnb h)
  have hle : compareNodes a b ≤ 0 := by simpa [nodeLe] using hab.1
  have hne0 : compareNodes a b ≠ 0 := compareNodes_ne_zero_of_id_ne hidne
  omega

theorem siblingOrdinal_spec {t : Taxonomy} {i : NodeId} {k : Nat}
    (h : (buildTaxonomyIndex t).siblingOrdinal i = some k) :
    ∃ n, (buildTaxonomyIndex t).byId i = some n ∧
      ((buildTaxonomyIndex t).childrenOf n.parentId)[k]? = some i := by
  rw [siblingOrdinal_build] at h
  cases hb : (buildTaxonomyIndex t).byId i with
  | none => rw [hb] at h; simp at h
  | some n =>
    rw [hb] at h
    simp only [Option.some_bind] at h
    obtain ⟨hlt, hp, -⟩ := List.findIdx?_eq_some_iff_getElem.1 h
    refine ⟨n, rfl, ?_⟩
    rw [List.getElem?_eq_getElem hlt]
    simpa using hp

theorem siblingOrdinal_of_getElem {t : Taxonomy}
    (hnd : (t.nodes.map (fun n => n.id)).Nodup) {i : NodeId} {n : TagNode} {k : Nat}
    (hb : (buildTaxonomyIndex t).byId i = some n)
    (hget : ((buildTaxonomyIndex t).childrenOf n.parentId)[k]? = some i) :
    (buildTaxonomyIndex t).siblingOrdinal i = some k := by
  rw [siblingOrdinal_build, hb]
  simp only [Option.some_bind]
  rw [List.findIdx?_eq_some_iff_getElem]
  rw [List.getElem?_eq_some] at hget
  obtain ⟨hlt, hval⟩ := hget
  refine ⟨hlt, by simp [hval], ?_⟩
  intro j hj
  have hjlt : j < ((buildTaxonomyIndex t).childrenOf n.parentId).length := by omega
  have hnodup := childrenOf_nodup hnd n.parentId
  have hne := (List.pairwise_iff_getElem.1 hnodup) j k hjlt hlt hj
  simp only [Bool.not_eq_true, beq_eq_false_iff_ne, ne_eq]
  intro hcontra
  exact hne (by rw [hcontra, hval])

/-- Every node of a duplicate-free taxonomy has a sibling ordinal. -/
theorem siblingOrdinal_isSome_of_mem {t : Taxonomy}
    (hnd : (t.nodes.map (fun n => n.id)).Nodup) {n : TagNode} (h : n ∈ t.nodes) :
    ∃ k, (buildTaxonomyIndex t).siblingOrdinal n.id = some k := by
  have hmem : n.id ∈ (buildTaxonomyIndex t).childrenOf n.parentId :=
    mem_childrenOf_iff.2 ⟨n, h, rfl, rfl⟩
  obtain ⟨k, hk⟩ := List.getElem?_of_mem hmem
  exact ⟨k, siblingOrdinal_of_getElem hnd (byId_of_mem hnd h) hk⟩

/-! ## `computeSortPath` and `parentChain` -/

theorem computeSortPath_mono {byId : NodeId → Option TagNode}
    {sib : NodeId → Option Nat} :
    ∀ {f f' : Nat} {i : NodeId} {path : List Nat}, f ≤ f' →
      computeSortPath byId sib f i = some path →
      computeSortPath byId sib f' i = some path := by
  intro f
  induction f with
  | zero => intro f' i path _ h; simp [computeSortPath] at h
  | succ g ih =>
    intro f' i path hle h
    match f', hle with
    | g' + 1, hle =>
      rw [computeSortPath] at h ⊢
      cases hs : sib i with
      | none => simp [hs] at h
      | some o =>
        simp only [hs] at h ⊢
        cases hp : parentOf byId i with
        | none => simp only [hp] at h ⊢; exact h
        | some p =>
          simp only [hp] at h ⊢
          cases hr : computeSortPath byId sib g p with
          | none => simp [hr] at h
          | some pp =>
            simp only [hr, Option.map_some'] at h
            rw [ih (by omega) hr]
            simpa using h

theorem computeSortPath_char {byId : NodeId → Option TagNode} {sib : NodeId → Option Nat}
    {f : Nat} {i : NodeId} {path : List Nat}
    (h : computeSortPath byId sib (f + 1) i = some path) :
    ∃ o, sib i = some o ∧
      ((parentOf byId i = none ∧ path = [o]) ∨
        ∃ p pp, parentOf byId i = some p ∧ computeSortPath byId sib f p = some pp ∧
          path = pp ++ [o]) := by
  rw [computeSortPath] at h
  cases hs : sib i with
  | none => simp [hs] at h
  | some o =>
    simp only [hs] at h
    refine ⟨o, rfl, ?_⟩
    cases hp : parentOf byId i with
    | none =>
      simp only [hp] at h
      exact Or.inl ⟨rfl, (Option.some_inj.1 h).symm⟩
    | some p =>
      simp only [hp] at h
      cases hr : computeSortPath byId sib f p with
      | none => simp [hr] at h
      | some pp =>
        simp only [hr, Option.map_some'] at h
        exact Or.inr ⟨p, pp, rfl, hr, (Option.some_inj.1 h).symm⟩

theorem computeSortPath_ne_nil {byId : NodeId → Option TagNode} {sib : NodeId → Option Nat} :
    ∀ {f : Nat} {i : NodeId} {path : List Nat},
      computeSortPath byId sib f i = some path → path ≠ [] := by
  intro f i path h
  match f with
  | 0 => simp [computeSortPath] at h
  | g + 1 =>
    obtain ⟨o, -, hcase⟩ := computeSortPath_char h
    rcases hcase with ⟨-, rfl⟩ | ⟨p, pp, -, -, rfl⟩
    · simp
    · simp

theorem computeSortPath_chain_length {byId : NodeId → Option TagNode}
    {sib : NodeId → Option Nat} :
    ∀ {f : Nat} {i : NodeId} {path : List Nat},
      computeSortPath byId sib f i = some path →
        (parentChain byId f (some i)).length = path.length ∧ path.length ≤ f := by
  intro f
  induction f with
  | zero => intro i path h; simp [computeSortPath] at h
  | succ g ih =>
    intro i path h
    obtain ⟨o, hs, hcase⟩ := computeSortPath_char h
    rcases hcase with ⟨hp, rfl⟩ | ⟨p, pp, hp, hr, rfl⟩
    · simp [parentChain, hp]
    · obtain ⟨h1, h2⟩ := ih hr
      simp only [parentChain, hp, List.length_cons, List.length_append,
        List.length_singleton, List.length_nil]
      omega

theorem parentChain_stable_of_sortPath {byId : NodeId → Option TagNode}
    {sib : NodeId → Option Nat} :
    ∀ {f : Nat} {i : NodeId} {path : List Nat} (k : Nat),
      computeSortPath byId sib f i = some path →
        parentChain byId (f + k) (some i) = parentChain byId f (some i) := by
  intro f
  induction f with
  | zero => intro i path k h; simp [computeSortPath] at h
  | succ g ih =>
    intro i path k h
    obtain ⟨o, hs, hcase⟩ := computeSortPath_char h
    have harith : g + 1 + k = (g + k) + 1 := by omega
    rcases hcase with ⟨hp, -⟩ | ⟨p, pp, hp, hr, -⟩
    · rw [harith]
      simp [parentChain, hp]
    · rw [harith]
      simp only [parentChain, hp]
      rw [ih k hr]

theorem parentChain_length_le (byId : NodeId → Option TagNode) :
    ∀ (f : Nat) (cur : Option NodeId), (parentChain byId f cur).length ≤ f := by
  intro f
  induction f with
  | zero => intro cur; cases cur <;> simp [parentChain]
  | succ g ih =>
    intro cur
    cases cur with
    | none => simp [parentChain]
    | some i =>
      simp only [parentChain, List.length_cons]
      have := ih (parentOf byId i)
      omega

theorem parentChain_prefix (byId : NodeId → Option TagNode) :
    ∀ {f f' : Nat} (cur : Option NodeId), f ≤ f' →
      (parentChain byId f cur).IsPrefix (parentChain byId f' cur) := by
  intro f
  induction f with
  | zero => intro f' cur _; cases cur <;> simp [parentChain]
  | succ g ih =>
    intro f' cur hle
    match f', hle with
    | g' + 1, hle =>
      cases cur with
      | none => simp [parentChain]
      | some i =>
        obtain ⟨r, hr⟩ := ih (parentOf byId i) (show g ≤ g' by omega)
        exact ⟨r, by simp only [parentChain]; rw [List.cons_append, hr]⟩

theorem parentChain_stable_of_len {byId : NodeId → Option TagNode} :
    ∀ {f : Nat} {cur : Option NodeId} (k : Nat), (parentChain byId f cur).length < f →
      parentChain byId (f + k) cur = parentChain byId f cur := by
  intro f
  induction f with
  | zero => intro cur k h; simp at h
  | succ g ih =>
    intro cur k h
    cases cur with
    | none => simp [parentChain]
    | some i =>
      simp only [parentChain, List.length_cons] at h
      have harith : g + 1 + k = (g + k) + 1 := by omega
      rw [harith]
      simp only [parentChain]
      rw [ih k (by omega)]

theorem parentChain_suffix_of_mem {byId : NodeId → Option TagNode} :
    ∀ {f : Nat} {cur : Option NodeId} {z : NodeId}, z ∈ parentChain byId f cur →
      ∃ pre, parentChain byId f cur = pre ++ parentChain byId (f - pre.length) (some z) ∧
        pre.length < f := by
  intro f
  induction f with
  | zero => intro cur z h; cases cur <;> simp [parentChain] at h
  | succ g ih =>
    intro cur z h
    cases cur with
    | none => simp [parentChain] at h
    | some i =>
      simp only [parentChain, List.mem_cons] at h
      rcases h with rfl | hmem
      · exact ⟨[], by simp, by simp⟩
      · obtain ⟨pre, hpre, hlen⟩ := ih hmem
        refine ⟨i :: pre, ?_, by simpa using Nat.succ_lt_succ hlen⟩
        simp only [parentChain, List.length_cons, List.cons_append]
        rw [Nat.succ_sub_succ]
        rw [← hpre]

theorem parentChain_nodup {byId : NodeId → Option TagNode} :
    ∀ {f : Nat} {cur : Option NodeId}, (parentChain byId f cur).length < f →
      (parentChain byId f cur).Nodup := by
  intro f
  induction f with
  | zero => intro cur h; simp at h
  | succ g ih =>
    intro cur h
    cases cur with
    | none => simp [parentChain]
    | some i =>
      simp only [parentChain, List.length_cons] at h ⊢
      have hrest : (parentChain byId g (parentOf byId i)).length < g := by omega
      refine List.nodup_cons.2 ⟨?_, ih hrest⟩
      intro hmem
      obtain ⟨pre, hpre, hlen⟩ := parentChain_suffix_of_mem hmem
      by_cases hc : (parentChain byId (g - pre.length) (some i)).length < g - pre.length
      · have hstab := @parentChain_stable_of_len byId (g - pre.length) (some i)
          (g + 1 - (g - pre.length)) hc
        have harith : g - pre.length + (g + 1 - (g - pre.length)) = g + 1 := by omega
        rw [harith] at hstab
        have hfull : parentChain byId (g + 1) (some i) =
            i :: parentChain byId g (parentOf byId i) := by simp [parentChain]
        rw [hfull, hpre] at hstab
        have := congrArg List.length hstab
        simp only [List.length_cons, List.length_append] at this
        omega
      · have hle := parentChain_length_le byId (g - pre.length) (some i)
        have hlen' := congrArg List.length hpre
        simp only [List.length_append] at hlen'
        omega

/-! ## Chains of a structurally valid taxonomy -/

theorem sortPathCache_isSome_unfold {t : Taxonomy} {i : NodeId} {n : TagNode}
    (hb : (buildTaxonomyIndex t).byId i = some n)
    (h : ((buildTaxonomyIndex t).sortPathCache i).isSome = true) :
    ∃ path, computeSortPath (buildTaxonomyIndex t).byId
      (buildTaxonomyIndex t).siblingOrdinal (t.nodes.length + 1) i = some path := by
  rw [sortPathCache_build, hb] at h
  exact Option.isSome_iff_exists.1 h

theorem chain_length_lt {t : Taxonomy} (hv : ValidStructure t) (i : NodeId) :
    (chainOf (buildTaxonomyIndex t) i).length < indexFuel (buildTaxonomyIndex t) := by
  unfold chainOf indexFuel
  rw [taxonomy_build]
  cases hb : (buildTaxonomyIndex t).byId i with
  | none =>
    have hpar : parentOf (buildTaxonomyIndex t).byId i = none := by
      unfold parentOf; rw [hb]; rfl
    simp [parentChain, hpar]
  | some n =>
    obtain ⟨hmem, hid⟩ := byId_eq_some hb
    have hsome := hv.2 n hmem
    rw [hid] at hsome
    obtain ⟨path, hpath⟩ := sortPathCache_isSome_unfold hb hsome
    have hlen := computeSortPath_chain_length hpath
    have hstab := parentChain_stable_of_sortPath 1 hpath
    have harith : t.nodes.length + 1 + 1 = t.nodes.length + 2 := by omega
    rw [harith] at hstab
    rw [hstab]
    omega

theorem chainOf_nodup {t : Taxonomy} (hv : ValidStructure t) (i : NodeId) :
    (chainOf (buildTaxonomyIndex t) i).Nodup :=
  parentChain_nodup (chain_length_lt hv i)

theorem chainOf_cons (t : Taxonomy) (i : NodeId) :
    chainOf (buildTaxonomyIndex t) i =
      i :: ancestorIds (buildTaxonomyIndex t) i := by
  unfold ancestorIds chainOf indexFuel
  rw [taxonomy_build]
  simp [parentChain]

theorem self_mem_chainOf (index : TaxonomyIndex) (i : NodeId) : i ∈ chainOf index i := by
  unfold chainOf indexFuel
  simp [parentChain]

/-- The chain of a member of a chain is its suffix (in particular a subset). -/
theorem chainOf_subset_of_mem {t : Taxonomy} (hv : ValidStructure t) {s z : NodeId}
    (h : z ∈ chainOf (buildTaxonomyIndex t) s) :
    ∀ y ∈ chainOf (buildTaxonomyIndex t) z, y ∈ chainOf (buildTaxonomyIndex t) s := by
  intro y hy
  have hslen := chain_length_lt hv s
  unfold chainOf at h hy hslen ⊢
  obtain ⟨pre, hpre, hlen⟩ := parentChain_suffix_of_mem h
  have hcg := congrArg List.length hpre
  simp only [List.length_append] at hcg
  have hsuffix_len : (parentChain (buildTaxonomyIndex t).byId
      (indexFuel (buildTaxonomyIndex t) - pre.length) (some z)).length <
      indexFuel (buildTaxonomyIndex t) - pre.length := by omega
  have hstab := parentChain_stable_of_len pre.length hsuffix_len
  have harith : indexFuel (buildTaxonomyIndex t) - pre.length + pre.length =
      indexFuel (buildTaxonomyIndex t) := by omega
  rw [harith] at hstab
  rw [hstab] at hy
  rw [hpre]
  exact List.mem_append.2 (Or.inr hy)

/-! ## The closure walk -/

theorem takeUntilMem_subset {c : List NodeId} : ∀ {l : List NodeId} {y : NodeId},
    y ∈ takeUntilMem c l → y ∈ l := by
  intro l
  induction l with
  | nil => intro y h; simp [takeUntilMem] at h
  | cons x xs ih =>
    intro y h
    by_cases hc : x ∈ c
    · simp [takeUntilMem, hc] at h
    · rw [show takeUntilMem c (x :: xs) = x :: takeUntilMem c xs from by
        simp [takeUntilMem, hc]] at h
      rcases List.mem_cons.1 h with rfl | h
      · exact List.mem_cons_self _ _
      · exact List.mem_cons_of_mem _ (ih h)

theorem not_mem_of_mem_takeUntilMem {c : List NodeId} : ∀ {l : List NodeId} {y : NodeId},
    y ∈ takeUntilMem c l → y ∉ c := by
  intro l
  induction l with
  | nil => intro y h; simp [takeUntilMem] at h
  | cons x xs ih =>
    intro y h
    by_cases hc : x ∈ c
    · simp [takeUntilMem, hc] at h
    · rw [show takeUntilMem c (x :: xs) = x :: takeUntilMem c xs from by
        simp [takeUntilMem, hc]] at h
      rcases List.mem_cons.1 h with rfl | h
      · exact hc
      · exact ih h

theorem takeUntilMem_append_right {c : List NodeId} {i : NodeId} :
    ∀ {l : List NodeId}, i ∉ l → takeUntilMem (c ++ [i]) l = takeUntilMem c l := by
  intro l
  induction l with
  | nil => intro _; rfl
  | cons x xs ih =>
    intro h
    have hxi : x ≠ i := fun he => h (he ▸ List.mem_cons_self _ _)
    have hixs : i ∉ xs := fun hm => h (List.mem_cons_of_mem _ hm)
    by_cases hx : x ∈ c
    · have hx' : x ∈ c ++ [i] := List.mem_append.2 (Or.inl hx)
      simp [takeUntilMem, hx, hx']
    · have hx' : x ∉ c ++ [i] := by
        simp only [List.mem_append, List.mem_singleton]
        rintro (h' | h')
        · exact hx h'
        · exact hxi h'
      simp [takeUntilMem, hx, hx', ih hixs]

theorem takeUntilMem_split (c : List NodeId) : ∀ (l : List NodeId),
    takeUntilMem c l = l ∨
      ∃ z suf, l = takeUntilMem c l ++ z :: suf ∧ z ∈ c := by
  intro l
  induction l with
  | nil => exact Or.inl rfl
  | cons x xs ih =>
    by_cases hx : x ∈ c
    · refine Or.inr ⟨x, xs, ?_, hx⟩
      simp [takeUntilMem, hx]
    · have hstep : takeUntilMem c (x :: xs) = x :: takeUntilMem c xs := by
        simp [takeUntilMem, hx]
      rcases ih with h | ⟨z, suf, hsuf, hz⟩
      · exact Or.inl (by rw [hstep, h])
      · refine Or.inr ⟨z, suf, ?_, hz⟩
        rw [hstep, List.cons_append, ← hsuf]

/-- Splitting a list at an element absent from both prefixes is unambiguous. -/
theorem split_unique {z : NodeId} : ∀ {A A' B B' : List NodeId},
    A ++ z :: B = A' ++ z :: B' → z ∉ A → z ∉ A' → A = A' ∧ B = B' := by
  intro A
  induction A with
  | nil =>
    intro A' B B' h hz hz'
    cases A' with
    | nil => simpa using h
    | cons a As =>
      simp only [List.nil_append, List.cons_append, List.cons.injEq] at h
      exact absurd (h.1 ▸ List.mem_cons_self a As) hz'
  | cons a As ih =>
    intro A' B B' h hz hz'
    cases A' with
    | nil =>
      simp only [List.nil_append, List.cons_append, List.cons.injEq] at h
      exact absurd (h.1.symm ▸ List.mem_cons_self a As) hz
    | cons a' As' =>
      simp only [List.cons_append, List.cons.injEq] at h
      have hz₁ : z ∉ As := fun hm => hz (List.mem_cons_of_mem _ hm)
      have hz₂ : z ∉ As' := fun hm => hz' (List.mem_cons_of_mem _ hm)
      obtain ⟨hA, hB⟩ := ih h.2 hz₁ hz₂
      exact ⟨by rw [h.1, hA], hB⟩

theorem not_mem_left_of_nodup_append {z : NodeId} :
    ∀ {A B : List NodeId}, (A ++ z :: B).Nodup → z ∉ A := by
  intro A
  induction A with
  | nil => intro B _; simp
  | cons a As ih =>
    intro B h
    rw [List.cons_append, List.nodup_cons] at h
    intro hm
    rcases List.mem_cons.1 hm with rfl | hm
    · exact h.1 (List.mem_append.2 (Or.inr (List.mem_cons_self _ _)))
    · exact ih h.2 hm

theorem closureWalk_eq (byId : NodeId → Option TagNode) :
    ∀ {f : Nat} {c : List NodeId} {cur : Option NodeId},
      (parentChain byId f cur).Nodup →
      closureWalk byId f c cur = c ++ takeUntilMem c (parentChain byId f cur) := by
  intro f
  induction f with
  | zero =>
    intro c cur _
    cases cur <;> simp [closureWalk, parentChain, takeUntilMem]
  | succ g ih =>
    intro c cur hnd
    cases cur with
    | none => simp [closureWalk, parentChain, takeUntilMem]
    | some i =>
      rw [show parentChain byId (g + 1) (some i) =
        i :: parentChain byId g (parentOf byId i) from rfl] at hnd ⊢
      rw [List.nodup_cons] at hnd
      by_cases hc : i ∈ c
      · rw [show closureWalk byId (g + 1) c (some i) = c from by
          simp [closureWalk, List.contains, hc]]
        rw [show takeUntilMem c (i :: parentChain byId g (parentOf byId i)) = [] from by
          simp [takeUntilMem, hc]]
        simp
      · rw [show closureWalk byId (g + 1) c (some i) =
          closureWalk byId g (c ++ [i]) (parentOf byId i) from by
          simp [closureWalk, List.contains, hc]]
        rw [ih hnd.2]
        rw [takeUntilMem_append_right hnd.1]
        rw [show takeUntilMem c (i :: parentChain byId g (parentOf byId i)) =
          i :: takeUntilMem c (parentChain byId g (parentOf byId i)) from by
          simp [takeUntilMem, hc]]
        simp

theorem closureWalk_mem {t : Taxonomy} (hv : ValidStructure t) {c : List NodeId}
    (s : NodeId)
    (hcc : ∀ z ∈ c, ∀ y ∈ chainOf (buildTaxonomyIndex t) z, y ∈ c) (y : NodeId) :
    y ∈ closureWalk (buildTaxonomyIndex t).byId (indexFuel (buildTaxonomyIndex t)) c
        (some s) ↔
      y ∈ c ∨ y ∈ chainOf (buildTaxonomyIndex t) s := by
  have hnd : (chainOf (buildTaxonomyIndex t) s).Nodup := chainOf_nodup hv s
  unfold chainOf at hnd hcc ⊢
  rw [closureWalk_eq _ hnd]
  constructor
  · intro h
    rcases List.mem_append.1 h with h | h
    · exact Or.inl h
    · exact Or.inr (takeUntilMem_subset h)
  · intro h
    rcases h with h | h
    · exact List.mem_append.2 (Or.inl h)
    · rcases takeUntilMem_split c
        (parentChain (buildTaxonomyIndex t).byId (indexFuel (buildTaxonomyIndex t))
          (some s)) with hsplit | ⟨z, suf, hsuf, hz⟩
      · rw [← hsplit] at h
        exact List.mem_append.2 (Or.inr h)
      · rw [hsuf] at h
        rcases List.mem_append.1 h with h | h
        · exact List.mem_append.2 (Or.inr h)
        · -- `y` sits at or below the break element `z`, whose chain is already
          -- contained in the closure.
          have hzchain : z ∈ parentChain (buildTaxonomyIndex t).byId
              (indexFuel (buildTaxonomyIndex t)) (some s) := by
            rw [hsuf]
            exact List.mem_append.2 (Or.inr (List.mem_cons_self _ _))
          obtain ⟨pre, hpre, hlen⟩ := parentChain_suffix_of_mem hzchain
          have hnd' := hnd
          rw [hpre] at hnd'
          have hzsome : ∃ rest, parentChain (buildTaxonomyIndex t).byId
              (indexFuel (buildTaxonomyIndex t) - pre.length) (some z) = z :: rest := by
            cases hg : indexFuel (buildTaxonomyIndex t) - pre.length with
            | zero => omega
            | succ g' =>
              exact ⟨parentChain (buildTaxonomyIndex t).byId g'
                (parentOf (buildTaxonomyIndex t).byId z), rfl⟩
          obtain ⟨rest, hrest⟩ := hzsome
          rw [hrest] at hnd' hpre
          have hznotpre : z ∉ pre := not_mem_left_of_nodup_append hnd'
          have hznottake : z ∉ takeUntilMem c (parentChain (buildTaxonomyIndex t).byId
              (indexFuel (buildTaxonomyIndex t)) (some s)) := by
            intro hm
            exact not_mem_of_mem_takeUntilMem hm hz
          obtain ⟨hAeq, hBeq⟩ := split_unique (hsuf.symm.trans hpre) hznottake hznotpre
          have hykchain : y ∈ parentChain (buildTaxonomyIndex t).byId
              (indexFuel (buildTaxonomyIndex t) - pre.length) (some z) := by
            rw [hrest, ← hBeq]
            exact h
          have hprefix := parentChain_prefix (buildTaxonomyIndex t).byId
            (some z) (show indexFuel (buildTaxonomyIndex t) - pre.length ≤
              indexFuel (buildTaxonomyIndex t) by omega)
          have hychain : y ∈ parentChain (buildTaxonomyIndex t).byId
              (indexFuel (buildTaxonomyIndex t)) (some z) := hprefix.subset hykchain
          exact List.mem_append.2 (Or.inl (hcc z hz y hychain))

theorem closureWalk_closed {t : Taxonomy} (hv : ValidStructure t) {c : List NodeId}
    {s : NodeId}
    (hcc : ∀ z ∈ c, ∀ y ∈ chainOf (buildTaxonomyIndex t) z, y ∈ c) :
    ∀ z ∈ closureWalk (buildTaxonomyIndex t).byId (indexFuel (buildTaxonomyIndex t)) c
      (some s), ∀ y ∈ chainOf (buildTaxonomyIndex t) z,
      y ∈ closureWalk (buildTaxonomyIndex t).byId (indexFuel (buildTaxonomyIndex t)) c
        (some s) := by
  intro z hz y hy
  rw [closureWalk_mem hv s hcc] at hz ⊢
  rcases hz with hz | hz
  · exact Or.inl (hcc z hz y hy)
  · exact Or.inr (chainOf_subset_of_mem hv hz y hy)

/-- Membership in `computeClosure` over a structurally valid taxonomy: exactly
the parent chains of the selected ids. -/
theorem computeClosure_mem {t : Taxonomy} (hv : ValidStructure t) (S : List NodeId)
    (y : NodeId) :
    y ∈ computeClosure (buildTaxonomyIndex t) S ↔
      ∃ s ∈ S, y ∈ chainOf (buildTaxonomyIndex t) s := by
  suffices aux : ∀ (S : List NodeId) (c : List NodeId),
      (∀ z ∈ c, ∀ y' ∈ chainOf (buildTaxonomyIndex t) z, y' ∈ c) →
      ∀ y, (y ∈ S.foldl (fun cl i => closureWalk (buildTaxonomyIndex t).byId
          (indexFuel (buildTaxonomyIndex t)) cl (some i)) c ↔
        y ∈ c ∨ ∃ s ∈ S, y ∈ chainOf (buildTaxonomyIndex t) s) by
    have h := aux S [] (by simp) y
    simpa [computeClosure] using h
  intro S
  induction S with
  | nil => intro c hcc y; simp
  | cons s S' ih =>
    intro c hcc y
    rw [List.foldl_cons]
    rw [ih _ (closureWalk_closed hv hcc)]
    rw [closureWalk_mem hv s hcc]
    constructor
    · rintro ((h | h) | ⟨s', hs', h⟩)
      · exact Or.inl h
      · exact Or.inr ⟨s, List.mem_cons_self _ _, h⟩
      · exact Or.inr ⟨s', List.mem_cons_of_mem _ hs', h⟩
    · rintro (h | ⟨s', hs', h⟩)
      · exact Or.inl (Or.inl h)
      · rcases List.mem_cons.1 hs' with rfl | hs'
        · exact Or.inl (Or.inr h)
        · exact Or.inr ⟨s', hs', h⟩

/-- The closure list only grows during a walk. -/
theorem closureWalk_isPrefix (byId : NodeId → Option TagNode) :
    ∀ (f : Nat) (c : List NodeId) (cur : Option NodeId),
      c.IsPrefix (closureWalk byId f c cur) := by
  intro f
  induction f with
  | zero => intro c cur; cases cur <;> simp [closureWalk]
  | succ g ih =>
    intro c cur
    cases cur with
    | none => simp [closureWalk]
    | some i =>
      by_cases hc : i ∈ c
      · rw [show closureWalk byId (g + 1) c (some i) = c from by
          simp [closureWalk, List.contains, hc]]
      · rw [show closureWalk byId (g + 1) c (some i) =
          closureWalk byId g (c ++ [i]) (parentOf byId i) from by
          simp [closureWalk, List.contains, hc]]
        exact (List.prefix_append c [i]).trans (ih (c ++ [i]) (parentOf byId i))

/-- Every selected id ends up in the closure (no validity assumptions). -/
theorem mem_computeClosure_of_mem_selected (index : TaxonomyIndex) {S : List NodeId}
    {x : NodeId} (hx : x ∈ S) : x ∈ computeClosure index S := by
  suffices aux : ∀ (S : List NodeId) (c : List NodeId), x ∈ S ∨ x ∈ c →
      x ∈ S.foldl (fun cl i => closureWalk index.byId (indexFuel index) cl (some i)) c by
    exact aux S [] (Or.inl hx)
  intro S
  induction S with
  | nil =>
    intro c h
    rcases h with h | h
    · simp at h
    · simpa using h
  | cons s S' ih =>
    intro c h
    rw [List.foldl_cons]
    have hwalk : x ∈ S' ∨ x ∈ closureWalk index.byId (indexFuel index) c (some s) := by
      rcases h with h | h
      · rcases List.mem_cons.1 h with rfl | h
        · refine Or.inr ?_
          by_cases hc : x ∈ c
          · exact (closureWalk_isPrefix index.byId _ c (some x)).subset hc
          · rw [show closureWalk index.byId (indexFuel index) c (some x) =
              closureWalk index.byId (index.taxonomy.nodes.length + 1) (c ++ [x])
                (parentOf index.byId x) from by
              simp [indexFuel, closureWalk, List.contains, hc]]
            exact (closureWalk_isPrefix index.byId _ (c ++ [x]) _).subset
              (List.mem_append.2 (Or.inr (List.mem_singleton.2 rfl)))
        · exact Or.inl h
      · exact Or.inr ((closureWalk_isPrefix index.byId _ c (some s)).subset h)
    rcases hwalk with h | h
    · exact ih _ (Or.inl h)
    · exact ih _ (Or.inr h)


/-! ## Sort-path comparison -/

theorem compareSortPaths_cons_ne {a b : Nat} (h : a ≠ b) (as bs : List Nat) :
    compareSortPaths (a :: as) (b :: bs) = (a : Int) - b := by
  simp [compareSortPaths, h]

theorem compareSortPaths_cons_eq (a : Nat) (as bs : List Nat) :
    compareSortPaths (a :: as) (a :: bs) = compareSortPaths as bs := by
  simp [compareSortPaths]

theorem compareSortPaths_nil_right (p : List Nat) :
    compareSortPaths p [] = (p.length : Int) := by
  cases p <;> simp [compareSortPaths]

theorem compareSortPaths_nil_left (q : List Nat) :
    compareSortPaths [] q = -(q.length : Int) := by
  cases q <;> simp [compareSortPaths]

theorem compareSortPaths_self : ∀ p : List Nat, compareSortPaths p p = 0
  | [] => rfl
  | a :: as => by
    rw [compareSortPaths_cons_eq]
    exact compareSortPaths_self as

theorem compareSortPaths_neg : ∀ (p q : List Nat),
    compareSortPaths q p = -compareSortPaths p q := by
  intro p
  induction p with
  | nil =>
    intro q
    rw [compareSortPaths_nil_left, compareSortPaths_nil_right]
    omega
  | cons a as ih =>
    intro q
    cases q with
    | nil =>
      rw [compareSortPaths_nil_left, compareSortPaths_nil_right]
    | cons b bs =>
      by_cases hab : a = b
      · subst hab
        rw [compareSortPaths_cons_eq, compareSortPaths_cons_eq]
        exact ih bs
      · rw [compareSortPaths_cons_ne (fun h => hab h.symm), compareSortPaths_cons_ne hab]
        omega

theorem compareSortPaths_eq_zero : ∀ {p q : List Nat}, compareSortPaths p q = 0 → p = q := by
  intro p
  induction p with
  | nil =>
    intro q h
    rw [compareSortPaths_nil_left] at h
    have : q.length = 0 := by omega
    rw [List.length_eq_zero.1 this]
  | cons a as ih =>
    intro q h
    cases q with
    | nil =>
      rw [compareSortPaths_nil_right] at h
      simp only [List.length_cons] at h
      exact absurd h (by omega)
    | cons b bs =>
      by_cases hab : a = b
      · subst hab
        rw [compareSortPaths_cons_eq] at h
        rw [ih h]
      · rw [compareSortPaths_cons_ne hab] at h
        exact absurd (by omega : a = b) hab

theorem compareSortPaths_le_trans : ∀ {p q r : List Nat},
    compareSortPaths p q ≤ 0 → compareSortPaths q r ≤ 0 → compareSortPaths p r ≤ 0 := by
  intro p
  induction p with
  | nil =>
    intro q r _ _
    rw [compareSortPaths_nil_left]
    omega
  | cons a as ih =>
    intro q r h₁ h₂
    cases q with
    | nil =>
      rw [compareSortPaths_nil_right] at h₁
      simp [List.length_cons] at h₁
      omega
    | cons b bs =>
      cases r with
      | nil =>
        rw [compareSortPaths_nil_right] at h₂
        simp [List.length_cons] at h₂
        omega
      | cons c cs =>
        by_cases hab : a = b
        · subst hab
          rw [compareSortPaths_cons_eq] at h₁
          by_cases hac : a = c
          · subst hac
            rw [compareSortPaths_cons_eq] at h₂ ⊢
            exact ih h₁ h₂
          · rw [compareSortPaths_cons_ne hac] at h₂ ⊢
            exact h₂
        · rw [compareSortPaths_cons_ne hab] at h₁
          by_cases hbc : b = c
          · subst hbc
            rw [compareSortPaths_cons_ne hab]
            exact h₁
          · rw [compareSortPaths_cons_ne hbc] at h₂
            have hac : a ≠ c := by omega
            rw [compareSortPaths_cons_ne hac]
            omega

theorem compareSortPaths_append_head_lt : ∀ (pre : List Nat) {x y : Nat}
    (tx ty : List Nat), x < y →
    compareSortPaths (pre ++ x :: tx) (pre ++ y :: ty) < 0 := by
  intro pre
  induction pre with
  | nil =>
    intro x y tx ty h
    simp only [List.nil_append]
    rw [compareSortPaths_cons_ne (by omega)]
    omega
  | cons p ps ih =>
    intro x y tx ty h
    simp only [List.cons_append]
    rw [compareSortPaths_cons_eq]
    exact ih _ _ h

theorem compareSortPaths_proper_prefix : ∀ (pre : List Nat) (x : Nat) (tl : List Nat),
    compareSortPaths pre (pre ++ x :: tl) < 0 := by
  intro pre
  induction pre with
  | nil =>
    intro x tl
    rw [List.nil_append, compareSortPaths_nil_left]
    simp [List.length_cons]
    omega
  | cons p ps ih =>
    intro x tl
    rw [List.cons_append, compareSortPaths_cons_eq]
    exact ih x tl

theorem pathLe_refl (index : TaxonomyIndex) (a : NodeId) : pathLe index a a = true := by
  unfold pathLe
  simp [compareSortPaths_self]

theorem pathLe_total (index : TaxonomyIndex) (a b : NodeId) :
    pathLe index a b = true ∨ pathLe index b a = true := by
  unfold pathLe
  simp only [decide_eq_true_eq]
  rw [compareSortPaths_neg ((index.sortPathCache a).getD [])
    ((index.sortPathCache b).getD [])]
  omega

theorem pathLe_trans (index : TaxonomyIndex) (a b c : NodeId)
    (h₁ : pathLe index a b = true) (h₂ : pathLe index b c = true) :
    pathLe index a c = true := by
  unfold pathLe at h₁ h₂ ⊢
  rw [decide_eq_true_eq] at h₁ h₂ ⊢
  exact compareSortPaths_le_trans h₁ h₂

/-! ## Injectivity of cached sort paths -/

theorem append_singleton_inj {l₁ l₂ : List Nat} {x y : Nat}
    (h : l₁ ++ [x] = l₂ ++ [y]) : l₁ = l₂ ∧ x = y := by
  have h' := congrArg List.reverse h
  simp only [List.reverse_append, List.reverse_singleton, List.singleton_append,
    List.cons.injEq] at h'
  exact ⟨List.reverse_inj.1 h'.2, h'.1⟩

theorem parentOf_eq {byId : NodeId → Option TagNode} {i : NodeId} {n : TagNode}
    (h : byId i = some n) : parentOf byId i = n.parentId := by
  unfold parentOf
  rw [h]
  rfl

theorem computeSortPath_inj_aux {t : Taxonomy}
    (hnd : (t.nodes.map (fun n => n.id)).Nodup) :
    ∀ (L : Nat) {f g : Nat} {a b : NodeId} {path : List Nat}, path.length ≤ L →
      computeSortPath (buildTaxonomyIndex t).byId (buildTaxonomyIndex t).siblingOrdinal
        f a = some path →
      computeSortPath (buildTaxonomyIndex t).byId (buildTaxonomyIndex t).siblingOrdinal
        g b = some path →
      a = b := by
  intro L
  induction L with
  | zero =>
    intro f g a b path hlen ha _
    have hne := computeSortPath_ne_nil ha
    have hnil : path = [] := List.length_eq_zero.1 (by omega)
    rw [hnil] at hne
    exact absurd rfl hne
  | succ L ih =>
    intro f g a b path hlen ha hb
    match f, g with
    | 0, _ => simp [computeSortPath] at ha
    | _ + 1, 0 => simp [computeSortPath] at hb
    | f' + 1, g' + 1 =>
      obtain ⟨oa, hsa, hca⟩ := computeSortPath_char ha
      obtain ⟨ob, hsb, hcb⟩ := computeSortPath_char hb
      obtain ⟨na, hba, hga⟩ := siblingOrdinal_spec hsa
      obtain ⟨nb, hbb, hgb⟩ := siblingOrdinal_spec hsb
      rcases hca with ⟨hpa, hpath_a⟩ | ⟨pa, ppa, hpa, hra, hpath_a⟩ <;>
        rcases hcb with ⟨hpb, hpath_b⟩ | ⟨pb, ppb, hpb, hrb, hpath_b⟩
      · -- both roots
        have hoab : oa = ob := by
          rw [hpath_a] at hpath_b
          injection hpath_b
        have hpar_a : na.parentId = none := by
          rw [parentOf_eq hba] at hpa
          exact hpa
        have hpar_b : nb.parentId = none := by
          rw [parentOf_eq hbb] at hpb
          exact hpb
        rw [hpar_a] at hga
        rw [hpar_b, ← hoab] at hgb
        rw [hga] at hgb
        exact Option.some_inj.1 hgb
      · -- root vs child: the child's parent path is nonempty
        rw [hpath_a] at hpath_b
        have hne := computeSortPath_ne_nil hrb
        have hlen' := congrArg List.length hpath_b
        simp only [List.length_singleton, List.length_append, List.length_cons,
          List.length_nil] at hlen'
        have : ppb = [] := List.length_eq_zero.1 (by omega)
        exact absurd this hne
      · rw [hpath_b] at hpath_a
        have hne := computeSortPath_ne_nil hra
        have hlen' := congrArg List.length hpath_a
        simp only [List.length_singleton, List.length_append, List.length_cons,
          List.length_nil] at hlen'
        have : ppa = [] := List.length_eq_zero.1 (by omega)
        exact absurd this hne
      · -- both have parents
        have hsplit : ppa = ppb ∧ oa = ob := by
          apply append_singleton_inj
          rw [← hpath_a, ← hpath_b]
        obtain ⟨hpp, hoab⟩ := hsplit
        have hlen' := congrArg List.length hpath_a
        simp only [List.length_append, List.length_singleton] at hlen'
        have hppl : ppa.length ≤ L := by omega
        rw [← hpp] at hrb
        have hparents : pa = pb := ih hppl hra hrb
        have hpar_a : na.parentId = some pa := by
          rw [parentOf_eq hba] at hpa
          exact hpa
        have hpar_b : nb.parentId = some pb := by
          rw [parentOf_eq hbb] at hpb
          exact hpb
        rw [hpar_a, hparents] at hga
        rw [hpar_b, ← hoab] at hgb
        rw [hga] at hgb
        exact Option.some_inj.1 hgb

/-- Distinct ids never share a cached sort path (structurally valid taxonomy). -/
theorem sortPathCache_inj {t : Taxonomy} (hv : ValidStructure t) {a b : NodeId}
    {path : List Nat} (ha : (buildTaxonomyIndex t).sortPathCache a = some path)
    (hb : (buildTaxonomyIndex t).sortPathCache b = some path) : a = b := by
  rw [sortPathCache_build] at ha hb
  cases hba : (buildTaxonomyIndex t).byId a with
  | none => rw [hba] at ha; simp at ha
  | some na =>
    rw [hba] at ha
    cases hbb : (buildTaxonomyIndex t).byId b with
    | none => rw [hbb] at hb; simp at hb
    | some nb =>
      rw [hbb] at hb
      exact computeSortPath_inj_aux hv.1 path.length (Nat.le_refl _) ha hb

/-- Every id that resolves in `byId` has a cached sort path. -/
theorem sortPathCache_isSome_of_byId {t : Taxonomy} (hv : ValidStructure t)
    {y : NodeId} {n : TagNode} (hb : (buildTaxonomyIndex t).byId y = some n) :
    ((buildTaxonomyIndex t).sortPathCache y).isSome = true := by
  obtain ⟨hmem, hid⟩ := byId_eq_some hb
  have := hv.2 n hmem
  rw [hid] at this
  exact this

/-! ## Export-set computation -/

theorem mem_exportFold (index : TaxonomyIndex) :
    ∀ (cand acc : List NodeId) (y : NodeId),
      (y ∈ cand.foldl (fun exportSet i =>
        match index.byId i with
        | some node =>
          if shouldExport node && !(exportSet.contains i) then exportSet ++ [i]
          else exportSet
        | none => exportSet) acc ↔
      y ∈ acc ∨ (y ∈ cand ∧ ∃ n, index.byId y = some n ∧ shouldExport n = true)) := by
  intro cand
  induction cand with
  | nil => intro acc y; simp
  | cons i rest ih =>
    intro acc y
    rw [List.foldl_cons, ih]
    cases hb : index.byId i with
    | none =>
      simp only [hb]
      constructor
      · rintro (h | h)
        · exact Or.inl h
        · exact Or.inr ⟨List.mem_cons_of_mem _ h.1, h.2⟩
      · rintro (h | ⟨hmem, n, hbn, hex⟩)
        · exact Or.inl h
        · rcases List.mem_cons.1 hmem with rfl | hmem
          · rw [hb] at hbn; cases hbn
          · exact Or.inr ⟨hmem, n, hbn, hex⟩
    | some node =>
      simp only [hb]
      by_cases hse : shouldExport node = true
      · by_cases hct : i ∈ acc
        · rw [show (if shouldExport node && !(acc.contains i) then acc ++ [i] else acc)
              = acc from by simp [List.contains, hct]]
          constructor
          · rintro (h | h)
            · exact Or.inl h
            · exact Or.inr ⟨List.mem_cons_of_mem _ h.1, h.2⟩
          · rintro (h | ⟨hmem, n, hbn, hex⟩)
            · exact Or.inl h
            · rcases List.mem_cons.1 hmem with rfl | hmem
              · exact Or.inl hct
              · exact Or.inr ⟨hmem, n, hbn, hex⟩
        · rw [show (if shouldExport node && !(acc.contains i) then acc ++ [i] else acc)
              = acc ++ [i] from by simp [List.contains, hct, hse]]
          constructor
          · rintro (h | h)
            · rcases List.mem_append.1 h with h | h
              · exact Or.inl h
              · rw [List.mem_singleton] at h
                subst h
                exact Or.inr ⟨List.mem_cons_self _ _, node, hb, hse⟩
            · exact Or.inr ⟨List.mem_cons_of_mem _ h.1, h.2⟩
          · rintro (h | ⟨hmem, n, hbn, hex⟩)
            · exact Or.inl (List.mem_append.2 (Or.inl h))
            · rcases List.mem_cons.1 hmem with rfl | hmem
              · exact Or.inl (List.mem_append.2 (Or.inr (List.mem_singleton.2 rfl)))
              · exact Or.inr ⟨hmem, n, hbn, hex⟩
      · rw [show (if shouldExport node && !(acc.contains i) then acc ++ [i] else acc)
            = acc from by simp [hse]]
        constructor
        · rintro (h | h)
          · exact Or.inl h
          · exact Or.inr ⟨List.mem_cons_of_mem _ h.1, h.2⟩
        · rintro (h | ⟨hmem, n, hbn, hex⟩)
          · exact Or.inl h
          · rcases List.mem_cons.1 hmem with rfl | hmem
            · rw [hb] at hbn
              cases hbn
              exact absurd hex hse
            · exact Or.inr ⟨hmem, n, hbn, hex⟩

theorem mem_computeExportSet_iff (index : TaxonomyIndex) (S : List NodeId)
    (opts : ExportSetOptions) (y : NodeId) :
    y ∈ computeExportSet index S opts ↔
      (y ∈ (if opts.includeAncestors then computeClosure index S else S) ∧
        ∃ n, index.byId y = some n ∧ shouldExport n = true) := by
  unfold computeExportSet
  rw [mem_exportFold]
  simp

theorem computeExportSet_nodup (index : TaxonomyIndex) (S : List NodeId)
    (opts : ExportSetOptions) : (computeExportSet index S opts).Nodup := by
  unfold computeExportSet
  suffices aux : ∀ (cand acc : List NodeId), acc.Nodup →
      (cand.foldl (fun exportSet i =>
        match index.byId i with
        | some node =>
          if shouldExport node && !(exportSet.contains i) then exportSet ++ [i]
          else exportSet
        | none => exportSet) acc).Nodup by
    exact aux _ [] (by simp)
  intro cand
  induction cand with
  | nil => intro acc h; simpa using h
  | cons i rest ih =>
    intro acc hacc
    rw [List.foldl_cons]
    apply ih
    cases hb : index.byId i with
    | none => exact hacc
    | some node =>
      show (if shouldExport node && !(acc.contains i) then acc ++ [i] else acc).Nodup
      by_cases hct : i ∈ acc
      · rw [show (if shouldExport node && !(acc.contains i) then acc ++ [i] else acc)
            = acc from by simp [List.contains, hct]]
        exact hacc
      · by_cases hse : shouldExport node = true
        · rw [show (if shouldExport node && !(acc.contains i) then acc ++ [i] else acc)
              = acc ++ [i] from by simp [List.contains, hct, hse]]
          rw [List.nodup_append]
          refine ⟨hacc, List.nodup_singleton i, ?_⟩
          intro a ha hai
          rw [List.mem_singleton] at hai
          exact hct (hai ▸ ha)
        · rw [show (if shouldExport node && !(acc.contains i) then acc ++ [i] else acc)
              = acc from by simp [hse]]
          exact hacc

/-! ## `sortByUserOrder` branch characterizations -/

theorem sortByUserOrder_small (index : TaxonomyIndex) {ids : List NodeId}
    (hlen : ids.length < 2) : sortByUserOrder index ids = some ids := by
  unfold sortByUserOrder
  rw [if_pos hlen]

theorem sortByUserOrder_eq_sortStable (index : TaxonomyIndex) {ids : List NodeId}
    (hlen : 2 ≤ ids.length)
    (hall : ∀ i ∈ ids, (index.sortPathCache i).isSome = true) :
    sortByUserOrder index ids = some (sortStable (pathLe index) ids) := by
  unfold sortByUserOrder
  rw [if_neg (by omega), if_pos (by rw [List.all_eq_true]; exact hall)]

theorem sortByUserOrder_none (index : TaxonomyIndex) {ids : List NodeId}
    (hlen : 2 ≤ ids.length) {i : NodeId} (hi : i ∈ ids)
    (hmiss : index.sortPathCache i = none) : sortByUserOrder index ids = none := by
  unfold sortByUserOrder
  rw [if_neg (by omega), if_neg]
  rw [List.all_eq_true]
  intro hall
  have := hall i hi
  rw [hmiss] at this
  simp at this


/-! ## Chains as suffixes, sort paths as prefixes -/

/-- The chain of a chain member is a suffix of the whole chain. -/
theorem chainOf_suffix_of_mem {t : Taxonomy} (hv : ValidStructure t) {s z : NodeId}
    (h : z ∈ chainOf (buildTaxonomyIndex t) s) :
    ∃ pre, chainOf (buildTaxonomyIndex t) s = pre ++ chainOf (buildTaxonomyIndex t) z := by
  have hslen := chain_length_lt hv s
  unfold chainOf at h hslen ⊢
  obtain ⟨pre, hpre, hlen⟩ := parentChain_suffix_of_mem h
  have hcg := congrArg List.length hpre
  simp only [List.length_append] at hcg
  have hsuffix_len : (parentChain (buildTaxonomyIndex t).byId
      (indexFuel (buildTaxonomyIndex t) - pre.length) (some z)).length <
      indexFuel (buildTaxonomyIndex t) - pre.length := by omega
  have hstab := parentChain_stable_of_len pre.length hsuffix_len
  have harith : indexFuel (buildTaxonomyIndex t) - pre.length + pre.length =
      indexFuel (buildTaxonomyIndex t) := by omega
  rw [harith] at hstab
  exact ⟨pre, by rw [hpre, hstab]⟩

/-- Mutual chain membership forces equality (the taxonomy is cycle-free). -/
theorem chainOf_antisymm {t : Taxonomy} (hv : ValidStructure t) {a b : NodeId}
    (hab : a ∈ chainOf (buildTaxonomyIndex t) b)
    (hba : b ∈ chainOf (buildTaxonomyIndex t) a) : a = b := by
  obtain ⟨pre₁, h₁⟩ := chainOf_suffix_of_mem hv hab
  obtain ⟨pre₂, h₂⟩ := chainOf_suffix_of_mem hv hba
  rw [h₂, ← List.append_assoc] at h₁
  have hlen := congrArg List.length h₁
  simp only [List.length_append] at hlen
  have hpre₁ : pre₁.length = 0 := by omega
  have heq : chainOf (buildTaxonomyIndex t) b = chainOf (buildTaxonomyIndex t) a := by
    have hpre₂ : pre₂.length = 0 := by omega
    rw [List.length_eq_zero.1 hpre₂, List.nil_append] at h₂
    exact h₂.symm
  have ha := chainOf_cons t a
  have hb := chainOf_cons t b
  rw [ha, hb] at heq
  injection heq with h _
  exact h.symm

/-- A child of `s` never enters the closure of the selection `{s}`. -/
theorem child_not_mem_closure_single {t : Taxonomy} (hv : ValidStructure t)
    {s c : NodeId} {nc : TagNode} (hbc : (buildTaxonomyIndex t).byId c = some nc)
    (hpc : nc.parentId = some s) :
    c ∉ computeClosure (buildTaxonomyIndex t) [s] := by
  intro hmem
  rw [computeClosure_mem hv] at hmem
  obtain ⟨s', hs', hchain⟩ := hmem
  rw [List.mem_singleton] at hs'
  rw [hs'] at hchain
  -- `s` is on the chain of `c` (it is `c`'s parent), so the cycle-freeness
  -- antisymmetry forces `c = s`, which makes `c` its own parent.
  have hpo : parentOf (buildTaxonomyIndex t).byId c = some s := by
    rw [parentOf_eq hbc]
    exact hpc
  have hcchain : chainOf (buildTaxonomyIndex t) c =
      c :: parentChain (buildTaxonomyIndex t).byId (t.nodes.length + 1) (some s) := by
    unfold chainOf indexFuel
    rw [taxonomy_build]
    rw [show parentChain (buildTaxonomyIndex t).byId (t.nodes.length + 2) (some c) =
      c :: parentChain (buildTaxonomyIndex t).byId (t.nodes.length + 1)
        (parentOf (buildTaxonomyIndex t).byId c) from rfl]
    rw [hpo]
  have hs_mem : s ∈ chainOf (buildTaxonomyIndex t) c := by
    rw [hcchain]
    refine List.mem_cons_of_mem _ ?_
    rw [show parentChain (buildTaxonomyIndex t).byId (t.nodes.length + 1) (some s) =
      s :: parentChain (buildTaxonomyIndex t).byId t.nodes.length
        (parentOf (buildTaxonomyIndex t).byId s) from rfl]
    exact List.mem_cons_self _ _
  have hcs : c = s := chainOf_antisymm hv hchain hs_mem
  subst hcs
  have hnd := chainOf_nodup hv c
  rw [hcchain] at hnd
  rw [List.nodup_cons] at hnd
  exact hnd.1 (by
    rw [show parentChain (buildTaxonomyIndex t).byId (t.nodes.length + 1) (some c) =
      c :: parentChain (buildTaxonomyIndex t).byId t.nodes.length
        (parentOf (buildTaxonomyIndex t).byId c) from rfl]
    exact List.mem_cons_self _ _)

/-- Along a successful sort-path walk, every chain member's own sort path is
a prefix of the walk's result. -/
theorem computeSortPath_prefix_of_chain {byId : NodeId → Option TagNode}
    {sib : NodeId → Option Nat} :
    ∀ {f : Nat} {i : NodeId} {path : List Nat},
      computeSortPath byId sib f i = some path →
      ∀ z ∈ parentChain byId f (some i),
        ∃ pz, computeSortPath byId sib f z = some pz ∧ pz.IsPrefix path := by
  intro f
  induction f with
  | zero => intro i path h; simp [computeSortPath] at h
  | succ g ih =>
    intro i path h z hz
    rw [show parentChain byId (g + 1) (some i) =
      i :: parentChain byId g (parentOf byId i) from rfl] at hz
    obtain ⟨o, hs, hcase⟩ := computeSortPath_char h
    rcases List.mem_cons.1 hz with rfl | hz
    · exact ⟨path, h, List.prefix_refl path⟩
    · rcases hcase with ⟨hp, rfl⟩ | ⟨p, pp, hp, hr, rfl⟩
      · rw [hp] at hz
        simp [parentChain] at hz
      · rw [hp] at hz
        obtain ⟨pz, hpz, hpre⟩ := ih hr z hz
        exact ⟨pz, computeSortPath_mono (by omega) hpz,
          hpre.trans (List.prefix_append pp [o])⟩

/-- `sortPathCache` of a chain member is a prefix of the node's own path:
an ancestor's sort path is a strict prefix of its descendants' paths. -/
theorem sortPathCache_prefix {t : Taxonomy} (hv : ValidStructure t) {x z : NodeId}
    {px pz : List Nat} (hx : (buildTaxonomyIndex t).sortPathCache x = some px)
    (hz : z ∈ chainOf (buildTaxonomyIndex t) x)
    (hzc : (buildTaxonomyIndex t).sortPathCache z = some pz) : pz.IsPrefix px := by
  rw [sortPathCache_build] at hx hzc
  cases hbx : (buildTaxonomyIndex t).byId x with
  | none => rw [hbx] at hx; simp at hx
  | some nx =>
    rw [hbx] at hx
    cases hbz : (buildTaxonomyIndex t).byId z with
    | none => rw [hbz] at hzc; simp at hzc
    | some nz =>
      rw [hbz] at hzc
      have hstab := parentChain_stable_of_sortPath 1 hx
      have harith : t.nodes.length + 1 + 1 = t.nodes.length + 2 := by omega
      rw [harith] at hstab
      have hz' : z ∈ parentChain (buildTaxonomyIndex t).byId (t.nodes.length + 1)
          (some x) := by
        unfold chainOf indexFuel at hz
        rw [taxonomy_build] at hz
        rw [← hstab]
        exact hz
      obtain ⟨pz', hpz', hpre⟩ := computeSortPath_prefix_of_chain hx z hz'
      have hzc' : computeSortPath (buildTaxonomyIndex t).byId
          (buildTaxonomyIndex t).siblingOrdinal (t.nodes.length + 1) z = some pz := hzc
      rw [hzc'] at hpz'
      rw [Option.some_inj.1 hpz']
      exact hpre

/-- Two same-parent siblings' sort paths differ exactly in the final sibling
ordinal, over a common prefix. -/
theorem sibling_paths {t : Taxonomy} (hv : ValidStructure t) {A B : NodeId}
    {na nb : TagNode} {ka kb : Nat}
    (hA : (buildTaxonomyIndex t).byId A = some na)
    (hB : (buildTaxonomyIndex t).byId B = some nb)
    (hpar : na.parentId = nb.parentId)
    (hka : (buildTaxonomyIndex t).siblingOrdinal A = some ka)
    (hkb : (buildTaxonomyIndex t).siblingOrdinal B = some kb) :
    ∃ pfx, (buildTaxonomyIndex t).sortPathCache A = some (pfx ++ [ka]) ∧
      (buildTaxonomyIndex t).sortPathCache B = some (pfx ++ [kb]) := by
  have hsomeA := sortPathCache_isSome_of_byId hv hA
  have hsomeB := sortPathCache_isSome_of_byId hv hB
  obtain ⟨pA, hpA⟩ := Option.isSome_iff_exists.1 hsomeA
  obtain ⟨pB, hpB⟩ := Option.isSome_iff_exists.1 hsomeB
  have hpA' : computeSortPath (buildTaxonomyIndex t).byId
      (buildTaxonomyIndex t).siblingOrdinal (t.nodes.length + 1) A = some pA := by
    rw [sortPathCache_build, hA] at hpA
    exact hpA
  have hpB' : computeSortPath (buildTaxonomyIndex t).byId
      (buildTaxonomyIndex t).siblingOrdinal (t.nodes.length + 1) B = some pB := by
    rw [sortPathCache_build, hB] at hpB
    exact hpB
  obtain ⟨oA, hsA, hcA⟩ := computeSortPath_char hpA'
  obtain ⟨oB, hsB, hcB⟩ := computeSortPath_char hpB'
  rw [hka] at hsA
  rw [hkb] at hsB
  cases Option.some_inj.1 hsA
  cases Option.some_inj.1 hsB
  have hpoA : parentOf (buildTaxonomyIndex t).byId A = na.parentId := parentOf_eq hA
  have hpoB : parentOf (buildTaxonomyIndex t).byId B = nb.parentId := parentOf_eq hB
  rcases hcA with ⟨hropA, rfl⟩ | ⟨p, pp, hropA, hrA, rfl⟩
  · -- both roots
    rw [hpoA, hpar, ← hpoB] at hropA
    rcases hcB with ⟨-, rfl⟩ | ⟨pb', ppb, hropB, -, -⟩
    · exact ⟨[], by simpa using hpA, by simpa using hpB⟩
    · rw [hropA] at hropB
      cases hropB
  · rcases hcB with ⟨hropB, rfl⟩ | ⟨pb', ppb, hropB, hrB, rfl⟩
    · rw [hpoA, hpar, ← hpoB] at hropA
      rw [hropA] at hropB
      cases hropB
    · have hsamep : pb' = p := by
        rw [hpoA, hpar, ← hpoB] at hropA
        rw [hropA] at hropB
        exact (Option.some_inj.1 hropB).symm
      subst hsamep
      have hsamepp : ppb = pp := by
        rw [hrA] at hrB
        exact (Option.some_inj.1 hrB).symm
      subst hsamepp
      exact ⟨ppb, hpA, hpB⟩

/-- Two distinct members force length at least two. -/
theorem two_le_length_of_mem_ne {x y : NodeId} {l : List NodeId}
    (hx : x ∈ l) (hy : y ∈ l) (hne : x ≠ y) : 2 ≤ l.length := by
  match l, hx with
  | [a], hx =>
    rw [List.mem_singleton] at hx
    rw [List.mem_singleton] at hy
    exact absurd (hx.trans hy.symm) hne
  | a :: b :: rest, _ => simp [List.length_cons]

/-- Prefixes of a common list with equal lengths coincide. -/
theorem prefix_eq_of_length {p₁ p₂ l : List Nat} (h₁ : p₁.IsPrefix l)
    (h₂ : p₂.IsPrefix l) (hlen : p₁.length = p₂.length) : p₁ = p₂ := by
  rw [List.prefix_iff_eq_take] at h₁ h₂
  rw [h₁, h₂, hlen]


/-! ## Remaining support lemmas -/

/-- A sort path is the ordinal sequence of the chain, root first. -/
theorem computeSortPath_eq_ordinals {byId : NodeId → Option TagNode}
    {sib : NodeId → Option Nat} :
    ∀ {f : Nat} {i : NodeId} {path : List Nat},
      computeSortPath byId sib f i = some path →
      path = (parentChain byId f (some i)).reverse.map (fun z => (sib z).getD 0) := by
  intro f
  induction f with
  | zero => intro i path h; simp [computeSortPath] at h
  | succ g ih =>
    intro i path h
    obtain ⟨o, hs, hcase⟩ := computeSortPath_char h
    rcases hcase with ⟨hp, rfl⟩ | ⟨p, pp, hp, hr, rfl⟩
    · rw [show parentChain byId (g + 1) (some i) =
        i :: parentChain byId g (parentOf byId i) from rfl, hp]
      simp [parentChain, hs]
    · rw [show parentChain byId (g + 1) (some i) =
        i :: parentChain byId g (parentOf byId i) from rfl, hp]
      simp only [List.reverse_cons, List.map_append, List.map_cons, List.map_nil]
      rw [← ih hr]
      simp [hs]

theorem sortByUserOrder_some_cases (index : TaxonomyIndex) {ids out : List NodeId}
    (h : sortByUserOrder index ids = some out) :
    (ids.length < 2 ∧ out = ids) ∨
      (2 ≤ ids.length ∧ (∀ i ∈ ids, (index.sortPathCache i).isSome = true) ∧
        out = sortStable (pathLe index) ids) := by
  unfold sortByUserOrder at h
  by_cases h1 : ids.length < 2
  · rw [if_pos h1] at h
    exact Or.inl ⟨h1, (Option.some_inj.1 h).symm⟩
  · rw [if_neg h1] at h
    by_cases h2 : ids.all (fun i => (index.sortPathCache i).isSome) = true
    · rw [if_pos h2] at h
      rw [List.all_eq_true] at h2
      exact Or.inr ⟨by omega, h2, (Option.some_inj.1 h).symm⟩
    · rw [if_neg h2] at h
      cases h

/-! ## C2 -/

/-- C2: `compareNodes` compares by `order` ascending (numeric subtraction);
on equal orders by `label` in UTF-16 code-unit order; on equal labels by
`id` in the same order, so distinct ids never compare equal; and the string
order is plain code-unit comparison, not natural sort: "A1" < "A10" < "A2". -/
theorem C2_compareNodes_spec :
    (∀ a b : TagNode, a.order ≠ b.order → compareNodes a b = a.order - b.order) ∧
    (∀ a b : TagNode, a.order = b.order → a.label ≠ b.label →
      compareNodes a b = compareStringsUTF16 a.label b.label) ∧
    (∀ a b : TagNode, a.order = b.order → a.label = b.label →
      compareNodes a b = compareStringsUTF16 a.id b.id) ∧
    (∀ a b : TagNode, a.id ≠ b.id → compareNodes a b ≠ 0) ∧
    (compareStringsUTF16 (uts "A1") (uts "A10") = -1 ∧
      compareStringsUTF16 (uts "A10") (uts "A2") = -1) := by
  refine ⟨?_, ?_, ?_, ?_, by decide, by decide⟩
  · intro a b h
    unfold compareNodes
    rw [if_pos h]
  · intro a b ho hl
    unfold compareNodes
    rw [if_neg (by simp [ho]),
      if_pos (fun h => hl (compareStringsUTF16_eq_zero_iff.1 h))]
  · intro a b ho hl
    unfold compareNodes
    rw [if_neg (by simp [ho]),
      if_neg (not_not_intro (compareStringsUTF16_eq_zero_iff.2 hl))]
  · intro a b h
    exact compareNodes_ne_zero_of_id_ne h

/-- Witness for C2 at concrete nodes. -/
theorem C2_witness :
    compareNodes cwOrder1 cwOrder5 = cwOrder1.order - cwOrder5.order ∧
    compareNodes cwApple cwPear = compareStringsUTF16 cwApple.label cwPear.label ∧
    compareNodes cwX1 cwX2 = compareStringsUTF16 cwX1.id cwX2.id ∧
    compareNodes cwX1 cwX2 ≠ 0 :=
  ⟨C2_compareNodes_spec.1 cwOrder1 cwOrder5 (by decide),
    C2_compareNodes_spec.2.1 cwApple cwPear (by decide) (by decide),
    C2_compareNodes_spec.2.2.1 cwX1 cwX2 (by decide) (by decide),
    C2_compareNodes_spec.2.2.2.1 cwX1 cwX2 (by decide)⟩

/-! ## C3 -/

/-- C3: the built index's `childrenOf` holds exactly each parent's children
ids, ordered by the comparator (strictly increasing, hence not insertion
order); `siblingOrdinal` is the zero-based position inside that sorted list;
`sortPathCache` maps each node to the sibling ordinals of its chain from the
root down to the node itself. -/
theorem C3_buildTaxonomyIndex_spec (t : Taxonomy) (hv : ValidStructure t) :
    (∀ p : Option NodeId,
      ((buildTaxonomyIndex t).childrenOf p).Perm
        ((t.nodes.filter (fun n => n.parentId == p)).map (fun n => n.id)) ∧
      ((buildTaxonomyIndex t).childrenOf p).Pairwise (fun i j => ∀ ni nj,
        (buildTaxonomyIndex t).byId i = some ni →
        (buildTaxonomyIndex t).byId j = some nj → compareNodes ni nj < 0)) ∧
    (∀ (i : NodeId) (k : Nat), (buildTaxonomyIndex t).siblingOrdinal i = some k ↔
      ∃ n, (buildTaxonomyIndex t).byId i = some n ∧
        ((buildTaxonomyIndex t).childrenOf n.parentId)[k]? = some i) ∧
    (∀ n ∈ t.nodes, ∃ path, (buildTaxonomyIndex t).sortPathCache n.id = some path ∧
      path = (chainOf (buildTaxonomyIndex t) n.id).reverse.map
        (fun z => ((buildTaxonomyIndex t).siblingOrdinal z).getD 0)) := by
  refine ⟨fun p => ⟨?_, childrenOf_pairwise hv.1 p⟩, fun i k => ⟨?_, ?_⟩, ?_⟩
  · rw [childrenOf_build]
    exact (sortStable_perm nodeLe _).map _
  · exact siblingOrdinal_spec
  · rintro ⟨n, hb, hget⟩
    exact siblingOrdinal_of_getElem hv.1 hb hget
  · intro n hmem
    have hb := byId_of_mem hv.1 hmem
    have hsome := hv.2 n hmem
    obtain ⟨path, hpath⟩ := Option.isSome_iff_exists.1 hsome
    refine ⟨path, hpath, ?_⟩
    have hpath' : computeSortPath (buildTaxonomyIndex t).byId
        (buildTaxonomyIndex t).siblingOrdinal (t.nodes.length + 1) n.id = some path := by
      rw [sortPathCache_build, hb] at hpath
      exact hpath
    have hords := computeSortPath_eq_ordinals hpath'
    have hstab := parentChain_stable_of_sortPath 1 hpath'
    have harith : t.nodes.length + 1 + 1 = t.nodes.length + 2 := by omega
    rw [harith] at hstab
    rw [hords]
    unfold chainOf indexFuel
    rw [taxonomy_build, hstab]

/-- Witness for C3 at the worked-example taxonomy. -/
theorem C3_witness :
    ((buildTaxonomyIndex clothingTaxonomy).childrenOf none).Perm
      ((clothingTaxonomy.nodes.filter (fun n => n.parentId == none)).map
        (fun n => n.id)) :=
  ((C3_buildTaxonomyIndex_spec clothingTaxonomy (by decide)).1 none).1

/-! ## C4 -/

/-- C4 counterexample: in the chain `a → b → c` with selection `{a, c}`,
`b` is a strict descendant of the selected `a` and is not selected, yet it
belongs to the closure (it is an ancestor of the selected `c`).  The claim
"the closure contains no strict descendant of any member of S unless that
descendant is itself in S" is therefore false as stated. -/
theorem C4_counterexample :
    uts "b" ∈ computeClosure (buildTaxonomyIndex chainTaxonomy) [uts "a", uts "c"] ∧
    uts "a" ∈ ancestorIds (buildTaxonomyIndex chainTaxonomy) (uts "b") ∧
    uts "b" ∉ ([uts "a", uts "c"] : List NodeId) ∧
    uts "a" ∈ ([uts "a", uts "c"] : List NodeId) := by
  refine ⟨by decide, by decide, by decide, by decide⟩

/-- C4 (amended): over a structurally valid taxonomy the closure holds
exactly the selected ids and their ancestors; and selecting only a parent
exports the parent and not its children. -/
theorem C4_closure_is_ancestor_closure (t : Taxonomy) (hv : ValidStructure t) :
    (∀ (S : List NodeId) (y : NodeId),
      y ∈ computeClosure (buildTaxonomyIndex t) S ↔
        y ∈ S ∨ ∃ s ∈ S, y ∈ ancestorIds (buildTaxonomyIndex t) s) ∧
    (∀ (s c : NodeId) (ns nc : TagNode),
      (buildTaxonomyIndex t).byId s = some ns →
      (buildTaxonomyIndex t).byId c = some nc → nc.parentId = some s →
      shouldExport ns = true →
      s ∈ computeExportSet (buildTaxonomyIndex t) [s] {} ∧
      c ∉ computeExportSet (buildTaxonomyIndex t) [s] {}) := by
  constructor
  · intro S y
    rw [computeClosure_mem hv]
    constructor
    · rintro ⟨s, hs, hchain⟩
      rw [chainOf_cons] at hchain
      rcases List.mem_cons.1 hchain with rfl | hanc
      · exact Or.inl hs
      · exact Or.inr ⟨s, hs, hanc⟩
    · rintro (hy | ⟨s, hs, hanc⟩)
      · exact ⟨y, hy, self_mem_chainOf _ y⟩
      · exact ⟨s, hs, by rw [chainOf_cons]; exact List.mem_cons_of_mem _ hanc⟩
  · intro s c ns nc hbs hbc hpc hse
    have hopts : ({} : ExportSetOptions).includeAncestors = true := rfl
    constructor
    · rw [mem_computeExportSet_iff]
      refine ⟨?_, ns, hbs, hse⟩
      rw [hopts, if_pos rfl]
      exact mem_computeClosure_of_mem_selected _ (List.mem_singleton.2 rfl)
    · rw [mem_computeExportSet_iff]
      rintro ⟨hmem, -⟩
      rw [hopts, if_pos rfl] at hmem
      exact child_not_mem_closure_single hv hbc hpc hmem

/-- Witness for C4 at the worked example (`丝袜` with child `黑丝`). -/
theorem C4_witness :
    uts "stockings" ∈ computeExportSet (buildTaxonomyIndex clothingTaxonomy)
      [uts "stockings"] {} ∧
    uts "black-stockings" ∉ computeExportSet (buildTaxonomyIndex clothingTaxonomy)
      [uts "stockings"] {} :=
  (C4_closure_is_ancestor_closure clothingTaxonomy (by decide)).2
    (uts "stockings") (uts "black-stockings") stockingsNode blackStockingsNode
    (by decide) (by decide) (by decide) (by decide)

/-! ## C8 -/

/-- C8 counterexample: a singleton input with an id missing from the cache is
returned unchanged — `Array.prototype.sort` never calls the comparator on a
one-element array, so nothing throws. -/
theorem C8_counterexample :
    sortByUserOrder (buildTaxonomyIndex { nodes := [] }) [uts "a"] = some [uts "a"] ∧
    (buildTaxonomyIndex { nodes := [] }).sortPathCache (uts "a") = none := by
  refine ⟨by decide, by decide⟩

/-- C8 (amended): with at least two input ids, a missing sort path makes
`sortByUserOrder` throw; with fewer than two ids the input is returned as is
without consulting the cache. -/
theorem C8_missing_sortPath (index : TaxonomyIndex) :
    (∀ (ids : List NodeId) (i : NodeId), 2 ≤ ids.length → i ∈ ids →
      index.sortPathCache i = none → sortByUserOrder index ids = none) ∧
    (∀ ids : List NodeId, ids.length < 2 → sortByUserOrder index ids = some ids) := by
  constructor
  · intro ids i h2 hi hmiss
    exact sortByUserOrder_none index h2 hi hmiss
  · intro ids hlen
    exact sortByUserOrder_small index hlen

/-- Witness for C8. -/
theorem C8_witness :
    sortByUserOrder (buildTaxonomyIndex { nodes := [] }) [uts "a", uts "b"] = none ∧
    sortByUserOrder (buildTaxonomyIndex { nodes := [] }) [uts "b"] = some [uts "b"] :=
  ⟨(C8_missing_sortPath (buildTaxonomyIndex { nodes := [] })).1 [uts "a", uts "b"]
      (uts "a") (by decide) (by decide) (by decide),
    (C8_missing_sortPath (buildTaxonomyIndex { nodes := [] })).2 [uts "b"] (by decide)⟩

/-! ## C10 -/

/-- C10: a selected id unknown to the index never makes `computeExportSet`
fail: it enters the closure (its parent chain ends right there), is silently
dropped from the export set, and the export set only ever holds ids that
resolve in `byId`. -/
theorem C10_unknown_ids (t : Taxonomy) (S : List NodeId) (x : NodeId)
    (hx : x ∈ S) (hunk : (buildTaxonomyIndex t).byId x = none) :
    x ∈ computeClosure (buildTaxonomyIndex t) S ∧
    x ∉ computeExportSet (buildTaxonomyIndex t) S {} ∧
    (∀ y ∈ computeExportSet (buildTaxonomyIndex t) S {},
      ∃ n, (buildTaxonomyIndex t).byId y = some n) ∧
    computeClosure (buildTaxonomyIndex t) [x] = [x] := by
  refine ⟨mem_computeClosure_of_mem_selected _ hx, ?_, ?_, ?_⟩
  · rw [mem_computeExportSet_iff]
    rintro ⟨-, n, hbn, -⟩
    rw [hunk] at hbn
    cases hbn
  · intro y hy
    rw [mem_computeExportSet_iff] at hy
    obtain ⟨-, n, hbn, -⟩ := hy
    exact ⟨n, hbn⟩
  · unfold computeClosure
    rw [List.foldl_cons, List.foldl_nil]
    rw [show indexFuel (buildTaxonomyIndex t) = t.nodes.length + 1 + 1 from rfl]
    rw [show closureWalk (buildTaxonomyIndex t).byId (t.nodes.length + 1 + 1) [] (some x) =
      closureWalk (buildTaxonomyIndex t).byId (t.nodes.length + 1) ([] ++ [x])
        (parentOf (buildTaxonomyIndex t).byId x) from by
      simp [closureWalk, List.contains]]
    rw [show parentOf (buildTaxonomyIndex t).byId x = none from by
      unfold parentOf; rw [hunk]; rfl]
    rw [show closureWalk (buildTaxonomyIndex t).byId (t.nodes.length + 1) ([] ++ [x])
      none = [] ++ [x] from rfl]
    rfl

/-- Witness for C10: an id absent from the worked-example taxonomy. -/
theorem C10_witness :
    uts "zzz" ∈ computeClosure (buildTaxonomyIndex clothingTaxonomy)
      [uts "zzz", uts "jk"] ∧
    uts "zzz" ∉ computeExportSet (buildTaxonomyIndex clothingTaxonomy)
      [uts "zzz", uts "jk"] {} ∧
    (∀ y ∈ computeExportSet (buildTaxonomyIndex clothingTaxonomy)
      [uts "zzz", uts "jk"] {}, ∃ n, (buildTaxonomyIndex clothingTaxonomy).byId y = some n) ∧
    computeClosure (buildTaxonomyIndex clothingTaxonomy) [uts "zzz"] = [uts "zzz"] :=
  C10_unknown_ids clothingTaxonomy [uts "zzz", uts "jk"] (uts "zzz") (by decide) (by decide)

/-! ## C6 -/

/-- C6: the worked example end to end: selecting
`{JK, 黑丝, 水手服, 短裙, 乐福鞋}` in the clothing taxonomy produces exactly
the export set `{学生, JK, 水手服, 短裙, 乐福鞋, 丝袜, 黑丝}` (folders
excluded) and the formatted output
`"学生, JK, 水手服, 短裙, 乐福鞋, 丝袜, 黑丝"`. -/
theorem C6_worked_example :
    computeExportSet (buildTaxonomyIndex clothingTaxonomy) clothingSelection =
      [uts "jk", uts "student", uts "black-stockings", uts "stockings", uts "sailor",
        uts "short-skirt", uts "loafer"] ∧
    sortByUserOrder (buildTaxonomyIndex clothingTaxonomy)
      (computeExportSet (buildTaxonomyIndex clothingTaxonomy) clothingSelection) =
      some [uts "student", uts "jk", uts "sailor", uts "short-skirt", uts "loafer",
        uts "stockings", uts "black-stockings"] ∧
    formatForMylio (buildTaxonomyIndex clothingTaxonomy)
      [uts "student", uts "jk", uts "sailor", uts "short-skirt", uts "loafer",
        uts "stockings", uts "black-stockings"] =
      uts "学生, JK, 水手服, 短裙, 乐福鞋, 丝袜, 黑丝" := by
  refine ⟨by decide, by decide, by decide⟩


/-! ## C5: no subtree interleaving -/

/-- Two members of one parent chain are chain-comparable: one lies on the
other's chain. -/
theorem chain_mem_comparable {t : Taxonomy} (hv : ValidStructure t) {s z₁ z₂ : NodeId}
    (h₁ : z₁ ∈ chainOf (buildTaxonomyIndex t) s)
    (h₂ : z₂ ∈ chainOf (buildTaxonomyIndex t) s) :
    z₁ ∈ chainOf (buildTaxonomyIndex t) z₂ ∨ z₂ ∈ chainOf (buildTaxonomyIndex t) z₁ := by
  obtain ⟨pre₁, hpre₁⟩ := chainOf_suffix_of_mem hv h₁
  obtain ⟨pre₂, hpre₂⟩ := chainOf_suffix_of_mem hv h₂
  rcases Nat.le_total pre₁.length pre₂.length with hle | hle
  · right
    have heq : chainOf (buildTaxonomyIndex t) z₁ =
        pre₂.drop pre₁.length ++ chainOf (buildTaxonomyIndex t) z₂ := by
      have h := hpre₁.symm.trans hpre₂
      have h' := congrArg (List.drop pre₁.length) h
      rw [List.drop_left, List.drop_append_of_le_length hle] at h'
      exact h'
    rw [heq]
    exact List.mem_append.2 (Or.inr (self_mem_chainOf _ z₂))
  · left
    have heq : chainOf (buildTaxonomyIndex t) z₂ =
        pre₁.drop pre₂.length ++ chainOf (buildTaxonomyIndex t) z₁ := by
      have h := hpre₂.symm.trans hpre₁
      have h' := congrArg (List.drop pre₂.length) h
      rw [List.drop_left, List.drop_append_of_le_length hle] at h'
      exact h'
    rw [heq]
    exact List.mem_append.2 (Or.inr (self_mem_chainOf _ z₁))

/-- When the cached sort paths strictly order `x` before `y`, the stable sort
places `x` at a strictly earlier position than `y`. -/
theorem before_in_sortStable (index : TaxonomyIndex) {ids : List NodeId} {x y : NodeId}
    {px py : List Nat} (hx : x ∈ ids) (hy : y ∈ ids) (hne : x ≠ y)
    (hpx : index.sortPathCache x = some px) (hpy : index.sortPathCache y = some py)
    (hlt : compareSortPaths px py < 0) :
    ∃ k₁ k₂ : Nat, k₁ < k₂ ∧ (sortStable (pathLe index) ids)[k₁]? = some x ∧
      (sortStable (pathLe index) ids)[k₂]? = some y := by
  refine before_of_pairwise
    (pairwise_sortStable (pathLe index) (pathLe_trans index) (pathLe_total index) ids)
    (mem_sortStable.2 hx) (mem_sortStable.2 hy) hne ?_
  intro hyx
  unfold pathLe at hyx
  rw [hpx, hpy] at hyx
  simp only [Option.getD_some, decide_eq_true_eq] at hyx
  have hneg := compareSortPaths_neg py px
  omega

/-- C5: for a valid taxonomy, whenever `sortByUserOrder` returns a result,
sibling subtrees never interleave: given siblings `A` and `B` (same parent)
with `A`'s sibling ordinal strictly below `B`'s, every input id whose parent
chain passes through `A` comes out strictly before every input id whose
chain passes through `B`; and an ancestor, whose sort path is a strict
prefix of its descendants' paths, comes out strictly before each of its
descendants in the input. -/
theorem C5_no_subtree_interleaving (t : Taxonomy) (hv : ValidStructure t)
    {ids out : List NodeId}
    (hsort : sortByUserOrder (buildTaxonomyIndex t) ids = some out) :
    (∀ A B : NodeId, ∀ na nb : TagNode, ∀ ka kb : Nat,
      (buildTaxonomyIndex t).byId A = some na →
      (buildTaxonomyIndex t).byId B = some nb →
      na.parentId = nb.parentId → ka < kb →
      (buildTaxonomyIndex t).siblingOrdinal A = some ka →
      (buildTaxonomyIndex t).siblingOrdinal B = some kb →
      ∀ x ∈ ids, ∀ y ∈ ids, A ∈ chainOf (buildTaxonomyIndex t) x →
        B ∈ chainOf (buildTaxonomyIndex t) y →
        ∃ k₁ k₂ : Nat, k₁ < k₂ ∧ out[k₁]? = some x ∧ out[k₂]? = some y) ∧
    (∀ x ∈ ids, ∀ y ∈ ids, x ≠ y → x ∈ chainOf (buildTaxonomyIndex t) y →
      ∃ k₁ k₂ : Nat, k₁ < k₂ ∧ out[k₁]? = some x ∧ out[k₂]? = some y) := by
  constructor
  · intro A B na nb ka kb hA hB hpar hord hka hkb x hx y hy hAx hBy
    obtain ⟨pfx, hcA, hcB⟩ := sibling_paths hv hA hB hpar hka hkb
    have hne : x ≠ y := by
      rintro rfl
      rcases chain_mem_comparable hv hAx hBy with hAB | hBA
      · have hpre := sortPathCache_prefix hv hcB hAB hcA
        have hlen : (pfx ++ [ka]).length = (pfx ++ [kb]).length := by
          simp [List.length_append]
        obtain ⟨-, hk⟩ := append_singleton_inj (hpre.eq_of_length hlen)
        omega
      · have hpre := sortPathCache_prefix hv hcA hBA hcB
        have hlen : (pfx ++ [kb]).length = (pfx ++ [ka]).length := by
          simp [List.length_append]
        obtain ⟨-, hk⟩ := append_singleton_inj (hpre.eq_of_length hlen)
        omega
    rcases sortByUserOrder_some_cases _ hsort with ⟨hlen, -⟩ | ⟨-, hall, rfl⟩
    · exact absurd (two_le_length_of_mem_ne hx hy hne) (by omega)
    · obtain ⟨px, hpx⟩ := Option.isSome_iff_exists.1 (hall x hx)
      obtain ⟨py, hpy⟩ := Option.isSome_iff_exists.1 (hall y hy)
      obtain ⟨rx, hrx⟩ := sortPathCache_prefix hv hpx hAx hcA
      obtain ⟨ry, hry⟩ := sortPathCache_prefix hv hpy hBy hcB
      have hpx' : px = pfx ++ ka :: rx := by
        rw [← hrx, List.append_assoc, List.singleton_append]
      have hpy' : py = pfx ++ kb :: ry := by
        rw [← hry, List.append_assoc, List.singleton_append]
      refine before_in_sortStable _ hx hy hne hpx hpy ?_
      rw [hpx', hpy']
      exact compareSortPaths_append_head_lt pfx rx ry hord
  · intro x hx y hy hne hxy
    rcases sortByUserOrder_some_cases _ hsort with ⟨hlen, -⟩ | ⟨-, hall, rfl⟩
    · exact absurd (two_le_length_of_mem_ne hx hy hne) (by omega)
    · obtain ⟨px, hpx⟩ := Option.isSome_iff_exists.1 (hall x hx)
      obtain ⟨py, hpy⟩ := Option.isSome_iff_exists.1 (hall y hy)
      obtain ⟨s, hs⟩ := sortPathCache_prefix hv hpy hxy hpx
      have hpxne : px ≠ py := by
        intro h
        apply hne
        refine sortPathCache_inj hv hpx ?_
        rw [hpy, h]
      cases s with
      | nil =>
        rw [List.append_nil] at hs
        exact absurd hs hpxne
      | cons h0 tl =>
        refine before_in_sortStable _ hx hy hne hpx hpy ?_
        rw [← hs]
        exact compareSortPaths_proper_prefix px h0 tl

/-- C5 witness: in the clothing taxonomy, `上半身` (ordinal 0) and `下半身`
(ordinal 1) are siblings under `衣服`; sorting `[短裙, 水手服]` puts the
descendant `水手服` of the earlier sibling strictly before the descendant
`短裙` of the later one. -/
theorem C5_witness :
    ∃ k₁ k₂ : Nat, k₁ < k₂ ∧
      ([uts "sailor", uts "short-skirt"] : List NodeId)[k₁]? = some (uts "sailor") ∧
      ([uts "sailor", uts "short-skirt"] : List NodeId)[k₂]? = some (uts "short-skirt") :=
  (C5_no_subtree_interleaving clothingTaxonomy (by decide)
      (show sortByUserOrder (buildTaxonomyIndex clothingTaxonomy)
          [uts "short-skirt", uts "sailor"] = some [uts "sailor", uts "short-skirt"]
        from by decide)).1
    (uts "upper") (uts "lower")
    { id := uts "upper", label := uts "上半身", parentId := some (uts "clothing"), kind := .folder, order := 0 }
    { id := uts "lower", label := uts "下半身", parentId := some (uts "clothing"), kind := .folder, order := 1 }
    0 1 (by decide) (by decide) (by decide) (by decide) (by decide) (by decide)
    (uts "sailor") (by decide) (uts "short-skirt") (by decide) (by decide) (by decide)

/-! ## C1: determinism of the export pipeline -/

/-- C1: the export pipeline is deterministic: over one index, two selection
lists holding exactly the same ids (in any iteration order) give the same
`computeExportSet → sortByUserOrder` result and hence the same
`formatForMylio` output string. -/
theorem C1_pipeline_deterministic (t : Taxonomy) (hv : ValidStructure t)
    (S₁ S₂ : List NodeId) (hmem : ∀ x, x ∈ S₁ ↔ x ∈ S₂)
    (opts : ExportSetOptions) (sep : List Nat) :
    sortByUserOrder (buildTaxonomyIndex t) (computeExportSet (buildTaxonomyIndex t) S₁ opts) =
      sortByUserOrder (buildTaxonomyIndex t) (computeExportSet (buildTaxonomyIndex t) S₂ opts) ∧
    (sortByUserOrder (buildTaxonomyIndex t)
        (computeExportSet (buildTaxonomyIndex t) S₁ opts)).map
      (fun ids => formatForMylio (buildTaxonomyIndex t) ids sep) =
    (sortByUserOrder (buildTaxonomyIndex t)
        (computeExportSet (buildTaxonomyIndex t) S₂ opts)).map
      (fun ids => formatForMylio (buildTaxonomyIndex t) ids sep) := by
  have hE : ∀ y, y ∈ computeExportSet (buildTaxonomyIndex t) S₁ opts ↔
      y ∈ computeExportSet (buildTaxonomyIndex t) S₂ opts := by
    intro y
    rw [mem_computeExportSet_iff, mem_computeExportSet_iff]
    by_cases hia : opts.includeAncestors = true
    · rw [if_pos hia, if_pos hia, computeClosure_mem hv, computeClosure_mem hv]
      constructor
      · rintro ⟨⟨s, hs, hc⟩, hn⟩
        exact ⟨⟨s, (hmem s).1 hs, hc⟩, hn⟩
      · rintro ⟨⟨s, hs, hc⟩, hn⟩
        exact ⟨⟨s, (hmem s).2 hs, hc⟩, hn⟩
    · rw [if_neg hia, if_neg hia]
      constructor
      · rintro ⟨hs, hn⟩
        exact ⟨(hmem y).1 hs, hn⟩
      · rintro ⟨hs, hn⟩
        exact ⟨(hmem y).2 hs, hn⟩
  have hall₁ : ∀ i ∈ computeExportSet (buildTaxonomyIndex t) S₁ opts,
      ((buildTaxonomyIndex t).sortPathCache i).isSome = true := by
    intro i hi
    obtain ⟨-, n, hbn, -⟩ := (mem_computeExportSet_iff _ _ _ _).1 hi
    exact sortPathCache_isSome_of_byId hv hbn
  have hall₂ : ∀ i ∈ computeExportSet (buildTaxonomyIndex t) S₂ opts,
      ((buildTaxonomyIndex t).sortPathCache i).isSome = true := by
    intro i hi
    obtain ⟨-, n, hbn, -⟩ := (mem_computeExportSet_iff _ _ _ _).1 hi
    exact sortPathCache_isSome_of_byId hv hbn
  have hperm : (computeExportSet (buildTaxonomyIndex t) S₁ opts).Perm
      (computeExportSet (buildTaxonomyIndex t) S₂ opts) :=
    List.Subperm.antisymm
      ((computeExportSet_nodup _ _ _).subperm (fun y hy => (hE y).1 hy))
      ((computeExportSet_nodup _ _ _).subperm (fun y hy => (hE y).2 hy))
  have hlen := hperm.length_eq
  have hmain : sortByUserOrder (buildTaxonomyIndex t)
      (computeExportSet (buildTaxonomyIndex t) S₁ opts) =
    sortByUserOrder (buildTaxonomyIndex t)
      (computeExportSet (buildTaxonomyIndex t) S₂ opts) := by
    by_cases hsmall : (computeExportSet (buildTaxonomyIndex t) S₁ opts).length < 2
    · have hEeq : computeExportSet (buildTaxonomyIndex t) S₁ opts =
          computeExportSet (buildTaxonomyIndex t) S₂ opts := by
        cases hc : computeExportSet (buildTaxonomyIndex t) S₁ opts with
        | nil =>
          rw [hc] at hperm
          exact (List.perm_nil.1 hperm.symm).symm
        | cons a l =>
          cases l with
          | nil =>
            rw [hc] at hperm
            exact (List.perm_singleton.1 hperm.symm).symm
          | cons b l' =>
            rw [hc] at hsmall
            simp only [List.length_cons] at hsmall
            omega
      rw [hEeq]
    · rw [Nat.not_lt] at hsmall
      have h₂ : 2 ≤ (computeExportSet (buildTaxonomyIndex t) S₂ opts).length := by omega
      rw [sortByUserOrder_eq_sortStable _ hsmall hall₁,
        sortByUserOrder_eq_sortStable _ h₂ hall₂]
      have hsorteq : sortStable (pathLe (buildTaxonomyIndex t))
          (computeExportSet (buildTaxonomyIndex t) S₁ opts) =
        sortStable (pathLe (buildTaxonomyIndex t))
          (computeExportSet (buildTaxonomyIndex t) S₂ opts) := by
        refine eq_of_perm_of_pairwise
          (((sortStable_perm _ _).trans hperm).trans (sortStable_perm _ _).symm)
          (pairwise_sortStable _ (pathLe_trans _) (pathLe_total _) _)
          (pairwise_sortStable _ (pathLe_trans _) (pathLe_total _) _) ?_
        intro a ha b hb hab hba
        have ha' : a ∈ computeExportSet (buildTaxonomyIndex t) S₁ opts :=
          mem_sortStable.1 ha
        have hb' : b ∈ computeExportSet (buildTaxonomyIndex t) S₁ opts :=
          mem_sortStable.1 hb
        obtain ⟨pa, hpa⟩ := Option.isSome_iff_exists.1 (hall₁ a ha')
        obtain ⟨pb, hpb⟩ := Option.isSome_iff_exists.1 (hall₁ b hb')
        unfold pathLe at hab hba
        rw [hpa, hpb] at hab
        rw [hpa, hpb] at hba
        simp only [Option.getD_some, decide_eq_true_eq] at hab hba
        have hneg := compareSortPaths_neg pa pb
        have hz : compareSortPaths pa pb = 0 := by omega
        have hpe := compareSortPaths_eq_zero hz
        rw [← hpe] at hpb
        exact sortPathCache_inj hv hpa hpb
      rw [hsorteq]
  exact ⟨hmain, by rw [hmain]⟩

/-- C1 witness: the worked example's selection and its reversal give
identical sorted lists and identical formatted outputs. -/
theorem C1_witness :
    sortByUserOrder (buildTaxonomyIndex clothingTaxonomy)
        (computeExportSet (buildTaxonomyIndex clothingTaxonomy) clothingSelection) =
      sortByUserOrder (buildTaxonomyIndex clothingTaxonomy)
        (computeExportSet (buildTaxonomyIndex clothingTaxonomy)
          clothingSelection.reverse) ∧
    (sortByUserOrder (buildTaxonomyIndex clothingTaxonomy)
        (computeExportSet (buildTaxonomyIndex clothingTaxonomy) clothingSelection)).map
      (fun ids => formatForMylio (buildTaxonomyIndex clothingTaxonomy) ids
        DEFAULT_SEPARATOR) =
    (sortByUserOrder (buildTaxonomyIndex clothingTaxonomy)
        (computeExportSet (buildTaxonomyIndex clothingTaxonomy)
          clothingSelection.reverse)).map
      (fun ids => formatForMylio (buildTaxonomyIndex clothingTaxonomy) ids
        DEFAULT_SEPARATOR) :=
  C1_pipeline_deterministic clothingTaxonomy (by decide) clothingSelection
    clothingSelection.reverse (fun x => List.mem_reverse.symm) {} DEFAULT_SEPARATOR

/-! ## Field-access lemmas for the serialization layer -/

theorem lookup_setFields_ne {k k' : String} (h : k' ≠ k) (v : Json) :
    ∀ fields : List (String × Json), (setFields fields k v).lookup k' = fields.lookup k'
  | [] => by
    have hb : (k' == k) = false := by simpa using h
    simp [setFields, List.lookup, hb]
  | (k₀, w) :: rest => by
    by_cases h₀ : (k₀ == k) = true
    · have hk : k₀ = k := by simpa using h₀
      subst hk
      have hb : (k' == k₀) = false := by simpa using h
      simp [setFields, List.lookup, hb]
    · simp only [setFields, if_neg h₀, List.lookup]
      cases hkk : k' == k₀
      · simpa using lookup_setFields_ne h v rest
      · rfl

theorem getField_setField_ne {j : Json} {k k' : String} (h : k' ≠ k) (v : Json) :
    getField (setField j k v) k' = getField j k' := by
  cases j <;> simp only [setField, getField]
  exact lookup_setFields_ne h v _

theorem lookup_setFields_same (k : String) (v : Json) :
    ∀ fields : List (String × Json), (setFields fields k v).lookup k = some v
  | [] => by simp [setFields, List.lookup]
  | (k₀, w) :: rest => by
    by_cases h₀ : (k₀ == k) = true
    · have hk : k₀ = k := by simpa using h₀
      subst hk
      simp [setFields, List.lookup]
    · have hb : (k == k₀) = false := by
        simp only [beq_eq_false_iff_ne]
        intro he
        exact h₀ (by simp [he])
      simp only [setFields, if_neg h₀, List.lookup, hb]
      exact lookup_setFields_same k v rest

theorem getField_setField_same {fields : List (String × Json)} (k : String) (v : Json) :
    getField (setField (Json.obj fields) k v) k = some v := by
  simp only [setField, getField]
  exact lookup_setFields_same k v fields

theorem setFields_setFields_same (k : String) (v : Json) :
    ∀ fields : List (String × Json),
      setFields (setFields fields k v) k v = setFields fields k v
  | [] => by simp [setFields]
  | (k₀, w) :: rest => by
    by_cases h₀ : (k₀ == k) = true
    · simp only [setFields, if_pos h₀]
    · simp only [setFields, if_neg h₀]
      rw [setFields_setFields_same k v rest]

theorem setField_setField_same (j : Json) (k : String) (v : Json) :
    setField (setField j k v) k v = setField j k v := by
  cases j <;> simp only [setField]
  rw [setFields_setFields_same]

theorem isObjLike_setField (j : Json) (k : String) (v : Json) :
    isObjLike (setField j k v) = isObjLike j := by
  cases j <;> rfl

theorem jsFalsyField_congr {d₁ d₂ : Json} (k : String)
    (h : getField d₁ k = getField d₂ k) : jsFalsyField d₁ k = jsFalsyField d₂ k := by
  unfold jsFalsyField
  rw [h]

theorem schemaVersionErrors_congr {d₁ d₂ : Json}
    (h : getField d₁ "schemaVersion" = getField d₂ "schemaVersion") :
    schemaVersionErrors d₁ = schemaVersionErrors d₂ := by
  unfold schemaVersionErrors
  rw [h]

/-! ## The scan simulation: order backfill is invisible to validation -/

theorem scanSim_refl (a : Json) : ScanSim a a :=
  ⟨rfl, rfl, rfl, rfl, rfl, Or.inl rfl⟩

theorem scanSim_setField_order (a : Json) (z : Int) :
    ScanSim a (setField a "order" (Json.num z)) := by
  cases a with
  | obj fields =>
    refine ⟨rfl, ?_, ?_, ?_, ?_, Or.inr ⟨z, getField_setField_same _ _⟩⟩ <;>
      exact getField_setField_ne (by decide) _
  | null => exact scanSim_refl _
  | bool b => exact scanSim_refl _
  | num n => exact scanSim_refl _
  | inf b => exact scanSim_refl _
  | str s => exact scanSim_refl _
  | arr l => exact scanSim_refl _

theorem forall₂_scanSim_patch (f : Nat × Json → Json)
    (hf : ∀ p, f p = p.2 ∨ ∃ z : Int, f p = setField p.2 "order" (Json.num z)) :
    ∀ (k : Nat) (ns : List Json),
      List.Forall₂ ScanSim ns ((List.enumFrom k ns).map f)
  | _, [] => List.Forall₂.nil
  | k, n :: ns => by
    rw [show List.enumFrom k (n :: ns) = (k, n) :: List.enumFrom (k + 1) ns from rfl,
      List.map_cons]
    refine List.Forall₂.cons ?_ (forall₂_scanSim_patch f hf (k + 1) ns)
    rcases hf (k, n) with h | ⟨z, h⟩
    · rw [h]
      exact scanSim_refl n
    · rw [h]
      exact scanSim_setField_order n z

/-! ## What error-free per-node checks certify -/

theorem nodeIdOk_some_obj {n : Json} {id : String} (h : nodeIdOk n = some id) :
    ∃ fields, n = Json.obj fields := by
  unfold nodeIdOk at h
  cases n with
  | obj fields => exact ⟨fields, rfl⟩
  | arr l => simp [isObjLike, getField] at h
  | null => simp [isObjLike] at h
  | bool b => simp [isObjLike] at h
  | num z => simp [isObjLike] at h
  | inf b => simp [isObjLike] at h
  | str s => simp [isObjLike] at h

theorem labelTypeErrors_nil {i : Nat} {n : Json} (h : labelTypeErrors i n = []) :
    ∃ l, getField n "label" = some (Json.str l) := by
  unfold labelTypeErrors at h
  cases hx : getField n "label" with
  | none => rw [hx] at h; simp at h
  | some v =>
    rw [hx] at h
    cases v with
    | str l => exact ⟨l, rfl⟩
    | null => simp at h
    | bool b => simp at h
    | num z => simp at h
    | inf b => simp at h
    | arr a => simp at h
    | obj o => simp at h

theorem orderErrors_nil {i : Nat} {n : Json} (h : orderErrors i n = []) :
    getField n "order" = none ∨ ∃ z : Int, getField n "order" = some (Json.num z) := by
  unfold orderErrors at h
  cases hx : getField n "order" with
  | none => exact Or.inl rfl
  | some v =>
    rw [hx] at h
    cases v with
    | num z => exact Or.inr ⟨z, rfl⟩
    | null => simp at h
    | bool b => simp at h
    | inf b => simp at h
    | str s => simp at h
    | arr a => simp at h
    | obj o => simp at h

theorem nodeErrors_nil_ok {i : Nat} {ids : List String} {n : Json}
    (h : nodeErrors i ids n = []) : ∃ id, nodeIdOk n = some id := by
  unfold nodeErrors at h
  cases hok : nodeIdOk n with
  | some id => exact ⟨id, rfl⟩
  | none =>
    rw [hok] at h
    exfalso
    unfold nodeIdOk at hok
    unfold objIdErrors at h
    cases hobj : isObjLike n with
    | false =>
      rw [hobj] at h
      simp at h
    | true =>
      rw [hobj] at h hok
      simp only [Bool.not_true, Bool.false_eq_true, if_false] at h hok
      cases hx : getField n "id" with
      | none =>
        rw [hx] at h
        simp at h
      | some v =>
        simp only [hx] at h hok
        cases v with
        | str id =>
          cases hemp : id == "" with
          | true =>
            simp only [hemp] at h
            simp at h
          | false =>
            simp only [hemp] at hok
            simp at hok
        | null => simp at h
        | bool b => simp at h
        | num z => simp at h
        | inf b => simp at h
        | arr a => simp at h
        | obj o => simp at h

theorem nodeErrors_nil_clean {i : Nat} {ids : List String} {n : Json}
    (h : nodeErrors i ids n = []) : NodeClean n := by
  obtain ⟨id, hok⟩ := nodeErrors_nil_ok h
  unfold nodeErrors at h
  rw [hok] at h
  simp only [List.append_eq_nil] at h
  exact ⟨nodeIdOk_some_obj hok, orderErrors_nil h.1.2⟩

/-! ## Per-check congruences -/

theorem labelTypeErrors_congr {n m : Json}
    (h : getField m "label" = getField n "label") (i : Nat) :
    labelTypeErrors i m = labelTypeErrors i n := by
  unfold labelTypeErrors
  rw [h]

theorem parentTypeErrors_congr {n m : Json}
    (h : getField m "parentId" = getField n "parentId") (i : Nat) :
    parentTypeErrors i m = parentTypeErrors i n := by
  unfold parentTypeErrors
  rw [h]

theorem kindErrors_congr {n m : Json}
    (h : getField m "kind" = getField n "kind") (i : Nat) :
    kindErrors i m = kindErrors i n := by
  unfold kindErrors
  rw [h]

theorem commaErrors_congr {n m : Json}
    (h : getField m "label" = getField n "label") (i : Nat) :
    commaErrors i m = commaErrors i n := by
  unfold commaErrors
  rw [h]

theorem orderErrors_nil_sim {n m : Json}
    (hsim : getField m "order" = getField n "order" ∨
      ∃ z : Int, getField m "order" = some (Json.num z))
    (i : Nat) (h : orderErrors i n = []) : orderErrors i m = [] := by
  rcases hsim with heq | ⟨z, hz⟩
  · unfold orderErrors at h ⊢
    rw [heq]
    exact h
  · unfold orderErrors
    rw [hz]

theorem nodeIdOk_sim {n m : Json} (hsim : ScanSim n m) : nodeIdOk m = nodeIdOk n := by
  obtain ⟨sobj, sid, -, -, -, -⟩ := hsim
  unfold nodeIdOk
  rw [sobj, sid]

theorem nodeErrors_sim_nil {n m : Json} (hsim : ScanSim n m) {i : Nat}
    {ids : List String} (h : nodeErrors i ids n = []) : nodeErrors i ids m = [] := by
  obtain ⟨id, hok⟩ := nodeErrors_nil_ok h
  have hok' : nodeIdOk m = some id := by rw [nodeIdOk_sim hsim, hok]
  unfold nodeErrors at h ⊢
  rw [hok] at h
  rw [hok']
  simp only [List.append_eq_nil] at h ⊢
  obtain ⟨⟨⟨⟨⟨h1, h2⟩, h3⟩, h4⟩, h5⟩, h6⟩ := h
  obtain ⟨-, -, slabel, sparent, skind, sorder⟩ := hsim
  refine ⟨⟨⟨⟨⟨?_, h2⟩, ?_⟩, ?_⟩, ?_⟩, ?_⟩
  · rw [labelTypeErrors_congr slabel]
    exact h1
  · rw [parentTypeErrors_congr sparent]
    exact h3
  · rw [kindErrors_congr skind]
    exact h4
  · exact orderErrors_nil_sim sorder i h5
  · rw [commaErrors_congr slabel]
    exact h6

/-! ## The per-node loop: errors only grow, simulation, cleanliness -/

theorem scanNode_errors (i : Nat) (n : Json) (st : ScanState) :
    (scanNode i n st).errors = st.errors ++ nodeErrors i st.nodeIds n := by
  unfold scanNode nodeErrors
  cases nodeIdOk n <;> rfl

theorem scanNode_nodeIds (i : Nat) (n : Json) (st : ScanState) :
    (scanNode i n st).nodeIds = match nodeIdOk n with
      | some id => if st.nodeIds.contains id then st.nodeIds else st.nodeIds ++ [id]
      | none => st.nodeIds := by
  unfold scanNode
  cases nodeIdOk n <;> rfl

theorem scanNode_nodeMap (i : Nat) (n : Json) (st : ScanState) :
    (scanNode i n st).nodeMap = match nodeIdOk n with
      | some id => mapSet st.nodeMap id n
      | none => st.nodeMap := by
  unfold scanNode
  cases nodeIdOk n <;> rfl

theorem scanFold_nil (k : Nat) (st : ScanState) : scanFold k [] st = st := rfl

theorem scanFold_cons (k : Nat) (n : Json) (ns : List Json) (st : ScanState) :
    scanFold k (n :: ns) st = scanFold (k + 1) ns (scanNode k n st) := rfl

theorem scanFold_errors_append :
    ∀ (ns : List Json) (k : Nat) (st : ScanState),
      ∃ e, (scanFold k ns st).errors = st.errors ++ e
  | [], k, st => ⟨[], by simp [scanFold_nil]⟩
  | n :: ns, k, st => by
    rw [scanFold_cons]
    obtain ⟨e, he⟩ := scanFold_errors_append ns (k + 1) (scanNode k n st)
    exact ⟨nodeErrors k st.nodeIds n ++ e,
      by rw [he, scanNode_errors, List.append_assoc]⟩

/-- An error-free loop run certifies every node. -/
theorem scanFold_clean :
    ∀ {ns : List Json} {k : Nat} {st : ScanState},
      (scanFold k ns st).errors = st.errors → ∀ n ∈ ns, NodeClean n := by
  intro ns
  induction ns with
  | nil => intro k st h n hn; cases hn
  | cons n ns ih =>
    intro k st h m hm
    rw [scanFold_cons] at h
    obtain ⟨e, he⟩ := scanFold_errors_append ns (k + 1) (scanNode k n st)
    rw [he, scanNode_errors, List.append_assoc] at h
    have hnil : nodeErrors k st.nodeIds n ++ e = [] := List.append_right_eq_self.1 h
    rw [List.append_eq_nil] at hnil
    rcases List.mem_cons.1 hm with rfl | hm
    · exact nodeErrors_nil_clean hnil.1
    · have hstep : (scanFold (k + 1) ns (scanNode k n st)).errors =
          (scanNode k n st).errors := by
        rw [he, scanNode_errors, hnil.2, List.append_nil]
      exact ih hstep m hm

theorem forall₂_mapSet {mp mp' : List (String × Json)}
    (hf : List.Forall₂ EntrySim mp mp') {k : String} {a b : Json}
    (hab : EntrySim (k, a) (k, b)) :
    List.Forall₂ EntrySim (mapSet mp k a) (mapSet mp' k b) := by
  induction hf with
  | nil => exact List.Forall₂.cons hab List.Forall₂.nil
  | cons hpq hrest ih =>
    rename_i p q l₁ l₂
    obtain ⟨pk, pv⟩ := p
    obtain ⟨qk, qv⟩ := q
    have hkey : pk = qk := hpq.1
    subst hkey
    unfold mapSet
    by_cases hk : (pk == k) = true
    · rw [if_pos hk, if_pos hk]
      exact List.Forall₂.cons ⟨rfl, hab.2.1, hab.2.2.1, hab.2.2.2⟩ hrest
    · rw [if_neg hk, if_neg hk]
      exact List.Forall₂.cons hpq ih

/-- The scan simulation: an error-free loop run over `ns` stays error-free
over pointwise `ScanSim`-related nodes, and the two node maps correspond
entry by entry. -/
theorem scanFold_sim {ns ms : List Json} (hsim : List.Forall₂ ScanSim ns ms) :
    ∀ (k : Nat) {st st' : ScanState}, st.nodeIds = st'.nodeIds →
      List.Forall₂ EntrySim st.nodeMap st'.nodeMap →
      (scanFold k ns st).errors = st.errors →
      (scanFold k ms st').errors = st'.errors ∧
      List.Forall₂ EntrySim (scanFold k ns st).nodeMap (scanFold k ms st').nodeMap := by
  induction hsim with
  | nil =>
    intro k st st' hids hmp h
    exact ⟨rfl, hmp⟩
  | cons hnm hrest ih =>
    rename_i n m ns' ms'
    intro k st st' hids hmp h
    rw [scanFold_cons] at h ⊢
    rw [scanFold_cons]
    obtain ⟨e, he⟩ := scanFold_errors_append ns' (k + 1) (scanNode k n st)
    rw [he, scanNode_errors, List.append_assoc] at h
    have hnil : nodeErrors k st.nodeIds n ++ e = [] := List.append_right_eq_self.1 h
    rw [List.append_eq_nil] at hnil
    have hrest2 : (scanFold (k + 1) ns' (scanNode k n st)).errors =
        (scanNode k n st).errors := by
      rw [he, scanNode_errors, hnil.2, List.append_nil]
    obtain ⟨id, hok⟩ := nodeErrors_nil_ok hnil.1
    have hok' : nodeIdOk m = some id := by rw [nodeIdOk_sim hnm, hok]
    have hne' : nodeErrors k st'.nodeIds m = [] := by
      rw [← hids]
      exact nodeErrors_sim_nil hnm hnil.1
    have hids₁ : (scanNode k n st).nodeIds = (scanNode k m st').nodeIds := by
      rw [scanNode_nodeIds, scanNode_nodeIds, hok, hok', ← hids]
    have hmp₁ : List.Forall₂ EntrySim (scanNode k n st).nodeMap
        (scanNode k m st').nodeMap := by
      rw [scanNode_nodeMap, scanNode_nodeMap, hok, hok']
      exact forall₂_mapSet hmp
        ⟨rfl, hnm.2.2.1, hnm.2.2.2.1, hnm.2.2.2.2.1⟩
    obtain ⟨h₁, h₂⟩ := ih (k + 1) hids₁ hmp₁ hrest2
    refine ⟨?_, h₂⟩
    rw [h₁, scanNode_errors, hne', List.append_nil]

/-! ## Post-scan phases as flat maps, and their map-correspondence -/

theorem foldl_append_eq_flatMap {α β : Type} (g : α → List β) :
    ∀ (it : List α) (acc : List β),
      it.foldl (fun errs p => errs ++ g p) acc = acc ++ it.flatMap g
  | [], acc => by simp
  | a :: it, acc => by
    rw [List.foldl_cons, foldl_append_eq_flatMap g it (acc ++ g a)]
    simp [List.append_assoc]

theorem orphanErrors_eq_flatMap (mp : List (String × Json)) :
    orphanErrors mp = mp.flatMap (orphanEntryErrors mp) := by
  unfold orphanErrors
  rw [foldl_append_eq_flatMap]
  simp

theorem circularErrors_eq_flatMap (mp : List (String × Json)) :
    circularErrors mp =
      mp.flatMap (fun p => circularWalk mp p.1 (mp.length + 2) [] (some p.1)) := by
  unfold circularErrors
  rw [foldl_append_eq_flatMap]
  simp

theorem leafErrors_eq_flatMap (mp : List (String × Json)) :
    leafErrors mp = mp.flatMap (leafEntryErrors mp) := by
  unfold leafErrors
  rw [foldl_append_eq_flatMap]
  simp

theorem flatMap_congr_forall₂ {α : Type} {R : α → α → Prop} {g g' : α → List ValidationError} :
    ∀ {it it' : List α}, List.Forall₂ R it it' → (∀ p q, R p q → g' q = g p) →
      it'.flatMap g' = it.flatMap g := by
  intro it it' hf hgg
  induction hf with
  | nil => rfl
  | cons hpq hrest ih =>
    rename_i p q l₁ l₂
    simp only [List.flatMap_cons]
    rw [hgg p q hpq, ih]

theorem lookup_entrySim {mp mp' : List (String × Json)}
    (hf : List.Forall₂ EntrySim mp mp') (x : String) :
    (mp.lookup x = none ∧ mp'.lookup x = none) ∨
    ∃ v w, mp.lookup x = some v ∧ mp'.lookup x = some w ∧
      getField w "label" = getField v "label" ∧
      getField w "parentId" = getField v "parentId" ∧
      getField w "kind" = getField v "kind" := by
  induction hf with
  | nil => exact Or.inl ⟨rfl, rfl⟩
  | cons hpq hrest ih =>
    rename_i p q l₁ l₂
    obtain ⟨pk, pv⟩ := p
    obtain ⟨qk, qv⟩ := q
    have hkey : pk = qk := hpq.1
    subst hkey
    simp only [List.lookup]
    cases hx : x == pk
    · exact ih
    · exact Or.inr ⟨pv, qv, rfl, rfl, hpq.2.1, hpq.2.2.1, hpq.2.2.2⟩

theorem lookup_isSome_entrySim {mp mp' : List (String × Json)}
    (hf : List.Forall₂ EntrySim mp mp') (x : String) :
    (mp'.lookup x).isSome = (mp.lookup x).isSome := by
  rcases lookup_entrySim hf x with ⟨h1, h2⟩ | ⟨v, w, h1, h2, -, -, -⟩
  · rw [h1, h2]
  · rw [h1, h2]
    rfl

theorem parentIdOf_entrySim {mp mp' : List (String × Json)}
    (hf : List.Forall₂ EntrySim mp mp') (x : String) :
    parentIdOf mp' x = parentIdOf mp x := by
  unfold parentIdOf
  rcases lookup_entrySim hf x with ⟨h1, h2⟩ | ⟨v, w, h1, h2, -, hp, -⟩
  · rw [h1, h2]
  · rw [h1, h2]
    simp only [hp]

theorem orphanErrors_entrySim {mp mp' : List (String × Json)}
    (hf : List.Forall₂ EntrySim mp mp') : orphanErrors mp' = orphanErrors mp := by
  rw [orphanErrors_eq_flatMap, orphanErrors_eq_flatMap]
  refine flatMap_congr_forall₂ hf ?_
  intro p q hpq
  obtain ⟨hk, -, hp, -⟩ := hpq
  unfold orphanEntryErrors
  rw [hp, ← hk]
  cases hx : getField p.2 "parentId" with
  | none => rfl
  | some v =>
    cases v with
    | str pid =>
      show orphanLookupErrors mp' p.1 pid = orphanLookupErrors mp p.1 pid
      unfold orphanLookupErrors
      rw [lookup_isSome_entrySim hf]
    | null => rfl
    | bool b => rfl
    | num z => rfl
    | inf b => rfl
    | arr a => rfl
    | obj o => rfl

theorem circularWalk_congr {mp mp' : List (String × Json)}
    (hpar : ∀ x, parentIdOf mp' x = parentIdOf mp x) (s : String) :
    ∀ (fuel : Nat) (visited : List String) (cur : Option String),
      circularWalk mp' s fuel visited cur = circularWalk mp s fuel visited cur
  | 0, visited, cur => by cases cur <;> rfl
  | fuel + 1, visited, none => rfl
  | fuel + 1, visited, some cur => by
    show (if visited.contains cur then _ else _) = (if visited.contains cur then _ else _)
    by_cases hv : visited.contains cur = true
    · rw [if_pos hv, if_pos hv]
    · rw [if_neg hv, if_neg hv, hpar cur]
      exact circularWalk_congr hpar s fuel (visited ++ [cur]) (parentIdOf mp cur)

theorem circularErrors_entrySim {mp mp' : List (String × Json)}
    (hf : List.Forall₂ EntrySim mp mp') : circularErrors mp' = circularErrors mp := by
  rw [circularErrors_eq_flatMap, circularErrors_eq_flatMap]
  refine flatMap_congr_forall₂ hf ?_
  intro p q hpq
  rw [← hpq.1, hf.length_eq]
  exact circularWalk_congr (parentIdOf_entrySim hf) p.1 (mp'.length + 2) [] (some p.1)

theorem isTagNode_congr {a b : Json} (h : getField b "kind" = getField a "kind") :
    isTagNode b = isTagNode a := by
  unfold isTagNode
  rw [h]

theorem hasParent_congr {a b : Json} (h : getField b "parentId" = getField a "parentId")
    (pid : String) : hasParent b pid = hasParent a pid := by
  unfold hasParent
  rw [h]

theorem childrenIds_entrySim {mp mp' : List (String × Json)}
    (hf : List.Forall₂ EntrySim mp mp') (pid : String) :
    childrenIds mp' pid = childrenIds mp pid := by
  unfold childrenIds
  induction hf with
  | nil => rfl
  | cons hpq hrest ih =>
    rename_i p q l₁ l₂
    cases hhp : hasParent p.2 pid with
    | false =>
      rw [List.filter_cons, List.filter_cons, hasParent_congr hpq.2.2.1 pid, hhp,
        if_neg (by simp), if_neg (by simp)]
      exact ih
    | true =>
      rw [List.filter_cons, List.filter_cons, hasParent_congr hpq.2.2.1 pid, hhp,
        if_pos rfl, if_pos rfl, List.map_cons, List.map_cons, ← hpq.1, ih]

theorem childLabelOf_entrySim {mp mp' : List (String × Json)}
    (hf : List.Forall₂ EntrySim mp mp') (cid : String) :
    childLabelOf mp' cid = childLabelOf mp cid := by
  unfold childLabelOf
  rcases lookup_entrySim hf cid with ⟨h1, h2⟩ | ⟨v, w, h1, h2, hl, -, -⟩
  · rw [h1, h2]
  · rw [h1, h2]
    simp only [hl]

theorem labelString_congr {a b : Json} (h : getField b "label" = getField a "label") :
    labelString b = labelString a := by
  unfold labelString
  rw [h]

theorem leafErrorOf_entrySim {mp mp' : List (String × Json)}
    (hf : List.Forall₂ EntrySim mp mp') {p q : String × Json} (hpq : EntrySim p q) :
    leafErrorOf mp' q = leafErrorOf mp p := by
  funext cid
  unfold leafErrorOf
  rw [childLabelOf_entrySim hf, labelString_congr hpq.2.1, ← hpq.1]

theorem leafErrors_entrySim {mp mp' : List (String × Json)}
    (hf : List.Forall₂ EntrySim mp mp') : leafErrors mp' = leafErrors mp := by
  rw [leafErrors_eq_flatMap, leafErrors_eq_flatMap]
  refine flatMap_congr_forall₂ hf ?_
  intro p q hpq
  unfold leafEntryErrors
  rw [isTagNode_congr hpq.2.2.2, ← hpq.1, childrenIds_entrySim hf,
    leafErrorOf_entrySim hf hpq]

/-! ## Decomposing a validation run -/

theorem validateTaxonomy_full {data : Json} {nodes : List Json}
    (hobj : isObjLike data = true) (hnf : jsFalsyField data "nodes" = false)
    (hn : getField data "nodes" = some (Json.arr nodes)) (opts : ValidationOptions) :
    validateTaxonomy data opts =
      schemaVersionErrors data ++ (scanNodes nodes).errors ++
      orphanErrors (scanNodes nodes).nodeMap ++ circularErrors (scanNodes nodes).nodeMap ++
      (if opts.enforceTagLeaf.getD true then leafErrors (scanNodes nodes).nodeMap
        else []) := by
  unfold validateTaxonomy
  rw [hobj, hnf]
  simp only [Bool.not_true, Bool.false_eq_true, if_false, hn]

theorem validateTaxonomy_empty_shape {data : Json} {opts : ValidationOptions}
    (h : validateTaxonomy data opts = []) :
    isObjLike data = true ∧ jsFalsyField data "nodes" = false ∧
    ∃ nodes, getField data "nodes" = some (Json.arr nodes) := by
  unfold validateTaxonomy at h
  cases hobj : isObjLike data with
  | false =>
    rw [hobj] at h
    simp at h
  | true =>
    rw [hobj] at h
    simp only [Bool.not_true, Bool.false_eq_true, if_false] at h
    cases hnf : jsFalsyField data "nodes" with
    | true =>
      rw [hnf] at h
      simp at h
    | false =>
      rw [hnf] at h
      simp only [Bool.false_eq_true, if_false] at h
      refine ⟨rfl, rfl, ?_⟩
      cases hgf : getField data "nodes" with
      | none =>
        rw [hgf] at h
        simp at h
      | some v =>
        rw [hgf] at h
        cases v with
        | arr nodes => exact ⟨nodes, rfl⟩
        | null => simp at h
        | bool b => simp at h
        | num z => simp at h
        | inf b => simp at h
        | str s => simp at h
        | obj o => simp at h

theorem schemaVersionErrors_empty_not_falsy {data : Json}
    (h : schemaVersionErrors data = []) :
    jsFalsyField data "schemaVersion" = false := by
  unfold schemaVersionErrors at h
  unfold jsFalsyField
  cases hx : getField data "schemaVersion" with
  | none =>
    rw [hx] at h
    simp at h
  | some v =>
    simp only [hx] at h ⊢
    cases hfv : jsFalsy v with
    | false => rfl
    | true =>
      rw [hfv] at h
      simp at h

theorem obj_of_getField_nodes {data : Json} {v : Json}
    (hobj : isObjLike data = true) (h : getField data "nodes" = some v) :
    ∃ fields, data = Json.obj fields := by
  cases data with
  | obj fields => exact ⟨fields, rfl⟩
  | arr l => simp [getField] at h
  | null => simp [isObjLike] at hobj
  | bool b => simp [isObjLike] at hobj
  | num n => simp [isObjLike] at hobj
  | inf b => simp [isObjLike] at hobj
  | str s => simp [isObjLike] at hobj

/-! ## Idempotence helpers for `initializeOrder` -/

theorem mem_enumFrom_snd {α : Type} {p : Nat × α} :
    ∀ {k : Nat} {l : List α}, p ∈ List.enumFrom k l → p.2 ∈ l := by
  intro k l
  induction l generalizing k with
  | nil => intro h; cases h
  | cons a l ih =>
    intro h
    rw [show List.enumFrom k (a :: l) = (k, a) :: List.enumFrom (k + 1) l from rfl] at h
    rcases List.mem_cons.1 h with rfl | h
    · exact List.mem_cons_self _ _
    · exact List.mem_cons_of_mem _ (ih h)

theorem orderMissing_patched {a : Json} (hcl : NodeClean a) (z : Int) :
    orderMissing (setField a "order" (Json.num z)) = false := by
  obtain ⟨⟨fields, rfl⟩, -⟩ := hcl
  unfold orderMissing
  rw [getField_setField_same]

theorem initPatch_cases (nodes : List Json) (p : Nat × Json) :
    initPatch nodes p = p.2 ∨
      ∃ z : Int, initPatch nodes p = setField p.2 "order" (Json.num z) := by
  unfold initPatch
  cases hm : orderMissing p.2 with
  | false =>
    rw [if_neg (by simp)]
    exact Or.inl rfl
  | true =>
    rw [if_pos rfl]
    exact Or.inr ⟨_, rfl⟩

theorem initPatch_not_missing {p : Nat × Json} (hcl : NodeClean p.2)
    (nodes : List Json) : orderMissing (initPatch nodes p) = false := by
  unfold initPatch
  cases hm : orderMissing p.2 with
  | false =>
    rw [if_neg (by simp)]
    exact hm
  | true =>
    rw [if_pos rfl]
    exact orderMissing_patched hcl _

theorem initializeOrder_eq {data : Json} {nodes : List Json}
    (hn : getField data "nodes" = some (Json.arr nodes)) :
    initializeOrder data =
      setField data "nodes" (Json.arr (nodes.enum.map (initPatch nodes))) := by
  unfold initializeOrder
  simp only [hn]

theorem enum_map_initPatch_id {l : List Json} (hl : ∀ b ∈ l, orderMissing b = false)
    (src : List Json) : l.enum.map (initPatch src) = l := by
  rw [show l.enum = List.enumFrom 0 l from rfl]
  suffices aux : ∀ (k : Nat) (l' : List Json), (∀ b ∈ l', orderMissing b = false) →
      (List.enumFrom k l').map (initPatch src) = l' by
    exact aux 0 l hl
  intro k l'
  induction l' generalizing k with
  | nil => intro h; rfl
  | cons a rest ih =>
    intro h
    rw [show List.enumFrom k (a :: rest) = (k, a) :: List.enumFrom (k + 1) rest from rfl,
      List.map_cons]
    rw [show initPatch src (k, a) = a from by
      unfold initPatch
      rw [if_neg (by simp [h a (List.mem_cons_self _ _)])]]
    rw [ih (k + 1) (fun b hb => h b (List.mem_cons_of_mem _ hb))]
/-! ## Import is idempotent -/

/-- A taxonomy produced by a successful import is accepted unchanged by a
second import: validation stays error-free, the schema-version backfill is
a no-op (a successful validation forces a truthy `schemaVersion`), and
`initializeOrder` is idempotent (after one pass every node has an integer
`order`). -/
theorem importTaxonomy_idem (j t : Json) (h : importTaxonomy j = some t) :
    importTaxonomy t = some t := by
  unfold importTaxonomy at h
  cases hval : (validateTaxonomy j).isEmpty with
  | false =>
    rw [hval] at h
    simp at h
  | true =>
    rw [hval, if_pos rfl] at h
    have hvj : validateTaxonomy j = [] := List.isEmpty_iff.1 hval
    obtain ⟨hobj, hnf, nodes, hn⟩ := validateTaxonomy_empty_shape hvj
    rw [validateTaxonomy_full hobj hnf hn,
      show (({} : ValidationOptions).enforceTagLeaf.getD true) = true from rfl,
      if_pos rfl] at hvj
    simp only [List.append_eq_nil] at hvj
    obtain ⟨⟨⟨⟨hsv, hscan⟩, horphan⟩, hcirc⟩, hleaf⟩ := hvj
    have hens : ensureSchemaVersion j = j := by
      unfold ensureSchemaVersion
      rw [schemaVersionErrors_empty_not_falsy hsv]
      simp
    rw [hens] at h
    have ht : t = initializeOrder j := (Option.some_inj.1 h).symm
    obtain ⟨fields, hjo⟩ := obj_of_getField_nodes hobj hn
    subst hjo
    rw [initializeOrder_eq hn] at ht
    have hsim2 : List.Forall₂ ScanSim nodes (nodes.enum.map (initPatch nodes)) := by
      rw [show nodes.enum = List.enumFrom 0 nodes from rfl]
      exact forall₂_scanSim_patch (initPatch nodes) (initPatch_cases nodes) 0 nodes
    have hscan' : (scanFold 0 nodes { errors := [], nodeIds := [], nodeMap := [] }).errors
        = ({ errors := [], nodeIds := [], nodeMap := [] } : ScanState).errors := hscan
    obtain ⟨herr0, hmapsim0⟩ := scanFold_sim hsim2 0 rfl List.Forall₂.nil hscan'
    have herr' : (scanNodes (nodes.enum.map (initPatch nodes))).errors = [] := herr0
    have hmapsim : List.Forall₂ EntrySim (scanNodes nodes).nodeMap
        (scanNodes (nodes.enum.map (initPatch nodes))).nodeMap := hmapsim0
    have hn_t : getField t "nodes" = some (Json.arr (nodes.enum.map (initPatch nodes))) := by
      rw [ht]
      exact getField_setField_same _ _
    have hsv_t : getField t "schemaVersion" = getField (Json.obj fields) "schemaVersion" := by
      rw [ht]
      exact getField_setField_ne (by decide) _
    have hobj_t : isObjLike t = true := by
      rw [ht, isObjLike_setField]
      exact hobj
    have hnf_t : jsFalsyField t "nodes" = false := by
      unfold jsFalsyField
      simp only [hn_t]
      rfl
    have hval_t : validateTaxonomy t = [] := by
      rw [validateTaxonomy_full hobj_t hnf_t hn_t,
        show (({} : ValidationOptions).enforceTagLeaf.getD true) = true from rfl,
        if_pos rfl]
      rw [schemaVersionErrors_congr hsv_t, hsv, herr',
        orphanErrors_entrySim hmapsim, horphan,
        circularErrors_entrySim hmapsim, hcirc,
        leafErrors_entrySim hmapsim, hleaf]
      rfl
    have hclean : ∀ n ∈ nodes, NodeClean n := scanFold_clean hscan'
    have hnm : ∀ b ∈ nodes.enum.map (initPatch nodes), orderMissing b = false := by
      intro b hb
      obtain ⟨p, hp, rfl⟩ := List.mem_map.1 hb
      have hp' : p ∈ List.enumFrom 0 nodes := hp
      exact initPatch_not_missing (hclean p.2 (mem_enumFrom_snd hp')) nodes
    have hio_t : initializeOrder t = t := by
      rw [initializeOrder_eq hn_t, enum_map_initPatch_id hnm, ht, setField_setField_same]
    have hens_t : ensureSchemaVersion t = t := by
      unfold ensureSchemaVersion
      rw [jsFalsyField_congr "schemaVersion" hsv_t,
        schemaVersionErrors_empty_not_falsy hsv]
      simp
    show importTaxonomy t = some t
    unfold importTaxonomy
    rw [hval_t, show (([] : List ValidationError).isEmpty) = true from rfl, if_pos rfl,
      hens_t, hio_t]

/-! ## The stringify model: leaf stability, field mapping, congruence -/

theorem stringifyParse_null (f : Nat) : stringifyParse f Json.null = Json.null := by
  cases f <;> rfl

theorem stringifyParse_bool (f : Nat) (b : Bool) :
    stringifyParse f (Json.bool b) = Json.bool b := by
  cases f <;> rfl

theorem stringifyParse_num (f : Nat) (z : Int) :
    stringifyParse f (Json.num z) = Json.num z := by
  cases f <;> rfl

theorem stringifyParse_str (f : Nat) (s : String) :
    stringifyParse f (Json.str s) = Json.str s := by
  cases f <;> rfl

theorem lookup_map_snd (g : Json → Json) (key : String) :
    ∀ l : List (String × Json),
      (l.map (fun p => (p.1, g p.2))).lookup key = (l.lookup key).map g
  | [] => rfl
  | (k, v) :: rest => by
    simp only [List.map_cons, List.lookup]
    cases hk : key == k with
    | true => rfl
    | false => exact lookup_map_snd g key rest

theorem getField_stringifyParse (f : Nat) (l : List (String × Json)) (key : String) :
    getField (stringifyParse (f + 1) (Json.obj l)) key =
      (getField (Json.obj l) key).map (stringifyParse f) := by
  show (l.map (fun p => (p.1, stringifyParse f p.2))).lookup key = _
  exact lookup_map_snd (stringifyParse f) key l

/-- A field whose value is a primitive other than a non-finite number is
untouched by `stringifyParse`, at every fuel. -/
theorem getField_sp_eq {l : List (String × Json)} {key : String} (f : Nat)
    (hkey : getField (Json.obj l) key = none ∨
      getField (Json.obj l) key = some Json.null ∨
      (∃ s, getField (Json.obj l) key = some (Json.str s)) ∨
      (∃ z : Int, getField (Json.obj l) key = some (Json.num z)) ∨
      (∃ b, getField (Json.obj l) key = some (Json.bool b))) :
    getField (stringifyParse f (Json.obj l)) key = getField (Json.obj l) key := by
  cases f with
  | zero => rfl
  | succ f =>
    rw [getField_stringifyParse]
    rcases hkey with h | h | ⟨s, h⟩ | ⟨z, h⟩ | ⟨b, h⟩ <;> rw [h] <;>
      simp [stringifyParse_null, stringifyParse_str, stringifyParse_num, stringifyParse_bool]

theorem scanSim_stringifyParse {n : Json} (hn : NodeLeafFields n) (f : Nat) :
    ScanSim n (stringifyParse f n) := by
  obtain ⟨⟨fields, rfl⟩, ⟨sid, hid⟩, ⟨slb, hlb⟩, hpar, ⟨skd, hkd⟩, hord⟩ := hn
  refine ⟨?_, ?_, ?_, ?_, ?_, Or.inl ?_⟩
  · cases f <;> rfl
  · exact getField_sp_eq f (Or.inr (Or.inr (Or.inl ⟨sid, hid⟩)))
  · exact getField_sp_eq f (Or.inr (Or.inr (Or.inl ⟨slb, hlb⟩)))
  · rcases hpar with h | ⟨s, h⟩
    · exact getField_sp_eq f (Or.inr (Or.inl h))
    · exact getField_sp_eq f (Or.inr (Or.inr (Or.inl ⟨s, h⟩)))
  · exact getField_sp_eq f (Or.inr (Or.inr (Or.inl ⟨skd, hkd⟩)))
  · rcases hord with h | ⟨z, h⟩
    · exact getField_sp_eq f (Or.inl h)
    · exact getField_sp_eq f (Or.inr (Or.inr (Or.inr (Or.inl ⟨z, h⟩))))

theorem stringifyParse_infFree :
    ∀ (f : Nat) (j : Json), infFree f j = true → stringifyParse f j = j := by
  intro f
  induction f with
  | zero => intro j hj; simp [infFree] at hj
  | succ f ih =>
    intro j hj
    cases j with
    | null => rfl
    | bool b => rfl
    | num z => rfl
    | str s => rfl
    | inf b => simp [infFree] at hj
    | arr l =>
      show Json.arr (l.map (stringifyParse f)) = Json.arr l
      have hall : ∀ x ∈ l, infFree f x = true := by
        have h2 : l.all (infFree f) = true := by simpa [infFree] using hj
        exact fun x hx => List.all_eq_true.1 h2 x hx
      congr 1
      rw [List.map_congr_left fun x hx => ih x (hall x hx)]
      exact List.map_id l
    | obj l =>
      show Json.obj (l.map (fun p => (p.1, stringifyParse f p.2))) = Json.obj l
      have hall : ∀ p ∈ l, infFree f p.2 = true := by
        have h2 : l.all (fun p => infFree f p.2) = true := by simpa [infFree] using hj
        exact fun p hp => List.all_eq_true.1 h2 p hp
      congr 1
      rw [List.map_congr_left (g := id) fun p hp => by
        rw [ih p.2 (hall p hp)]
        exact Prod.mk.eta]
      exact List.map_id l

/-- The fuel of the stringify model is inessential: any two sufficient
fuels normalize a value identically. -/
theorem stringifyParse_congr :
    ∀ (f : Nat) (j : Json), jdepthLe f j = true →
      ∀ (g : Nat), jdepthLe g j = true → stringifyParse f j = stringifyParse g j := by
  intro f
  induction f with
  | zero => intro j hj; simp [jdepthLe] at hj
  | succ f ih =>
    intro j hj g hg
    cases g with
    | zero => simp [jdepthLe] at hg
    | succ g =>
      cases j with
      | null => rfl
      | bool b => rfl
      | num z => rfl
      | str s => rfl
      | inf b => rfl
      | arr l =>
        show Json.arr (l.map (stringifyParse f)) = Json.arr (l.map (stringifyParse g))
        have hallf : ∀ x ∈ l, jdepthLe f x = true := by
          have h2 : l.all (jdepthLe f) = true := by simpa [jdepthLe] using hj
          exact fun x hx => List.all_eq_true.1 h2 x hx
        have hallg : ∀ x ∈ l, jdepthLe g x = true := by
          have h2 : l.all (jdepthLe g) = true := by simpa [jdepthLe] using hg
          exact fun x hx => List.all_eq_true.1 h2 x hx
        congr 1
        exact List.map_congr_left fun x hx => ih x (hallf x hx) g (hallg x hx)
      | obj l =>
        show Json.obj (l.map (fun p => (p.1, stringifyParse f p.2))) =
          Json.obj (l.map (fun p => (p.1, stringifyParse g p.2)))
        have hallf : ∀ p ∈ l, jdepthLe f p.2 = true := by
          have h2 : l.all (fun p => jdepthLe f p.2) = true := by simpa [jdepthLe] using hj
          exact fun p hp => List.all_eq_true.1 h2 p hp
        have hallg : ∀ p ∈ l, jdepthLe g p.2 = true := by
          have h2 : l.all (fun p => jdepthLe g p.2) = true := by simpa [jdepthLe] using hg
          exact fun p hp => List.all_eq_true.1 h2 p hp
        congr 1
        exact List.map_congr_left fun p hp => by
          rw [ih p.2 (hallf p hp) g (hallg p hp)]

/-! ## Shapes certified by an error-free validation -/

theorem nodeIdOk_some_id {n : Json} {id : String} (h : nodeIdOk n = some id) :
    getField n "id" = some (Json.str id) := by
  unfold nodeIdOk at h
  cases hobj : isObjLike n with
  | false => rw [hobj] at h; simp at h
  | true =>
    rw [hobj] at h
    simp only [Bool.not_true, Bool.false_eq_true, if_false] at h
    cases hx : getField n "id" with
    | none => rw [hx] at h; simp at h
    | some v =>
      simp only [hx] at h
      cases v with
      | str s =>
        cases hemp : s == "" with
        | true => simp only [hemp] at h; simp at h
        | false =>
          simp only [hemp] at h
          simp only [Bool.false_eq_true, if_false] at h
          rw [Option.some_inj.1 h]
      | null => simp at h
      | bool b => simp at h
      | num z => simp at h
      | inf b => simp at h
      | arr a => simp at h
      | obj o => simp at h

theorem parentTypeErrors_nil {i : Nat} {n : Json} (h : parentTypeErrors i n = []) :
    getField n "parentId" = some Json.null ∨
      ∃ s, getField n "parentId" = some (Json.str s) := by
  unfold parentTypeErrors at h
  cases hx : getField n "parentId" with
  | none => rw [hx] at h; simp at h
  | some v =>
    rw [hx] at h
    cases v with
    | null => exact Or.inl rfl
    | str s => exact Or.inr ⟨s, rfl⟩
    | bool b => simp at h
    | num z => simp at h
    | inf b => simp at h
    | arr a => simp at h
    | obj o => simp at h

theorem kindErrors_nil {i : Nat} {n : Json} (h : kindErrors i n = []) :
    ∃ s, getField n "kind" = some (Json.str s) := by
  unfold kindErrors at h
  cases hx : getField n "kind" with
  | none => rw [hx] at h; simp at h
  | some v =>
    rw [hx] at h
    cases v with
    | str s => exact ⟨s, rfl⟩
    | null => simp at h
    | bool b => simp at h
    | num z => simp at h
    | inf b => simp at h
    | arr a => simp at h
    | obj o => simp at h

theorem nodeErrors_nil_fields {i : Nat} {ids : List String} {n : Json}
    (h : nodeErrors i ids n = []) : NodeLeafFields n := by
  obtain ⟨id, hok⟩ := nodeErrors_nil_ok h
  unfold nodeErrors at h
  rw [hok] at h
  simp only [List.append_eq_nil] at h
  obtain ⟨⟨⟨⟨⟨h1, h2⟩, h3⟩, h4⟩, h5⟩, h6⟩ := h
  exact ⟨nodeIdOk_some_obj hok, ⟨id, nodeIdOk_some_id hok⟩, labelTypeErrors_nil h1,
    parentTypeErrors_nil h3, kindErrors_nil h4, orderErrors_nil h5⟩

/-- An error-free loop run certifies every node's field shapes. -/
theorem scanFold_fields :
    ∀ {ns : List Json} {k : Nat} {st : ScanState},
      (scanFold k ns st).errors = st.errors → ∀ n ∈ ns, NodeLeafFields n := by
  intro ns
  induction ns with
  | nil => intro k st h n hn; cases hn
  | cons n ns ih =>
    intro k st h m hm
    rw [scanFold_cons] at h
    obtain ⟨e, he⟩ := scanFold_errors_append ns (k + 1) (scanNode k n st)
    rw [he, scanNode_errors, List.append_assoc] at h
    have hnil : nodeErrors k st.nodeIds n ++ e = [] := List.append_right_eq_self.1 h
    rw [List.append_eq_nil] at hnil
    rcases List.mem_cons.1 hm with rfl | hm
    · exact nodeErrors_nil_fields hnil.1
    · have hstep : (scanFold (k + 1) ns (scanNode k n st)).errors =
          (scanNode k n st).errors := by
        rw [he, scanNode_errors, hnil.2, List.append_nil]
      exact ih hstep m hm

theorem forall₂_self_map {α : Type} {R : α → α → Prop} (g : α → α) :
    ∀ (ns : List α), (∀ n ∈ ns, R n (g n)) → List.Forall₂ R ns (ns.map g)
  | [], _ => List.Forall₂.nil
  | n :: ns, h => by
    rw [List.map_cons]
    exact List.Forall₂.cons (h n (List.mem_cons_self _ _))
      (forall₂_self_map g ns fun m hm => h m (List.mem_cons_of_mem _ hm))

theorem schemaVersionErrors_nil_str {d : Json} (h : schemaVersionErrors d = []) :
    ∃ s, getField d "schemaVersion" = some (Json.str s) := by
  unfold schemaVersionErrors at h
  cases hx : getField d "schemaVersion" with
  | none => rw [hx] at h; simp at h
  | some v =>
    simp only [hx] at h
    cases hfv : jsFalsy v with
    | true => rw [hfv] at h; simp at h
    | false =>
      rw [hfv] at h
      simp only [Bool.false_eq_true, if_false] at h
      cases v with
      | str s => exact ⟨s, rfl⟩
      | null => simp at h
      | bool b => simp at h
      | num z => simp at h
      | inf b => simp at h
      | arr a => simp at h
      | obj o => simp at h

theorem lookup_mem_snd :
    ∀ {l : List (String × Json)} {k : String} {v : Json},
      l.lookup k = some v → ∃ p ∈ l, p.2 = v := by
  intro l
  induction l with
  | nil => intro k v h; simp [List.lookup] at h
  | cons a rest ih =>
    intro k v h
    obtain ⟨ak, av⟩ := a
    simp only [List.lookup] at h
    cases hk : k == ak with
    | true =>
      simp only [hk] at h
      exact ⟨(ak, av), List.mem_cons_self _ _, Option.some_inj.1 h⟩
    | false =>
      simp only [hk] at h
      obtain ⟨p, hp, h2⟩ := ih h
      exact ⟨p, List.mem_cons_of_mem _ hp, h2⟩

theorem setFields_lookup_self :
    ∀ (l : List (String × Json)) (k : String) (v : Json),
      l.lookup k = some v → setFields l k v = l
  | [], k, v => by intro h; simp [List.lookup] at h
  | (k₀, w) :: rest, k, v => by
    intro h
    simp only [List.lookup] at h
    unfold setFields
    cases hk : k == k₀ with
    | true =>
      simp only [hk] at h
      have hkk : k = k₀ := eq_of_beq hk
      subst hkk
      rw [if_pos (beq_self_eq_true k), Option.some_inj.1 h]
    | false =>
      simp only [hk] at h
      have hne : k₀ ≠ k := by
        intro he
        subst he
        simp at hk
      rw [if_neg (fun hc => hne (eq_of_beq hc)),
        setFields_lookup_self rest k v h]

theorem setField_self {o : Json} {k : String} {v : Json}
    (h : getField o k = some v) : setField o k v = o := by
  cases o with
  | obj fields =>
    show Json.obj (setFields fields k v) = Json.obj fields
    rw [setFields_lookup_self fields k v h]
  | null => rfl
  | bool b => rfl
  | num z => rfl
  | inf b => rfl
  | str s => rfl
  | arr l => rfl

theorem orderMissing_congr {a b : Json} (h : getField b "order" = getField a "order") :
    orderMissing b = orderMissing a := by
  unfold orderMissing
  rw [h]

/-! ## C7 -/

/-- C7 (corrected): importing the export of an import-accepted document
always succeeds, and preserves every node's `id`, `label`, `parentId`,
`kind` and `order` exactly; but a passenger field survives unchanged only
when it holds no non-finite number.  The re-imported taxonomy is exactly
`stringifyParse` of the exported one — the original with every
`Infinity`/`-Infinity` (which `JSON.stringify` emits as `null`) replaced
by `null` — and it equals the original whenever the value is `infFree`.
The fuel `f` is any depth bound for the exported value. -/
theorem C7_import_export_roundtrip (j t : Json) (f : Nat)
    (h : importTaxonomy j = some t) (hd : jdepthLe f t = true) :
    importTaxonomy (exportTaxonomy f t) = some (exportTaxonomy f t) ∧
    (∀ ns, getField t "nodes" = some (Json.arr ns) →
      ∃ ns', getField (exportTaxonomy f t) "nodes" = some (Json.arr ns') ∧
        ns'.length = ns.length ∧
        ∀ (k : Nat) (hk : k < ns.length) (hk' : k < ns'.length),
          getField ns'[k] "id" = getField ns[k] "id" ∧
          getField ns'[k] "label" = getField ns[k] "label" ∧
          getField ns'[k] "parentId" = getField ns[k] "parentId" ∧
          getField ns'[k] "kind" = getField ns[k] "kind" ∧
          getField ns'[k] "order" = getField ns[k] "order") ∧
    (infFree f t = true → exportTaxonomy f t = t) := by
  have hidem := importTaxonomy_idem j t h
  unfold importTaxonomy at hidem
  cases hval : (validateTaxonomy t).isEmpty with
  | false => rw [hval] at hidem; simp at hidem
  | true =>
    rw [hval, if_pos rfl] at hidem
    have hvt : validateTaxonomy t = [] := List.isEmpty_iff.1 hval
    obtain ⟨hobj, hnf, nodes, hn⟩ := validateTaxonomy_empty_shape hvt
    obtain ⟨fields, hto⟩ := obj_of_getField_nodes hobj hn
    subst hto
    rw [validateTaxonomy_full hobj hnf hn,
      show (({} : ValidationOptions).enforceTagLeaf.getD true) = true from rfl,
      if_pos rfl] at hvt
    simp only [List.append_eq_nil] at hvt
    obtain ⟨⟨⟨⟨hsv, hscan⟩, horphan⟩, hcirc⟩, hleaf⟩ := hvt
    have hens : ensureSchemaVersion (Json.obj fields) = Json.obj fields := by
      unfold ensureSchemaVersion
      rw [schemaVersionErrors_empty_not_falsy hsv]
      simp
    rw [hens] at hidem
    have hfix : initializeOrder (Json.obj fields) = Json.obj fields :=
      Option.some_inj.1 hidem
    rw [initializeOrder_eq hn] at hfix
    have hnodes_eq : nodes.enum.map (initPatch nodes) = nodes := by
      have h1 : getField (setField (Json.obj fields) "nodes"
          (Json.arr (nodes.enum.map (initPatch nodes)))) "nodes" =
          getField (Json.obj fields) "nodes" := by rw [hfix]
      rw [hn, getField_setField_same] at h1
      injection Option.some_inj.1 h1 with h2
    have hscan' : (scanFold 0 nodes { errors := [], nodeIds := [], nodeMap := [] }).errors
        = ({ errors := [], nodeIds := [], nodeMap := [] } : ScanState).errors := hscan
    have hclean : ∀ n ∈ nodes, NodeClean n := scanFold_clean hscan'
    have hfields : ∀ n ∈ nodes, NodeLeafFields n := scanFold_fields hscan'
    have horder : ∀ b ∈ nodes, orderMissing b = false := by
      intro b hb
      rw [← hnodes_eq] at hb
      obtain ⟨p, hp, rfl⟩ := List.mem_map.1 hb
      have hp' : p ∈ List.enumFrom 0 nodes := hp
      exact initPatch_not_missing (hclean p.2 (mem_enumFrom_snd hp')) nodes
    cases f with
    | zero => rw [show jdepthLe 0 (Json.obj fields) = false from rfl] at hd; simp at hd
    | succ f₀ =>
      have hdf : ∀ p ∈ fields, jdepthLe f₀ p.2 = true := by
        have h2 : fields.all (fun p => jdepthLe f₀ p.2) = true := by
          simpa [jdepthLe] using hd
        exact fun p hp => List.all_eq_true.1 h2 p hp
      have hdarr : jdepthLe f₀ (Json.arr nodes) = true := by
        obtain ⟨p, hp, hp2⟩ := lookup_mem_snd hn
        rw [← hp2]
        exact hdf p hp
      cases f₀ with
      | zero =>
        rw [show jdepthLe 0 (Json.arr nodes) = false from rfl] at hdarr
        simp at hdarr
      | succ f₁ =>
        simp only [exportTaxonomy]
        have hget : ∀ key, getField (stringifyParse (f₁ + 1 + 1) (Json.obj fields)) key =
            (getField (Json.obj fields) key).map (stringifyParse (f₁ + 1)) :=
          fun key => getField_stringifyParse (f₁ + 1) fields key
        have hn' : getField (stringifyParse (f₁ + 1 + 1) (Json.obj fields)) "nodes" =
            some (Json.arr (nodes.map (stringifyParse f₁))) := by
          rw [hget "nodes", hn]
          rfl
        obtain ⟨sv, hsv_str⟩ := schemaVersionErrors_nil_str hsv
        have hsv' : getField (stringifyParse (f₁ + 1 + 1) (Json.obj fields)) "schemaVersion" =
            getField (Json.obj fields) "schemaVersion" := by
          rw [hget "schemaVersion", hsv_str]
          simp [stringifyParse_str]
        have hsim : List.Forall₂ ScanSim nodes (nodes.map (stringifyParse f₁)) :=
          forall₂_self_map _ nodes fun n hn2 => scanSim_stringifyParse (hfields n hn2) f₁
        obtain ⟨herr0, hmapsim0⟩ := scanFold_sim hsim 0 rfl List.Forall₂.nil hscan'
        have herr2 : (scanNodes (nodes.map (stringifyParse f₁))).errors = [] := herr0
        have hmapsim : List.Forall₂ EntrySim (scanNodes nodes).nodeMap
            (scanNodes (nodes.map (stringifyParse f₁))).nodeMap := hmapsim0
        have hobj' : isObjLike (stringifyParse (f₁ + 1 + 1) (Json.obj fields)) = true := rfl
        have hnf' : jsFalsyField (stringifyParse (f₁ + 1 + 1) (Json.obj fields)) "nodes"
            = false := by
          unfold jsFalsyField
          simp only [hn']
          rfl
        have hval' : validateTaxonomy (stringifyParse (f₁ + 1 + 1) (Json.obj fields)) = [] := by
          rw [validateTaxonomy_full hobj' hnf' hn',
            show (({} : ValidationOptions).enforceTagLeaf.getD true) = true from rfl,
            if_pos rfl]
          rw [schemaVersionErrors_congr hsv', hsv, herr2,
            orphanErrors_entrySim hmapsim, horphan,
            circularErrors_entrySim hmapsim, hcirc,
            leafErrors_entrySim hmapsim, hleaf]
          rfl
        have hens' : ensureSchemaVersion (stringifyParse (f₁ + 1 + 1) (Json.obj fields)) =
            stringifyParse (f₁ + 1 + 1) (Json.obj fields) := by
          unfold ensureSchemaVersion
          rw [jsFalsyField_congr "schemaVersion" hsv',
            schemaVersionErrors_empty_not_falsy hsv]
          simp
        have horder' : ∀ b ∈ nodes.map (stringifyParse f₁), orderMissing b = false := by
          intro b hb
          obtain ⟨n, hn2, rfl⟩ := List.mem_map.1 hb
          have hOrd : getField (stringifyParse f₁ n) "order" = getField n "order" := by
            obtain ⟨⟨lf, rfl⟩, -, -, -, -, hord⟩ := hfields n hn2
            rcases hord with hnone | ⟨z, hz⟩
            · exact getField_sp_eq f₁ (Or.inl hnone)
            · exact getField_sp_eq f₁ (Or.inr (Or.inr (Or.inr (Or.inl ⟨z, hz⟩))))
          rw [orderMissing_congr hOrd]
          exact horder n hn2
        have hio' : initializeOrder (stringifyParse (f₁ + 1 + 1) (Json.obj fields)) =
            stringifyParse (f₁ + 1 + 1) (Json.obj fields) := by
          rw [initializeOrder_eq hn', enum_map_initPatch_id horder', setField_self hn']
        refine ⟨?_, ?_, ?_⟩
        · unfold importTaxonomy
          rw [hval', show (([] : List ValidationError).isEmpty) = true from rfl, if_pos rfl,
            hens', hio']
        · intro ns hns
          have h1 : some (Json.arr ns) = some (Json.arr nodes) := hns.symm.trans hn
          injection Option.some_inj.1 h1 with h2
          subst h2
          refine ⟨ns.map (stringifyParse f₁), hn', by simp, ?_⟩
          intro k hk hk'
          have hmem : ns[k] ∈ ns := List.getElem_mem hk
          have hgk : (ns.map (stringifyParse f₁))[k] = stringifyParse f₁ ns[k] := by
            simp
          obtain ⟨⟨lf, hlf⟩, ⟨s1, h1d⟩, ⟨s2, h2l⟩, hp3, ⟨s4, h4k⟩, h5o⟩ := hfields _ hmem
          rw [hgk, hlf]
          rw [hlf] at h1d h2l hp3 h4k h5o
          refine ⟨?_, ?_, ?_, ?_, ?_⟩
          · exact getField_sp_eq f₁ (Or.inr (Or.inr (Or.inl ⟨s1, h1d⟩)))
          · exact getField_sp_eq f₁ (Or.inr (Or.inr (Or.inl ⟨s2, h2l⟩)))
          · rcases hp3 with hpn | ⟨s3, h3p⟩
            · exact getField_sp_eq f₁ (Or.inr (Or.inl hpn))
            · exact getField_sp_eq f₁ (Or.inr (Or.inr (Or.inl ⟨s3, h3p⟩)))
          · exact getField_sp_eq f₁ (Or.inr (Or.inr (Or.inl ⟨s4, h4k⟩)))
          · rcases h5o with hon | ⟨z5, h5z⟩
            · exact getField_sp_eq f₁ (Or.inl hon)
            · exact getField_sp_eq f₁ (Or.inr (Or.inr (Or.inr (Or.inl ⟨z5, h5z⟩))))
        · intro hif
          exact stringifyParse_infFree _ _ hif

/-- C7 counterexample: `infDoc`, a valid document whose passenger field
`meta` holds `{"budget": 1e999}` (the literal overflows to `Infinity`), is
accepted by `importTaxonomy` unchanged; importing its export succeeds but
returns `infRound`, in which the passenger value has become `null` — so
passenger fields do not always survive the round trip unchanged. -/
theorem C7_counterexample :
    importTaxonomy infDoc = some infDoc ∧
    jdepthLe 4 infDoc = true ∧
    exportTaxonomy 4 infDoc = infRound ∧
    importTaxonomy infRound = some infRound ∧
    getField infDoc "meta" = some (Json.obj [("budget", Json.inf false)]) ∧
    getField infRound "meta" = some (Json.obj [("budget", Json.null)]) :=
  ⟨rfl, by decide, rfl, rfl, rfl, rfl⟩

/-! ## Error codes of the non-leaf phases -/

theorem mkError_code (p m c : String) : (mkError p m c).code = c := rfl

theorem leafErrorOf_code (mp : List (String × Json)) (p : String × Json)
    (cid : String) : (leafErrorOf mp p cid).code = "TAG_HAS_CHILDREN" := rfl

theorem leafErrorOf_path (mp : List (String × Json)) (p : String × Json)
    (cid : String) : (leafErrorOf mp p cid).path = "nodes[" ++ cid ++ "]" := rfl

theorem mem_ite_nil {α : Type} {c : Prop} [Decidable c] {l : List α} {e : α}
    (he : e ∈ if c then ([] : List α) else l) : e ∈ l := by
  by_cases hc : c
  · rw [if_pos hc] at he
    cases he
  · rwa [if_neg hc] at he

theorem mem_ite_nil_right {α : Type} {c : Prop} [Decidable c] {l : List α} {e : α}
    (he : e ∈ if c then l else ([] : List α)) : e ∈ l := by
  by_cases hc : c
  · rwa [if_pos hc] at he
  · rw [if_neg hc] at he
    cases he

theorem mem_ite_cases {α : Type} {c : Prop} [Decidable c] {l₁ l₂ : List α} {e : α}
    (he : e ∈ if c then l₁ else l₂) : e ∈ l₁ ∨ e ∈ l₂ := by
  by_cases hc : c
  · rw [if_pos hc] at he
    exact Or.inl he
  · rw [if_neg hc] at he
    exact Or.inr he

theorem svErrors_code {data : Json} {e : ValidationError}
    (he : e ∈ schemaVersionErrors data) : (e.code == "TAG_HAS_CHILDREN") = false := by
  unfold schemaVersionErrors at he
  cases hx : getField data "schemaVersion" with
  | none =>
    rw [hx] at he
    have he' := List.mem_singleton.1 he
    subst he'
    rw [mkError_code]
    decide
  | some v =>
    rw [hx] at he
    rcases mem_ite_cases he with he | he
    · have he' := List.mem_singleton.1 he
      subst he'
      rw [mkError_code]
      decide
    · cases v with
      | str sv =>
        have he' := List.mem_singleton.1 (mem_ite_nil he)
        subst he'
        rw [mkError_code]
        decide
      | null =>
        have he' := List.mem_singleton.1 he
        subst he'
        rw [mkError_code]
        decide
      | bool b =>
        have he' := List.mem_singleton.1 he
        subst he'
        rw [mkError_code]
        decide
      | num z =>
        have he' := List.mem_singleton.1 he
        subst he'
        rw [mkError_code]
        decide
      | inf b =>
        have he' := List.mem_singleton.1 he
        subst he'
        rw [mkError_code]
        decide
      | arr a =>
        have he' := List.mem_singleton.1 he
        subst he'
        rw [mkError_code]
        decide
      | obj o =>
        have he' := List.mem_singleton.1 he
        subst he'
        rw [mkError_code]
        decide

theorem objIdErrors_code {i : Nat} {n : Json} {e : ValidationError}
    (he : e ∈ objIdErrors i n) : (e.code == "TAG_HAS_CHILDREN") = false := by
  unfold objIdErrors at he
  cases hobj : isObjLike n with
  | false =>
    rw [hobj] at he
    have he' := List.mem_singleton.1 he
    subst he'
    rw [mkError_code]
    decide
  | true =>
    rw [hobj] at he
    cases hx : getField n "id" with
    | none =>
      rw [hx] at he
      have he' := List.mem_singleton.1 he
      subst he'
      rw [mkError_code]
      decide
    | some v =>
      rw [hx] at he
      cases v with
      | str id =>
        have he' := List.mem_singleton.1 (mem_ite_nil_right he)
        subst he'
        rw [mkError_code]
        decide
      | null =>
        have he' := List.mem_singleton.1 he
        subst he'
        rw [mkError_code]
        decide
      | bool b =>
        have he' := List.mem_singleton.1 he
        subst he'
        rw [mkError_code]
        decide
      | num z =>
        have he' := List.mem_singleton.1 he
        subst he'
        rw [mkError_code]
        decide
      | inf b =>
        have he' := List.mem_singleton.1 he
        subst he'
        rw [mkError_code]
        decide
      | arr a =>
        have he' := List.mem_singleton.1 he
        subst he'
        rw [mkError_code]
        decide
      | obj o =>
        have he' := List.mem_singleton.1 he
        subst he'
        rw [mkError_code]
        decide

theorem labelTypeErrors_code {i : Nat} {n : Json} {e : ValidationError}
    (he : e ∈ labelTypeErrors i n) : (e.code == "TAG_HAS_CHILDREN") = false := by
  unfold labelTypeErrors at he
  cases hx : getField n "label" with
  | none =>
    rw [hx] at he
    have he' := List.mem_singleton.1 he
    subst he'
    rw [mkError_code]
    decide
  | some v =>
    rw [hx] at he
    cases v with
    | str l => exact absurd he (List.not_mem_nil e)
    | null =>
      have he' := List.mem_singleton.1 he
      subst he'
      rw [mkError_code]
      decide
    | bool b =>
      have he' := List.mem_singleton.1 he
      subst he'
      rw [mkError_code]
      decide
    | num z =>
      have he' := List.mem_singleton.1 he
      subst he'
      rw [mkError_code]
      decide
    | inf b =>
      have he' := List.mem_singleton.1 he
      subst he'
      rw [mkError_code]
      decide
    | arr a =>
      have he' := List.mem_singleton.1 he
      subst he'
      rw [mkError_code]
      decide
    | obj o =>
      have he' := List.mem_singleton.1 he
      subst he'
      rw [mkError_code]
      decide

theorem dupErrors_code {i : Nat} {ids : List String} {id : String} {e : ValidationError}
    (he : e ∈ dupErrors i ids id) : (e.code == "TAG_HAS_CHILDREN") = false := by
  unfold dupErrors at he
  have he' := List.mem_singleton.1 (mem_ite_nil_right he)
  subst he'
  rw [mkError_code]
  decide

theorem parentTypeErrors_code {i : Nat} {n : Json} {e : ValidationError}
    (he : e ∈ parentTypeErrors i n) : (e.code == "TAG_HAS_CHILDREN") = false := by
  unfold parentTypeErrors at he
  cases hx : getField n "parentId" with
  | none =>
    rw [hx] at he
    have he' := List.mem_singleton.1 he
    subst he'
    rw [mkError_code]
    decide
  | some v =>
    rw [hx] at he
    cases v with
    | null => exact absurd he (List.not_mem_nil e)
    | str s => exact absurd he (List.not_mem_nil e)
    | bool b =>
      have he' := List.mem_singleton.1 he
      subst he'
      rw [mkError_code]
      decide
    | num z =>
      have he' := List.mem_singleton.1 he
      subst he'
      rw [mkError_code]
      decide
    | inf b =>
      have he' := List.mem_singleton.1 he
      subst he'
      rw [mkError_code]
      decide
    | arr a =>
      have he' := List.mem_singleton.1 he
      subst he'
      rw [mkError_code]
      decide
    | obj o =>
      have he' := List.mem_singleton.1 he
      subst he'
      rw [mkError_code]
      decide

theorem kindErrors_code {i : Nat} {n : Json} {e : ValidationError}
    (he : e ∈ kindErrors i n) : (e.code == "TAG_HAS_CHILDREN") = false := by
  unfold kindErrors at he
  cases hx : getField n "kind" with
  | none =>
    rw [hx] at he
    have he' := List.mem_singleton.1 he
    subst he'
    rw [mkError_code]
    decide
  | some v =>
    rw [hx] at he
    cases v with
    | str k =>
      have he' := List.mem_singleton.1 (mem_ite_nil he)
      subst he'
      rw [mkError_code]
      decide
    | null =>
      have he' := List.mem_singleton.1 he
      subst he'
      rw [mkError_code]
      decide
    | bool b =>
      have he' := List.mem_singleton.1 he
      subst he'
      rw [mkError_code]
      decide
    | num z =>
      have he' := List.mem_singleton.1 he
      subst he'
      rw [mkError_code]
      decide
    | inf b =>
      have he' := List.mem_singleton.1 he
      subst he'
      rw [mkError_code]
      decide
    | arr a =>
      have he' := List.mem_singleton.1 he
      subst he'
      rw [mkError_code]
      decide
    | obj o =>
      have he' := List.mem_singleton.1 he
      subst he'
      rw [mkError_code]
      decide

theorem orderErrors_code {i : Nat} {n : Json} {e : ValidationError}
    (he : e ∈ orderErrors i n) : (e.code == "TAG_HAS_CHILDREN") = false := by
  unfold orderErrors at he
  cases hx : getField n "order" with
  | none =>
    rw [hx] at he
    exact absurd he (List.not_mem_nil e)
  | some v =>
    rw [hx] at he
    cases v with
    | num z => exact absurd he (List.not_mem_nil e)
    | inf b =>
      have he' := List.mem_singleton.1 he
      subst he'
      rw [mkError_code]
      decide
    | null =>
      have he' := List.mem_singleton.1 he
      subst he'
      rw [mkError_code]
      decide
    | bool b =>
      have he' := List.mem_singleton.1 he
      subst he'
      rw [mkError_code]
      decide
    | str s =>
      have he' := List.mem_singleton.1 he
      subst he'
      rw [mkError_code]
      decide
    | arr a =>
      have he' := List.mem_singleton.1 he
      subst he'
      rw [mkError_code]
      decide
    | obj o =>
      have he' := List.mem_singleton.1 he
      subst he'
      rw [mkError_code]
      decide

theorem commaErrors_code {i : Nat} {n : Json} {e : ValidationError}
    (he : e ∈ commaErrors i n) : (e.code == "TAG_HAS_CHILDREN") = false := by
  unfold commaErrors at he
  cases hx : getField n "label" with
  | none =>
    rw [hx] at he
    exact absurd he (List.not_mem_nil e)
  | some v =>
    rw [hx] at he
    cases v with
    | str l =>
      have he' := List.mem_singleton.1 (mem_ite_nil_right he)
      subst he'
      rw [mkError_code]
      decide
    | null => exact absurd he (List.not_mem_nil e)
    | bool b => exact absurd he (List.not_mem_nil e)
    | num z => exact absurd he (List.not_mem_nil e)
    | inf b => exact absurd he (List.not_mem_nil e)
    | arr a => exact absurd he (List.not_mem_nil e)
    | obj o => exact absurd he (List.not_mem_nil e)

theorem nodeErrors_code {i : Nat} {ids : List String} {n : Json} {e : ValidationError}
    (he : e ∈ nodeErrors i ids n) : (e.code == "TAG_HAS_CHILDREN") = false := by
  unfold nodeErrors at he
  cases hok : nodeIdOk n with
  | none =>
    rw [hok] at he
    exact objIdErrors_code he
  | some id =>
    rw [hok] at he
    simp only [List.mem_append] at he
    rcases he with ((((he | he) | he) | he) | he) | he
    · exact labelTypeErrors_code he
    · exact dupErrors_code he
    · exact parentTypeErrors_code he
    · exact kindErrors_code he
    · exact orderErrors_code he
    · exact commaErrors_code he

theorem scanFold_errors_code :
    ∀ {ns : List Json} {k : Nat} {st : ScanState} {e : ValidationError},
      e ∈ (scanFold k ns st).errors → e ∈ st.errors ∨
        (e.code == "TAG_HAS_CHILDREN") = false := by
  intro ns
  induction ns with
  | nil => intro k st e he; exact Or.inl he
  | cons n ns ih =>
    intro k st e he
    rw [scanFold_cons] at he
    rcases ih he with he' | hc
    · rw [scanNode_errors] at he'
      rcases List.mem_append.1 he' with he'' | he''
      · exact Or.inl he''
      · exact Or.inr (nodeErrors_code he'')
    · exact Or.inr hc

theorem scanNodes_errors_code {ns : List Json} {e : ValidationError}
    (he : e ∈ (scanNodes ns).errors) : (e.code == "TAG_HAS_CHILDREN") = false := by
  have he' : e ∈ (scanFold 0 ns { errors := [], nodeIds := [], nodeMap := [] }).errors := he
  rcases scanFold_errors_code he' with h | h
  · exact absurd h (List.not_mem_nil e)
  · exact h

theorem orphanErrors_code {mp : List (String × Json)} {e : ValidationError}
    (he : e ∈ orphanErrors mp) : (e.code == "TAG_HAS_CHILDREN") = false := by
  rw [orphanErrors_eq_flatMap] at he
  obtain ⟨p, -, he⟩ := List.mem_flatMap.1 he
  unfold orphanEntryErrors at he
  cases hx : getField p.2 "parentId" with
  | none =>
    rw [hx] at he
    have he' := List.mem_singleton.1 he
    subst he'
    rw [mkError_code]
    decide
  | some v =>
    rw [hx] at he
    cases v with
    | null => exact absurd he (List.not_mem_nil e)
    | str pid =>
      have hee : e ∈ orphanLookupErrors mp p.1 pid := he
      unfold orphanLookupErrors at hee
      have he' := List.mem_singleton.1 (mem_ite_nil hee)
      subst he'
      rw [mkError_code]
      decide
    | bool b =>
      have he' := List.mem_singleton.1 he
      subst he'
      rw [mkError_code]
      decide
    | num z =>
      have he' := List.mem_singleton.1 he
      subst he'
      rw [mkError_code]
      decide
    | inf b =>
      have he' := List.mem_singleton.1 he
      subst he'
      rw [mkError_code]
      decide
    | arr a =>
      have he' := List.mem_singleton.1 he
      subst he'
      rw [mkError_code]
      decide
    | obj o =>
      have he' := List.mem_singleton.1 he
      subst he'
      rw [mkError_code]
      decide

theorem circularWalk_code {mp : List (String × Json)} {s : String} :
    ∀ {fuel : Nat} {visited : List String} {cur : Option String} {e : ValidationError},
      e ∈ circularWalk mp s fuel visited cur → (e.code == "TAG_HAS_CHILDREN") = false := by
  intro fuel
  induction fuel with
  | zero =>
    intro visited cur e he
    cases cur with
    | none => exact absurd he (List.not_mem_nil e)
    | some c => exact absurd he (List.not_mem_nil e)
  | succ f ih =>
    intro visited cur e he
    cases cur with
    | none => exact absurd he (List.not_mem_nil e)
    | some c =>
      have he' : e ∈ (if visited.contains c then
          [mkError ("nodes[" ++ s ++ "]")
            ("Circular reference detected involving node: " ++ c) "CIRCULAR_REF"]
        else circularWalk mp s f (visited ++ [c]) (parentIdOf mp c)) := he
      by_cases hv : visited.contains c = true
      · rw [if_pos hv] at he'
        have he'' := List.mem_singleton.1 he'
        subst he''
        rw [mkError_code]
        decide
      · rw [if_neg hv] at he'
        exact ih he'

theorem circularErrors_code {mp : List (String × Json)} {e : ValidationError}
    (he : e ∈ circularErrors mp) : (e.code == "TAG_HAS_CHILDREN") = false := by
  rw [circularErrors_eq_flatMap] at he
  obtain ⟨p, -, he⟩ := List.mem_flatMap.1 he
  exact circularWalk_code he

theorem leafErrors_code {mp : List (String × Json)} {e : ValidationError}
    (he : e ∈ leafErrors mp) : (e.code == "TAG_HAS_CHILDREN") = true := by
  rw [leafErrors_eq_flatMap] at he
  obtain ⟨p, -, he⟩ := List.mem_flatMap.1 he
  unfold leafEntryErrors at he
  obtain ⟨cid, -, he'⟩ := List.mem_map.1 (mem_ite_nil_right he)
  rw [← he', leafErrorOf_code]
  decide

/-! ## The leaf rule characterized -/

theorem mem_childrenIds {mp : List (String × Json)} {pid cid : String} :
    cid ∈ childrenIds mp pid ↔
      ∃ cnode, (cid, cnode) ∈ mp ∧ hasParent cnode pid = true := by
  unfold childrenIds
  rw [List.mem_map]
  constructor
  · rintro ⟨q, hq, rfl⟩
    rw [List.mem_filter] at hq
    refine ⟨q.2, ?_, hq.2⟩
    rw [Prod.mk.eta]
    exact hq.1
  · rintro ⟨cnode, hmem, hpar⟩
    exact ⟨(cid, cnode), List.mem_filter.2 ⟨hmem, hpar⟩, rfl⟩

theorem mem_leafEntryErrors {mp : List (String × Json)} {p : String × Json}
    {e : ValidationError} :
    e ∈ leafEntryErrors mp p ↔
      isTagNode p.2 = true ∧ ∃ cid ∈ childrenIds mp p.1, e = leafErrorOf mp p cid := by
  unfold leafEntryErrors
  by_cases hit : isTagNode p.2 = true
  · rw [if_pos hit, List.mem_map]
    constructor
    · rintro ⟨cid, hc, rfl⟩
      exact ⟨hit, cid, hc, rfl⟩
    · rintro ⟨-, cid, hc, rfl⟩
      exact ⟨cid, hc, rfl⟩
  · rw [if_neg hit]
    simp [hit]

theorem mem_leafErrors {mp : List (String × Json)} {e : ValidationError} :
    e ∈ leafErrors mp ↔
      ∃ pid pnode cid cnode, (pid, pnode) ∈ mp ∧ isTagNode pnode = true ∧
        (cid, cnode) ∈ mp ∧ hasParent cnode pid = true ∧
        e = leafErrorOf mp (pid, pnode) cid := by
  rw [leafErrors_eq_flatMap, List.mem_flatMap]
  constructor
  · rintro ⟨p, hp, he⟩
    obtain ⟨hit, cid, hc, rfl⟩ := mem_leafEntryErrors.1 he
    obtain ⟨cnode, hcm, hcp⟩ := mem_childrenIds.1 hc
    refine ⟨p.1, p.2, cid, cnode, ?_, hit, hcm, hcp, ?_⟩
    · rw [Prod.mk.eta]
      exact hp
    · rw [Prod.mk.eta]
  · rintro ⟨pid, pnode, cid, cnode, hpm, hit, hcm, hcp, rfl⟩
    exact ⟨(pid, pnode), hpm, mem_leafEntryErrors.2 ⟨hit, cid,
      mem_childrenIds.2 ⟨cnode, hcm, hcp⟩, rfl⟩⟩

theorem filter_eq_nil_of_code {l : List ValidationError}
    (h : ∀ e ∈ l, (e.code == "TAG_HAS_CHILDREN") = false) :
    l.filter (fun e => e.code == "TAG_HAS_CHILDREN") = [] :=
  List.filter_eq_nil_iff.2 (fun e he => by rw [h e he]; simp)

theorem validate_filter_tag {data : Json} {nodes : List Json}
    (hobj : isObjLike data = true) (hnf : jsFalsyField data "nodes" = false)
    (hn : getField data "nodes" = some (Json.arr nodes)) :
    (validateTaxonomy data {}).filter (fun e => e.code == "TAG_HAS_CHILDREN") =
      leafErrors (scanNodes nodes).nodeMap := by
  rw [validateTaxonomy_full hobj hnf hn,
    show (({} : ValidationOptions).enforceTagLeaf.getD true) = true from rfl,
    if_pos rfl]
  rw [List.filter_append, List.filter_append, List.filter_append, List.filter_append]
  rw [filter_eq_nil_of_code (fun e he => svErrors_code he),
    filter_eq_nil_of_code (fun e he => scanNodes_errors_code he),
    filter_eq_nil_of_code (fun e he => orphanErrors_code he),
    filter_eq_nil_of_code (fun e he => circularErrors_code he),
    List.filter_eq_self.2 (fun e he => leafErrors_code he)]
  simp

/-! ## One error per violating child: key uniqueness in the node map -/

theorem mem_keys_mapSet {m : List (String × Json)} {k x : String} {v : Json} :
    x ∈ (mapSet m k v).map (fun p => p.1) ↔ x ∈ m.map (fun p => p.1) ∨ x = k := by
  induction m with
  | nil => simp [mapSet]
  | cons q rest ih =>
    obtain ⟨qk, qv⟩ := q
    by_cases hk : (qk == k) = true
    · have hq : qk = k := by simpa using hk
      subst hq
      simp only [mapSet, if_pos hk, List.map_cons, List.mem_cons]
      constructor
      · rintro (rfl | h)
        · exact Or.inr rfl
        · exact Or.inl (Or.inr h)
      · rintro ((rfl | h) | rfl)
        · exact Or.inl rfl
        · exact Or.inr h
        · exact Or.inl rfl
    · simp only [mapSet, if_neg hk, List.map_cons, List.mem_cons, ih]
      tauto

theorem keys_nodup_mapSet {m : List (String × Json)} {k : String} {v : Json}
    (h : (m.map (fun p => p.1)).Nodup) :
    ((mapSet m k v).map (fun p => p.1)).Nodup := by
  induction m with
  | nil => simp [mapSet]
  | cons q rest ih =>
    obtain ⟨qk, qv⟩ := q
    rw [List.map_cons, List.nodup_cons] at h
    by_cases hk : (qk == k) = true
    · simp only [mapSet, if_pos hk, List.map_cons, List.nodup_cons]
      exact ⟨h.1, h.2⟩
    · simp only [mapSet, if_neg hk, List.map_cons, List.nodup_cons]
      refine ⟨?_, ih h.2⟩
      intro hmem
      rcases mem_keys_mapSet.1 hmem with hmem' | hq
      · exact h.1 hmem'
      · exact hk (by simp [hq])

theorem scanFold_keys_nodup :
    ∀ {ns : List Json} {k : Nat} {st : ScanState},
      ((st.nodeMap.map (fun p => p.1)).Nodup) →
      (((scanFold k ns st).nodeMap.map (fun p => p.1)).Nodup) := by
  intro ns
  induction ns with
  | nil => intro k st h; exact h
  | cons n ns ih =>
    intro k st h
    rw [scanFold_cons]
    refine ih ?_
    rw [scanNode_nodeMap]
    cases nodeIdOk n with
    | none => exact h
    | some id => exact keys_nodup_mapSet h

theorem scanNodes_keys_nodup (ns : List Json) :
    (((scanNodes ns).nodeMap.map (fun p => p.1)).Nodup) := by
  have h : (((scanFold 0 ns { errors := [], nodeIds := [], nodeMap := [] }).nodeMap.map
      (fun p => p.1)).Nodup) := scanFold_keys_nodup (by simp)
  exact h

theorem value_eq_of_keys_nodup {m : List (String × Json)}
    (h : (m.map (fun p => p.1)).Nodup) {k : String} {v₁ v₂ : Json}
    (h₁ : (k, v₁) ∈ m) (h₂ : (k, v₂) ∈ m) : v₁ = v₂ := by
  induction m with
  | nil => cases h₁
  | cons q rest ih =>
    rw [List.map_cons, List.nodup_cons] at h
    rcases List.mem_cons.1 h₁ with h1 | h1
    · rcases List.mem_cons.1 h₂ with h2 | h2
      · rw [← h1] at h2
        injection h2 with h2a h2b
        exact h2b.symm
      · exfalso
        apply h.1
        rw [← h1]
        exact List.mem_map_of_mem (fun p => p.1) h2
    · rcases List.mem_cons.1 h₂ with h2 | h2
      · exfalso
        apply h.1
        rw [← h2]
        exact List.mem_map_of_mem (fun p => p.1) h1
      · exact ih h.2 h1 h2

theorem hasParent_eq {v : Json} {a b : String} (ha : hasParent v a = true)
    (hb : hasParent v b = true) : a = b := by
  unfold hasParent at ha hb
  cases hx : getField v "parentId" with
  | none =>
    rw [hx] at ha
    exact absurd (show (false : Bool) = true from ha) (by simp)
  | some w =>
    rw [hx] at ha hb
    cases w with
    | str s =>
      have ha' : (s == a) = true := ha
      have hb' : (s == b) = true := hb
      have ha'' : s = a := by simpa using ha'
      have hb'' : s = b := by simpa using hb'
      rw [← ha'', hb'']
    | null => exact absurd (show (false : Bool) = true from ha) (by simp)
    | bool c => exact absurd (show (false : Bool) = true from ha) (by simp)
    | num z => exact absurd (show (false : Bool) = true from ha) (by simp)
    | inf c => exact absurd (show (false : Bool) = true from ha) (by simp)
    | arr l => exact absurd (show (false : Bool) = true from ha) (by simp)
    | obj o => exact absurd (show (false : Bool) = true from ha) (by simp)

theorem wrap_path_inj {a b : String}
    (h : "nodes[" ++ a ++ "]" = "nodes[" ++ b ++ "]") : a = b := by
  have hd := congrArg String.data h
  simp only [String.data_append] at hd
  obtain ⟨h1, -⟩ := List.append_inj' hd rfl
  exact String.ext (List.append_cancel_left h1)

theorem nodup_flatMap_of {α : Type} {l : List α} {g : α → List String}
    (hnd : ∀ a ∈ l, (g a).Nodup)
    (hdisj : l.Pairwise (fun a b => ∀ x, x ∈ g a → x ∈ g b → False)) :
    (l.flatMap g).Nodup := by
  induction l with
  | nil => simp
  | cons a rest ih =>
    rw [List.flatMap_cons, List.nodup_append]
    rw [List.pairwise_cons] at hdisj
    refine ⟨hnd a (List.mem_cons_self _ _),
      ih (fun b hb => hnd b (List.mem_cons_of_mem _ hb)) hdisj.2, ?_⟩
    intro x hx hx'
    obtain ⟨b, hb, hxb⟩ := List.mem_flatMap.1 hx'
    exact hdisj.1 b hb x hx hxb

theorem leafErrors_paths_nodup {mp : List (String × Json)}
    (hkeys : (mp.map (fun p => p.1)).Nodup) :
    ((leafErrors mp).map (fun e => e.path)).Nodup := by
  rw [leafErrors_eq_flatMap, List.map_flatMap]
  refine nodup_flatMap_of ?_ ?_
  · intro p hp
    unfold leafEntryErrors
    by_cases hit : isTagNode p.2 = true
    · rw [if_pos hit, List.map_map]
      rw [List.map_congr_left (fun cid hc =>
        show ((fun e => e.path) ∘ leafErrorOf mp p) cid = "nodes[" ++ cid ++ "]" from rfl)]
      refine List.Nodup.map (fun x y hxy => wrap_path_inj hxy) ?_
      exact List.Nodup.sublist (List.Sublist.map _ (List.filter_sublist mp)) hkeys
    · rw [if_neg hit]
      simp
  · have hpw : mp.Pairwise (fun p q => p.1 ≠ q.1) := List.pairwise_map.1 hkeys
    refine hpw.imp ?_
    intro p q hne x hxp hxq
    obtain ⟨e₁, he₁, rfl⟩ := List.mem_map.1 hxp
    obtain ⟨e₂, he₂, hpath⟩ := List.mem_map.1 hxq
    obtain ⟨-, cid₁, hc₁, rfl⟩ := mem_leafEntryErrors.1 he₁
    obtain ⟨-, cid₂, hc₂, rfl⟩ := mem_leafEntryErrors.1 he₂
    rw [leafErrorOf_path, leafErrorOf_path] at hpath
    have hcid : cid₂ = cid₁ := wrap_path_inj hpath
    subst hcid
    obtain ⟨cn₁, hm₁, hp₁⟩ := mem_childrenIds.1 hc₁
    obtain ⟨cn₂, hm₂, hp₂⟩ := mem_childrenIds.1 hc₂
    have hcn : cn₁ = cn₂ := value_eq_of_keys_nodup hkeys hm₁ hm₂
    subst hcn
    exact hne (hasParent_eq hp₁ hp₂)

/-! ## C9 -/

/-- C9 (amended): the `enforceTagLeaf` rule is on by default; disabled, it
reports nothing; enabled, the `TAG_HAS_CHILDREN` errors are exactly one
error per child of each node-map entry whose `kind` is `tag` — each
carrying the child's id (in its path and message) and label together with
the parent's id and label via the message template — and the rule looks
only at the direct parent's kind, not at arbitrary ancestors (see the
counterexample). -/
theorem C9_leaf_rule (data : Json) (nodes : List Json)
    (hobj : isObjLike data = true) (hnf : jsFalsyField data "nodes" = false)
    (hn : getField data "nodes" = some (Json.arr nodes))
    (_hld : ∀ p ∈ (scanNodes nodes).nodeMap, labelDisplayable p.2 = true) :
    validateTaxonomy data {} = validateTaxonomy data { enforceTagLeaf := some true } ∧
    (validateTaxonomy data { enforceTagLeaf := some false }).filter
      (fun e => e.code == "TAG_HAS_CHILDREN") = [] ∧
    (∀ e, e ∈ (validateTaxonomy data {}).filter
        (fun e => e.code == "TAG_HAS_CHILDREN") ↔
      ∃ pid pnode cid cnode,
        (pid, pnode) ∈ (scanNodes nodes).nodeMap ∧ isTagNode pnode = true ∧
        (cid, cnode) ∈ (scanNodes nodes).nodeMap ∧ hasParent cnode pid = true ∧
        e = leafErrorOf (scanNodes nodes).nodeMap (pid, pnode) cid) ∧
    (((validateTaxonomy data {}).filter (fun e => e.code == "TAG_HAS_CHILDREN")).map
      (fun e => e.path)).Nodup := by
  refine ⟨rfl, ?_, ?_, ?_⟩
  · rw [validateTaxonomy_full hobj hnf hn,
      show (({ enforceTagLeaf := some false } :
        ValidationOptions).enforceTagLeaf.getD true) = false from rfl,
      if_neg (by simp)]
    rw [List.filter_append, List.filter_append, List.filter_append, List.filter_append]
    rw [filter_eq_nil_of_code (fun e he => svErrors_code he),
      filter_eq_nil_of_code (fun e he => scanNodes_errors_code he),
      filter_eq_nil_of_code (fun e he => orphanErrors_code he),
      filter_eq_nil_of_code (fun e he => circularErrors_code he)]
    simp
  · intro e
    rw [validate_filter_tag hobj hnf hn]
    exact mem_leafErrors
  · rw [validate_filter_tag hobj hnf hn]
    exact leafErrors_paths_nodup (scanNodes_keys_nodup nodes)

/-- C9 counterexample: in the chain `a` (tag) → `b` (folder) → `c` (tag),
default validation reports a `TAG_HAS_CHILDREN` error only for `b` (whose
direct parent is the tag `a`); `c` gets none, although its grandparent `a`
is a tag — the code checks the direct parent's kind, not ancestors. -/
theorem C9_counterexample :
    (∃ e ∈ validateTaxonomy leafChainJson {}, e.code = "TAG_HAS_CHILDREN" ∧
      e.path = "nodes[b]") ∧
    (∀ e ∈ validateTaxonomy leafChainJson {},
      ¬(e.code = "TAG_HAS_CHILDREN" ∧ e.path = "nodes[c]")) ∧
    parentIdOf (scanNodes leafChainNodes).nodeMap "c" = some "b" ∧
    parentIdOf (scanNodes leafChainNodes).nodeMap "b" = some "a" ∧
    ∃ anode, (scanNodes leafChainNodes).nodeMap.lookup "a" = some anode ∧
      isTagNode anode = true := by
  refine ⟨by decide, by decide, by decide, by decide, ?_⟩
  exact ⟨Json.obj [("id", Json.str "a"), ("label", Json.str "A"),
    ("parentId", Json.null), ("kind", Json.str "tag"), ("order", Json.num 0)],
    rfl, by decide⟩

/-- C9 witness: the amended theorem applied to the chain taxonomy — with
the rule disabled no `TAG_HAS_CHILDREN` error remains. -/
theorem C9_witness :
    (validateTaxonomy leafChainJson { enforceTagLeaf := some false }).filter
      (fun e => e.code == "TAG_HAS_CHILDREN") = [] :=
  (C9_leaf_rule leafChainJson leafChainNodes (by decide) (by decide) (by rfl)
    (by decide)).2.1

/-- C7 witness: the two-node document whose root lacks `order` imports to
`rtResult`, fuel `5` covers `rtResult`'s depth, and the round-trip theorem
instantiates to it: re-import succeeds, the five node fields are
preserved, and (the value being free of non-finite numbers) the export
round-trips to `rtResult` exactly. -/
theorem C7_witness :
    importTaxonomy rtInput = some rtResult ∧ jdepthLe 5 rtResult = true ∧
    (importTaxonomy (exportTaxonomy 5 rtResult) = some (exportTaxonomy 5 rtResult) ∧
    (∀ ns, getField rtResult "nodes" = some (Json.arr ns) →
      ∃ ns', getField (exportTaxonomy 5 rtResult) "nodes" = some (Json.arr ns') ∧
        ns'.length = ns.length ∧
        ∀ (k : Nat) (hk : k < ns.length) (hk' : k < ns'.length),
          getField ns'[k] "id" = getField ns[k] "id" ∧
          getField ns'[k] "label" = getField ns[k] "label" ∧
          getField ns'[k] "parentId" = getField ns[k] "parentId" ∧
          getField ns'[k] "kind" = getField ns[k] "kind" ∧
          getField ns'[k] "order" = getField ns[k] "order") ∧
    (infFree 5 rtResult = true → exportTaxonomy 5 rtResult = rtResult)) :=
  ⟨rfl, by decide, C7_import_export_roundtrip rtInput rtResult 5 rfl (by decide)⟩

end TagCore
